import Mathlib

/-!
# Verification of the AVX-512 hybrid quicksort core (`src/avx512-common-qsort.h`)

Shallow embedding of the sorting engine.  Arrays are modelled as `List α` over a
linear order `α` (the scalar comparison semantics of every supported key type:
the pack's `min`, `max`, `ge` "implement the same total ordering as scalar `<`",
spec §4.1).  `arrsize_t` indices are modelled as `Nat`; the few places where the
C code can wrap around in `size_t` arithmetic and where that wraparound is
reachable and observable are modelled with explicit `% 2^64`.  Loads and stores
are bounds-checked: every operation returns `Option`, with `none` on an
out-of-range access (where the C code would read or write outside the array).
The SIMD capability pack (`zmm_vector`) is external to the repository;
everything taken from it rather than from `src/` carries a
`Modelled from the spec:` comment.  Loops that are `while` loops in the source
are given explicit fuel (the enclosing function supplies fuel that provably
suffices for every execution that stays inside the loop's invariant; a run that
leaves it, which in C would spin on wrapped-around unsigned counters and read
far out of bounds, returns `none`).
-/

namespace SimdSort

variable {α : Type} [LinearOrder α] {β : Type} {γ : Type}

/-! ## Array model -/

/-- The subarray `l[a..b)`. -/
def seg (l : List β) (a b : Nat) : List β := (l.drop a).take (b - a)

/-- Bounds-checked block store at `arr + i`: models `vtype::storeu` and
`vtype::mask_compressstoreu` (which writes the selected lanes contiguously;
the caller passes the already-compressed lane list). -/
def writeSeg (l : List β) (i : Nat) (s : List β) : Option (List β) :=
  if i + s.length ≤ l.length then some (l.take i ++ s ++ l.drop (i + s.length)) else none

/-- Bounds-checked block load `vtype::loadu(arr + i)` of `n` lanes. -/
def readSeg (l : List β) (i n : Nat) : Option (List β) :=
  if i + n ≤ l.length then some (seg l i (i + n)) else none

/-- Bounds-checked scalar read `arr[i]`. -/
def readAt (l : List β) (i : Nat) : Option β := l[i]?

/-- Bounds-checked scalar write `arr[i] = x`. -/
def writeAt (l : List β) (i : Nat) (x : β) : Option (List β) :=
  if i < l.length then some (l.set i x) else none

/-- `std::swap(arr[i], arr[j])`. -/
def swapAt (l : List β) (i j : Nat) : Option (List β) := do
  let x ← readAt l i
  let y ← readAt l j
  let l1 ← writeAt l i y
  writeAt l1 j x

/-- `vtype::reducemin` of a register (nonempty lane list). -/
def reducemin : List α → Option α
  | [] => none
  | a :: t => some (t.foldl min a)

/-- `vtype::reducemax` of a register (nonempty lane list). -/
def reducemax : List α → Option α
  | [] => none
  | a :: t => some (t.foldl max a)

/-! ## A structurally recursive sorting routine

Used to model the external sorted-permutation providers: the in-register
bitonic network `vtype::sort_vec`, the bitonic `sort_n` base case (both defined
in the per-type headers, outside `src/`; spec §4.2 requires exactly "a
permutation of the input that is sorted"), and the `std::sort` fallback. -/

def insertOrd (x : α) : List α → List α
  | [] => [x]
  | y :: t => if x ≤ y then x :: y :: t else y :: insertOrd x t

def insertionSort : List α → List α
  | [] => []
  | x :: t => insertOrd x (insertionSort t)

/-- `⌊log2 n⌋` (0 for `n = 0`), as computed by `(arrsize_t)log2((double)n)` in
the source; structurally recursive on a fuel argument so that it evaluates by
kernel reduction. -/
def ilog2F : Nat → Nat → Nat
  | 0, _ => 0
  | f + 1, n => if 2 ≤ n then ilog2F f (n / 2) + 1 else 0

def ilog2 (n : Nat) : Nat := ilog2F n n

/-- `size_t` modulus: `arrsize_t` is 64 bits wide. -/
def W64 : Nat := 2 ^ 64

/-! ## Floating-point values

For the floating-point entry points the element is either an ordinary value
(ordered like the non-NaN floats: a linear order in which the sentinels
`type_max = +inf` and `type_min = -inf` bound every value) or a NaN carrying
its payload/sign bits. -/

inductive FP (α : Type) where
  | val (v : α)
  | nan (payload : Nat)
deriving DecidableEq

/-- `is_a_nan` (`std::isnan`). -/
def FP.isNan : FP α → Bool
  | .val _ => false
  | .nan _ => true

/-- The value of a non-NaN element; NaNs (which are never present where this is
used: the pre-pass has replaced them by `tmax = +inf`) map to `tmax`. -/
def FP.toVal (tmax : α) : FP α → α
  | .val v => v
  | .nan _ => tmax

/-! ## NaN pre/post-passes (`src` lines 118-208)

`replace_nan_with_inf` scans the array register by register, counts the NaN
lanes (`fpclass` + popcount) and stores `vtype::zmm_max()` (+inf) over exactly
the NaN lanes (`mask_storeu`).  Both the test and the store are per-lane
independent, so the chunked SIMD loop coincides with the per-element pass
modelled here. -/

def replace_nan_with_inf (tmax : α) : List (FP α) → List (FP α) × Nat
  | [] => ([], 0)
  | .nan _ :: t =>
      let (t', c) := replace_nan_with_inf tmax t
      (FP.val tmax :: t', c + 1)
  | .val v :: t =>
      let (t', c) := replace_nan_with_inf tmax t
      (FP.val v :: t', c)

/-- The canonical quiet NaN written back by the post-pass
(`std::numeric_limits<type_t>::quiet_NaN()`). -/
def qNaN : FP α := .nan 0

/-- `replace_inf_with_nan(arr, size, nan_count)`: walking `ii` from `size - 1`
downwards while `nan_count > 0`, write `quiet_NaN` into `arr[ii]`.  For
`nan_count ≤ size` (guaranteed by the pre-pass, which counted NaNs of the same
array) this overwrites exactly the last `nan_count` cells, as modelled here;
`min` only makes the model total. -/
def replace_inf_with_nan (arr : List (FP α)) (nan_count : Nat) : List (FP α) :=
  arr.take (arr.length - nan_count) ++ List.replicate (min nan_count arr.length) qNaN

/-- `move_nans_to_end_of_array` two-pointer loop (`src` lines 195-204), with the
iteration count as structural fuel: each iteration either advances `ii` or
retreats `jj`, so `jj - ii` iterations always suffice (the loop guard is
`ii < jj`). -/
def moveNansLoop : Nat → List (FP α) → Nat → Nat → Nat → Option (List (FP α) × Nat × Nat)
  | 0, arr, ii, jj, count => if ii < jj then none else some (arr, ii, count)
  | f + 1, arr, ii, jj, count =>
      if ii < jj then do
        let x ← readAt arr ii
        if x.isNan then do
          let arr' ← swapAt arr ii jj
          moveNansLoop f arr' ii (jj - 1) (count + 1)
        else
          moveNansLoop f arr (ii + 1) jj count
      else some (arr, ii, count)

/-- `move_nans_to_end_of_array(arr, size)` (`src` lines 189-208).  Returns the
permuted array together with `size - count - 1`, which the source computes in
`arrsize_t` arithmetic: for an all-NaN array `count = size` and the returned
"index of the last non-NaN" wraps around to `2^64 - 1`. -/
def move_nans_to_end_of_array (arr : List (FP α)) (size : Nat) :
    Option (List (FP α) × Nat) := do
  let jj := size - 1
  let ii := 0
  let (arr, ii, count) ← moveNansLoop (jj - ii) arr ii jj 0
  let x ← readAt arr ii
  let count := if x.isNan then count + 1 else count
  pure (arr, (size + W64 - (count + 1)) % W64)

/-! ## Pivot sampling (`src` lines 722-849)

`vtype::sort_vec` is the external in-register bitonic network; modelled from
the spec: its contract (§4.1, §4.2) is an in-register sorted permutation, here
`insertionSort`. -/

/-- Collect `n` samples `arr[base], arr[base + stride], arr[base + 2·stride], …`. -/
def sampleList (arr : List α) (base stride : Nat) : Nat → Option (List α)
  | 0 => some []
  | n + 1 => do
      let x ← readAt arr base
      let rest ← sampleList arr (base + stride) stride n
      pure (x :: rest)

/-- `get_pivot_scalar` (lines 722-739): `numSamples = lanes` samples at stride
`(right - left) / lanes` starting at `arr[left]`; sort; take index `lanes / 2`. -/
def get_pivot_scalar (lanes : Nat) (arr : List α) (left right : Nat) : Option α := do
  let delta := (right - left) / lanes
  let samples ← sampleList arr left delta lanes
  readAt (insertionSort samples) (lanes / 2)

/-- `get_pivot_16bit` (lines 741-783): median of 32; the 32 samples are
`arr[left + i·size]` for `i = 0, …, 31` (the first sample is `arr[left]`
itself, line 748), `size = (right - left) / 32`; returns sorted index 16. -/
def get_pivot_16bit (arr : List α) (left right : Nat) : Option α := do
  let size := (right - left) / 32
  let vec_arr ← sampleList arr left size 32
  readAt (insertionSort vec_arr) 16

/-- `get_pivot_32bit` (lines 785-813): median of 16; samples are
`arr[left + i·size]` for `i = 1, …, 16`; returns sorted index 8. -/
def get_pivot_32bit (arr : List α) (left right : Nat) : Option α := do
  let size := (right - left) / 16
  let vec_arr ← sampleList arr (left + size) size 16
  readAt (insertionSort vec_arr) 8

/-- `get_pivot_64bit` (lines 815-834): median of 8; samples are
`arr[left + i·size]` for `i = 1, …, 8`; returns sorted index 4. -/
def get_pivot_64bit (arr : List α) (left right : Nat) : Option α := do
  let size := (right - left) / 8
  let vec_arr ← sampleList arr (left + size) size 8
  readAt (insertionSort vec_arr) 4

/-- `get_pivot` (lines 836-849): dispatch on `vtype::numlanes`. -/
def get_pivot (lanes : Nat) (arr : List α) (left right : Nat) : Option α :=
  if lanes = 8 then get_pivot_64bit arr left right
  else if lanes = 16 then get_pivot_32bit arr left right
  else if lanes = 32 then get_pivot_16bit arr left right
  else get_pivot_scalar lanes arr left right

/-- Modelled from the spec: `get_pivot_blocks` is forward-declared at
`src` lines 854-857 but its body lives outside `src/`.  Spec §4.3: "An
implementer may substitute either" it or the midpoint-stride sampler
`get_pivot`, whose external contract is identical; it is modelled as the
latter. -/
def get_pivot_blocks (lanes : Nat) (arr : List α) (left right : Nat) : Option α :=
  get_pivot lanes arr left right

/-! ## The single-array partition kernel (`src` lines 240-512) -/

/-- `partition_vec` (lines 240-262).  `ge_mask = vtype::ge(curr_vec, pivot_vec)`
holds the lanes `≥ pivot`; `mask_compressstoreu` with `knot(ge_mask)` writes the
remaining (`< pivot`) lanes, in lane order, at `arr + left`; the `ge` lanes go
to `arr + left' + unpartitioned` after `left` has been advanced by
`numlanes - amount_ge_pivot`.  `unpartitioned -= numlanes` is `size_t`
arithmetic in C; it is `Nat` subtraction here, which agrees except after the
very last flush call, where the source never uses the wrapped value again. -/
def partition_vec (lanes : Nat) (arr : List α) (left unpartitioned : Nat)
    (curr_vec : List α) (pivot : α) (smallest_vec biggest_vec : List α) :
    Option (List α × Nat × Nat × List α × List α) := do
  let amount_ge_pivot := (curr_vec.filter (fun x => decide (pivot ≤ x))).length
  let arr1 ← writeSeg arr left (curr_vec.filter (fun x => decide (x < pivot)))
  let left' := left + (lanes - amount_ge_pivot)
  let arr2 ← writeSeg arr1 (left' + unpartitioned)
      (curr_vec.filter (fun x => decide (pivot ≤ x)))
  pure (arr2, left', unpartitioned - lanes,
        List.zipWith min curr_vec smallest_vec, List.zipWith max curr_vec biggest_vec)

/-- The scalar alignment loop shared by `partition_avx512` (lines 276-285) and
`partition_avx512_unrolled` (lines 373-382), run `(right - left) % numlanes`
times (the structural argument): update the running extremes with `arr[left]`,
then either swap `arr[left]` with `arr[--right]` (when `!(arr[left] < pivot)`)
or advance `left`.  State: `(arr, left, right, smallest, biggest)`. -/
def alignLoop (pivot : α) : Nat → List α × Nat × Nat × α × α →
    Option (List α × Nat × Nat × α × α)
  | 0, st => some st
  | i + 1, (arr, left, right, s, b) => do
      let x ← readAt arr left
      let s' := min s x
      let b' := max b x
      if ¬ x < pivot then do
        let arr' ← swapAt arr left (right - 1)
        alignLoop pivot i (arr', left, right - 1, s', b')
      else
        alignLoop pivot i (arr, left + 1, right, s', b')

/-- The main loop of `partition_avx512` (lines 315-339), with fuel.  The guard
`right - left != 0` on `size_t` cursors is exactly `right ≠ left`.  Inside the
loop the source's side-selection test subtracts `size_t` values that are
nonnegative under the loop invariant, where `Nat` subtraction agrees.
State: `(arr, left, right, l_store, unpartitioned, min_vec, max_vec)`. -/
def partLoop (lanes : Nat) (pivot : α) :
    Nat → List α × Nat × Nat × Nat × Nat × List α × List α →
    Option (List α × Nat × Nat × Nat × Nat × List α × List α)
  | 0, _ => none
  | f + 1, (arr, left, right, l_store, unpartitioned, min_vec, max_vec) =>
      if right = left then
        some (arr, left, right, l_store, unpartitioned, min_vec, max_vec)
      else
        if (l_store + unpartitioned + lanes) - right < left - l_store then do
          let right' := right - lanes
          let curr ← readSeg arr right' lanes
          let (arr', l', u', mn', mx') ←
            partition_vec lanes arr l_store unpartitioned curr pivot min_vec max_vec
          partLoop lanes pivot f (arr', left, right', l', u', mn', mx')
        else do
          let curr ← readSeg arr left lanes
          let (arr', l', u', mn', mx') ←
            partition_vec lanes arr l_store unpartitioned curr pivot min_vec max_vec
          partLoop lanes pivot f (arr', left + lanes, right, l', u', mn', mx')

/-- The general path of `partition_avx512` (lines 306-354), after alignment:
load the edge registers, run the main loop, flush `vec_left` and `vec_right`,
reduce the extremes.  (Split out of `partition_avx512` purely to keep
elaboration tractable; `st.1`, `st.2.1`, … project the loop state.) -/
def partitionMain (lanes : Nat) (arr : List α) (left right : Nat) (pivot : α)
    (min_vec max_vec : List α) : Option (List α × Nat × α × α) := do
  let vec_left ← readSeg arr left lanes
  let vec_right ← readSeg arr (right - lanes) lanes
  let unpartitioned := right - left - lanes
  let l_store := left
  let left := left + lanes
  let right := right - lanes
  let st ← partLoop lanes pivot ((right - left) / lanes + 1)
    (arr, left, right, l_store, unpartitioned, min_vec, max_vec)
  let st1 ← partition_vec lanes st.1 st.2.2.2.1 st.2.2.2.2.1 vec_left pivot
    st.2.2.2.2.2.1 st.2.2.2.2.2.2
  let st2 ← partition_vec lanes st1.1 st1.2.1 st1.2.2.1 vec_right pivot
    st1.2.2.2.1 st1.2.2.2.2
  let smallest ← reducemin st2.2.2.2.1
  let biggest ← reducemax st2.2.2.2.2
  pure (st2.1, st2.2.1, smallest, biggest)

/-- `partition_avx512` (lines 267-355).  Note that the single-register path
(lines 295-304) returns `l_store` directly after `partition_vec` and never
reduces `min_vec`/`max_vec` into `*smallest`/`*biggest`; only the general path
does (lines 352-353).  Returns `(arr, l_store, smallest, biggest)`. -/
def partition_avx512 (lanes : Nat) (arr : List α) (left right : Nat) (pivot : α)
    (smallest biggest : α) : Option (List α × Nat × α × α) := do
  let al ← alignLoop pivot ((right - left) % lanes) (arr, left, right, smallest, biggest)
  let arr := al.1
  let left := al.2.1
  let right := al.2.2.1
  let smallest := al.2.2.2.1
  let biggest := al.2.2.2.2
  if left = right then
    pure (arr, left, smallest, biggest)
  else do
    let min_vec := List.replicate lanes smallest
    let max_vec := List.replicate lanes biggest
    if right - left = lanes then do
      let vec ← readSeg arr left lanes
      let unpartitioned := right - left - lanes
      let l_store := left
      let st ← partition_vec lanes arr l_store unpartitioned vec pivot min_vec max_vec
      pure (st.1, st.2.1, smallest, biggest)
    else
      partitionMain lanes arr left right pivot min_vec max_vec

/-! ## The unrolled partition kernel (`src` lines 357-512) -/

/-- The preamble of `partition_avx512_unrolled` (lines 397-411): partition
`vecsToPartition` registers, writing the `< pivot` lanes to `arr + leftStore`
and the `≥ pivot` lanes to the stack scratch `buffer + bufferStored`
(`bufferStored = buffer.length` here).  `pos` is `left + i·numlanes`.
State: `(arr, leftStore, buffer, min_vec, max_vec)`. -/
def preambleLoop (lanes : Nat) (pivot : α) :
    Nat → Nat → List α × Nat × List α × List α × List α →
    Option (List α × Nat × List α × List α × List α)
  | 0, _, st => some st
  | r + 1, pos, (arr, leftStore, buffer, min_vec, max_vec) => do
      let curr ← readSeg arr pos lanes
      let amount_ge_pivot := (curr.filter (fun x => decide (pivot ≤ x))).length
      let arr' ← writeSeg arr leftStore (curr.filter (fun x => decide (x < pivot)))
      let buffer' := buffer ++ curr.filter (fun x => decide (pivot ≤ x))
      preambleLoop lanes pivot r (pos + lanes)
        (arr', leftStore + (lanes - amount_ge_pivot), buffer',
         List.zipWith min curr min_vec, List.zipWith max curr max_vec)

/-- Load `num` consecutive registers starting at `arr + pos`
(lines 436-440 / 457-463 / 466-472). -/
def readGroup (lanes : Nat) (arr : List α) (pos : Nat) : Nat → Option (List (List α))
  | 0 => some []
  | n + 1 => do
      let v ← readSeg arr pos lanes
      let rest ← readGroup lanes arr (pos + lanes) n
      pure (v :: rest)

/-- Run `partition_vec` over a group of registers in order
(lines 476-485 / 489-508).  State: `(arr, l_store, unpartitioned, min_vec, max_vec)`. -/
def pvecFold (lanes : Nat) (pivot : α) :
    List (List α) → List α × Nat × Nat × List α × List α →
    Option (List α × Nat × Nat × List α × List α)
  | [], st => some st
  | c :: cs, (arr, l_store, unpartitioned, min_vec, max_vec) => do
      let (arr', l', u', mn', mx') ←
        partition_vec lanes arr l_store unpartitioned c pivot min_vec max_vec
      pvecFold lanes pivot cs (arr', l', u', mn', mx')

/-- The main loop of `partition_avx512_unrolled` (lines 447-486): per iteration
it loads `num_unroll` registers from one side and partitions them.  Guard and
side selection as in `partLoop`. -/
def partLoopU (lanes U : Nat) (pivot : α) :
    Nat → List α × Nat × Nat × Nat × Nat × List α × List α →
    Option (List α × Nat × Nat × Nat × Nat × List α × List α)
  | 0, _ => none
  | f + 1, (arr, left, right, l_store, unpartitioned, min_vec, max_vec) =>
      if right = left then
        some (arr, left, right, l_store, unpartitioned, min_vec, max_vec)
      else
        if (l_store + unpartitioned + lanes) - right < left - l_store then do
          let right' := right - U * lanes
          let currs ← readGroup lanes arr right' U
          let (arr', l', u', mn', mx') ←
            pvecFold lanes pivot currs (arr, l_store, unpartitioned, min_vec, max_vec)
          partLoopU lanes U pivot f (arr', left, right', l', u', mn', mx')
        else do
          let currs ← readGroup lanes arr left U
          let (arr', l', u', mn', mx') ←
            pvecFold lanes pivot currs (arr, l_store, unpartitioned, min_vec, max_vec)
          partLoopU lanes U pivot f (arr', left + U * lanes, right, l', u', mn', mx')

/-- The post-preamble part of `partition_avx512_unrolled` (lines 432-511):
load the `num_unroll` edge register groups, run the grouped main loop, flush
both groups, reduce the extremes.  (Split out purely to keep elaboration
tractable.) -/
def unrolledMain (lanes U : Nat) (arr : List α) (left right : Nat) (pivot : α)
    (min_vec max_vec : List α) : Option (List α × Nat × α × α) := do
  let vec_left ← readGroup lanes arr left U
  let vec_right ← readGroup lanes arr (right - U * lanes) U
  let unpartitioned := right - left - lanes
  let l_store := left
  let left := left + U * lanes
  let right := right - U * lanes
  let st ← partLoopU lanes U pivot ((right - left) / lanes + 1)
    (arr, left, right, l_store, unpartitioned, min_vec, max_vec)
  let st1 ← pvecFold lanes pivot vec_left
    (st.1, st.2.2.2.1, st.2.2.2.2.1, st.2.2.2.2.2.1, st.2.2.2.2.2.2)
  let st2 ← pvecFold lanes pivot vec_right st1
  let smallest ← reducemin st2.2.2.2.1
  let biggest ← reducemax st2.2.2.2.2
  pure (st2.1, st2.2.1, smallest, biggest)

/-- The preamble-and-copy phase of `partition_avx512_unrolled` (lines 392-430):
partition `vecsToPartition` leftover registers into the scratch buffer, reduce
the extremes (lines 413-414), then the two `memcpy` calls and the cursor
updates.  Returns the state for `unrolledMain`, or the final answer if
everything was consumed (`left == right`, line 429). -/
def unrolledPre (lanes U : Nat) (arr : List α) (left right : Nat) (pivot : α)
    (smallest biggest : α) : Option (List α × Nat × α × α) := do
  let min_vec := List.replicate lanes smallest
  let max_vec := List.replicate lanes biggest
  let vecsToPartition := ((right - left) / lanes) % U
  let pre ← preambleLoop lanes pivot vecsToPartition left (arr, left, [], min_vec, max_vec)
  let arr := pre.1
  let leftStore := pre.2.1
  let buffer := pre.2.2.1
  let min_vec := pre.2.2.2.1
  let max_vec := pre.2.2.2.2
  let bufferStored := buffer.length
  let smallest ← reducemin min_vec
  let biggest ← reducemax max_vec
  let movedTail ← readSeg arr (right - bufferStored) bufferStored
  let arr1 ← writeSeg arr leftStore movedTail
  let arr2 ← writeSeg arr1 (right - bufferStored) buffer
  let left := left + vecsToPartition * lanes - bufferStored
  let right := right - bufferStored
  if left = right then
    pure (arr2, left, smallest, biggest)
  else
    unrolledMain lanes U arr2 left right pivot min_vec max_vec

/-- `partition_avx512_unrolled` (lines 357-512).  `num_unroll == 0` delegates to
`partition_avx512` (lines 367-370).  After the alignment and preamble phases the
two `memcpy` calls (lines 419-423) move the `bufferStored` elements just below
`right` into the gap `[leftStore, left + vecsToPartition·numlanes)` and place the
buffer at the very top; a `memcpy` is modelled as read-then-write (for the one
reachable exact-overlap case, `left + vecsToPartition·numlanes = right`, that is
what any memmove-like execution produces).  Returns
`(arr, l_store, smallest, biggest)`. -/
def partition_avx512_unrolled (lanes U : Nat) (arr : List α) (left right : Nat)
    (pivot : α) (smallest biggest : α) : Option (List α × Nat × α × α) :=
  if U = 0 then partition_avx512 lanes arr left right pivot smallest biggest
  else do
    let al ← alignLoop pivot ((right - left) % lanes) (arr, left, right, smallest, biggest)
    let arr := al.1
    let left := al.2.1
    let right := al.2.2.1
    let smallest := al.2.2.2.1
    let biggest := al.2.2.2.2
    if left = right then
      pure (arr, left, smallest, biggest)
    else
      unrolledPre lanes U arr left right pivot smallest biggest

/-! ## The key-index partition (`src` lines 552-720)

Two parallel arrays; every store on `indexes` uses the opmask computed from
`keys`, so the index lanes selected are exactly those whose paired key lane
satisfies the predicate — expressed below by filtering the zipped register. -/

/-- `partition_vec` key-value overload (lines 562-586).  Writes the `< pivot`
key lanes at `keys + left`, the `≥ pivot` lanes at
`keys + right - amount_gt_pivot`, and the index lanes selected by the same mask
at the same offsets of `indexes`.  Returns `amount_gt_pivot` and the updated
state. -/
def partition_vec_kv (lanes : Nat) (keys : List α) (indexes : List γ)
    (left right : Nat) (keys_vec : List α) (indexes_vec : List γ) (pivot : α)
    (smallest_vec biggest_vec : List α) :
    Option (Nat × List α × List γ × List α × List α) := do
  let amount_gt_pivot := (keys_vec.filter (fun x => decide (pivot ≤ x))).length
  let keys1 ← writeSeg keys left (keys_vec.filter (fun x => decide (x < pivot)))
  let keys2 ← writeSeg keys1 (right - amount_gt_pivot)
      (keys_vec.filter (fun x => decide (pivot ≤ x)))
  let idx1 ← writeSeg indexes left
      (((keys_vec.zip indexes_vec).filter (fun kv => decide (kv.1 < pivot))).map Prod.snd)
  let idx2 ← writeSeg idx1 (right - amount_gt_pivot)
      (((keys_vec.zip indexes_vec).filter (fun kv => decide (pivot ≤ kv.1))).map Prod.snd)
  pure (amount_gt_pivot, keys2, idx2,
        List.zipWith min keys_vec smallest_vec, List.zipWith max keys_vec biggest_vec)

/-- The scalar alignment loop of the key-value `partition_avx512`
(lines 606-617).  Unlike the single-array kernel (which tests
`!(keys[left] < pivot)`), this one sends an element right only when
`keys[left] > pivot`, so keys equal to the pivot stay on the left here.
State: `(keys, indexes, left, right, smallest, biggest)`. -/
def alignLoopKV (pivot : α) : Nat → List α × List γ × Nat × Nat × α × α →
    Option (List α × List γ × Nat × Nat × α × α)
  | 0, st => some st
  | i + 1, (keys, indexes, left, right, s, b) => do
      let x ← readAt keys left
      let s' := min s x
      let b' := max b x
      if pivot < x then do
        let right' := right - 1
        let keys' ← swapAt keys left right'
        let indexes' ← swapAt indexes left right'
        alignLoopKV pivot i (keys', indexes', left, right', s', b')
      else
        alignLoopKV pivot i (keys, indexes, left + 1, right, s', b')

/-- The main loop of the key-value `partition_avx512` (lines 660-693), with
fuel.  Store cursors are `l_store` and `r_store`; `partition_vec` is invoked
with `(l_store, r_store + numlanes)` and afterwards `r_store -= amount`,
`l_store += numlanes - amount`.
State: `(keys, indexes, left, right, l_store, r_store, min_vec, max_vec)`. -/
def partLoopKV (lanes : Nat) (pivot : α) :
    Nat → List α × List γ × Nat × Nat × Nat × Nat × List α × List α →
    Option (List α × List γ × Nat × Nat × Nat × Nat × List α × List α)
  | 0, _ => none
  | f + 1, (keys, indexes, left, right, l_store, r_store, min_vec, max_vec) =>
      if right = left then
        some (keys, indexes, left, right, l_store, r_store, min_vec, max_vec)
      else
        if (r_store + lanes) - right < left - l_store then do
          let right' := right - lanes
          let kvec ← readSeg keys right' lanes
          let ivec ← readSeg indexes right' lanes
          let (amount, keys', indexes', mn', mx') ←
            partition_vec_kv lanes keys indexes l_store (r_store + lanes)
              kvec ivec pivot min_vec max_vec
          partLoopKV lanes pivot f
            (keys', indexes', left, right', l_store + (lanes - amount),
             r_store - amount, mn', mx')
        else do
          let kvec ← readSeg keys left lanes
          let ivec ← readSeg indexes left lanes
          let (amount, keys', indexes', mn', mx') ←
            partition_vec_kv lanes keys indexes l_store (r_store + lanes)
              kvec ivec pivot min_vec max_vec
          partLoopKV lanes pivot f
            (keys', indexes', left + lanes, right, l_store + (lanes - amount),
             r_store - amount, mn', mx')

/-- The general path of the key-value `partition_avx512` (lines 646-719), after
alignment: load both edge register pairs, run the main loop, flush them, reduce
the extremes.  (Split out purely to keep elaboration tractable.) -/
def partitionMainKV (lanes : Nat) (keys : List α) (indexes : List γ)
    (left right : Nat) (pivot : α) (min_vec max_vec : List α) :
    Option (Nat × List α × List γ × α × α) := do
  let keys_vec_left ← readSeg keys left lanes
  let keys_vec_right ← readSeg keys (right - lanes) lanes
  let indexes_vec_left ← readSeg indexes left lanes
  let indexes_vec_right ← readSeg indexes (right - lanes) lanes
  let r_store := right - lanes
  let l_store := left
  let left := left + lanes
  let right := right - lanes
  let st ← partLoopKV lanes pivot ((right - left) / lanes + 1)
    (keys, indexes, left, right, l_store, r_store, min_vec, max_vec)
  let l_store := st.2.2.2.2.1
  let r_store := st.2.2.2.2.2.1
  let st1 ← partition_vec_kv lanes st.1 st.2.1 l_store (r_store + lanes)
    keys_vec_left indexes_vec_left pivot st.2.2.2.2.2.2.1 st.2.2.2.2.2.2.2
  let l_store := l_store + (lanes - st1.1)
  let st2 ← partition_vec_kv lanes st1.2.1 st1.2.2.1 l_store (l_store + lanes)
    keys_vec_right indexes_vec_right pivot st1.2.2.2.1 st1.2.2.2.2
  let l_store := l_store + (lanes - st2.1)
  let smallest ← reducemin st2.2.2.2.1
  let biggest ← reducemax st2.2.2.2.2
  pure (l_store, st2.2.1, st2.2.2.1, smallest, biggest)

/-- Key-value `partition_avx512` (lines 591-720).  Returns
`(l_store, keys, indexes, smallest, biggest)`. -/
def partition_avx512_kv (lanes : Nat) (keys : List α) (indexes : List γ)
    (left right : Nat) (pivot : α) (smallest biggest : α) :
    Option (Nat × List α × List γ × α × α) := do
  let al ← alignLoopKV pivot ((right - left) % lanes)
    (keys, indexes, left, right, smallest, biggest)
  let keys := al.1
  let indexes := al.2.1
  let left := al.2.2.1
  let right := al.2.2.2.1
  let smallest := al.2.2.2.2.1
  let biggest := al.2.2.2.2.2
  if left = right then
    pure (left, keys, indexes, smallest, biggest)
  else do
    let min_vec := List.replicate lanes smallest
    let max_vec := List.replicate lanes biggest
    if right - left = lanes then do
      let keys_vec ← readSeg keys left lanes
      let indexes_vec ← readSeg indexes left lanes
      let st ← partition_vec_kv lanes keys indexes left (left + lanes)
        keys_vec indexes_vec pivot min_vec max_vec
      let smallest ← reducemin st.2.2.2.1
      let biggest ← reducemax st.2.2.2.2
      pure (left + (lanes - st.1), st.2.1, st.2.2.1, smallest, biggest)
    else
      partitionMainKV lanes keys indexes left right pivot min_vec max_vec

/-! ## Drivers and entry points (`src` lines 851-976) -/

/-- Modelled from the spec: `sort_n` (the bitonic-network base case,
forward-declared at `src` lines 851-852, bodies in the per-type headers outside
`src/`).  Spec §4.2: "for any input of length M ≤ network_threshold, the output
is a permutation of the input that is sorted".  It sorts `n` elements in place
at `arr + left`. -/
def sort_n_seg (arr : List α) (left n : Nat) : Option (List α) := do
  let s ← readSeg arr left n
  writeSeg arr left (insertionSort s)

/-- `std::sort(arr + left, arr + right + 1, comparison_func)`: the C++ standard
library comparison sort, modelled by its contract (sorted permutation of the
range `[left, right1)`). -/
def stdSortSeg (arr : List α) (left right1 : Nat) : Option (List α) := do
  let s ← readSeg arr left (right1 - left)
  writeSeg arr left (insertionSort s)

/-- `qsort_` (lines 859-890), structurally recursive on `max_iters`
(`max_iters <= 0` on the unsigned `arrsize_t` is `max_iters == 0`).
`pivot_index - 1` is `size_t` arithmetic; under the driver's invariants
`pivot != smallest` implies `pivot_index > left ≥ 0` (proved below), so `Nat`
subtraction agrees with the source. -/
def qsortRec (lanes threshold U : Nat) (tmax tmin : α) :
    Nat → List α → Nat → Nat → Option (List α)
  | 0, arr, left, right => stdSortSeg arr left (right + 1)
  | m + 1, arr, left, right =>
      if right + 1 - left ≤ threshold then
        sort_n_seg arr left (right + 1 - left)
      else do
        let pivot ← get_pivot_blocks lanes arr left right
        let pr ← partition_avx512_unrolled lanes U arr left (right + 1) pivot tmax tmin
        let pivot_index := pr.2.1
        let arr1 ←
          if pivot ≠ pr.2.2.1 then
            qsortRec lanes threshold U tmax tmin m pr.1 left (pivot_index - 1)
          else pure pr.1
        if pivot ≠ pr.2.2.2 then
          qsortRec lanes threshold U tmax tmin m arr1 pivot_index right
        else pure arr1

/-- `qselect_` (lines 892-927), structurally recursive on `max_iters`. -/
def qselectRec (lanes threshold U : Nat) (tmax tmin : α) :
    Nat → List α → Nat → Nat → Nat → Option (List α)
  | 0, arr, _, left, right => stdSortSeg arr left (right + 1)
  | m + 1, arr, pos, left, right =>
      if right + 1 - left ≤ threshold then
        sort_n_seg arr left (right + 1 - left)
      else do
        let pivot ← get_pivot lanes arr left right
        let pr ← partition_avx512_unrolled lanes U arr left (right + 1) pivot tmax tmin
        let pivot_index := pr.2.1
        if pivot ≠ pr.2.2.1 ∧ pos < pivot_index then
          qselectRec lanes threshold U tmax tmin m pr.1 pos left (pivot_index - 1)
        else if pivot ≠ pr.2.2.2 ∧ pivot_index ≤ pos then
          qselectRec lanes threshold U tmax tmin m pr.1 pos pivot_index right
        else pure pr.1

/-- `avx512_qsort` (lines 930-947), non-floating-point branch: for
`arrsize > 1` run `qsort_(arr, 0, arrsize - 1, 2·log2(arrsize))`.  The list may
be longer than `arrsize`; only the first `arrsize` cells are touched. -/
def avx512_qsort (lanes threshold U : Nat) (tmax tmin : α) (arr : List α)
    (arrsize : Nat) : Option (List α) :=
  if 1 < arrsize then
    qsortRec lanes threshold U tmax tmin (2 * ilog2 arrsize) arr 0 (arrsize - 1)
  else some arr

/-- `avx512_qsort` (lines 930-947), floating-point branch: `replace_nan_with_inf`
(after which the array provably contains no NaN, so it is carried as its value
list), then `qsort_`, then `replace_inf_with_nan`.  The claims instantiate
`arrsize` with the array length. -/
def avx512_qsort_fp (lanes threshold U : Nat) (tmax tmin : α) (arr : List (FP α))
    (arrsize : Nat) : Option (List (FP α)) :=
  if 1 < arrsize then do
    let (arr1, nan_count) := replace_nan_with_inf tmax arr
    let vals := arr1.map (FP.toVal tmax)
    let sorted ←
      qsortRec lanes threshold U tmax tmin (2 * ilog2 arrsize) vals 0 (arrsize - 1)
    pure (replace_inf_with_nan (sorted.map FP.val) nan_count)
  else some arr

/-- `avx512_qselect` (lines 949-965), non-floating-point branch (`hasnan` is
unused there).  `indx_last_elem = arrsize - 1` wraps for `arrsize = 0` in C; no
claim exercises that case and `Nat` subtraction is used. -/
def avx512_qselect (lanes threshold U : Nat) (tmax tmin : α) (arr : List α)
    (k arrsize : Nat) : Option (List α) :=
  let indx_last_elem := arrsize - 1
  if k ≤ indx_last_elem then
    qselectRec lanes threshold U tmax tmin (2 * ilog2 indx_last_elem) arr k 0 indx_last_elem
  else some arr

/-- `avx512_partial_qsort` (lines 967-975; the name is shortened here):
`avx512_qselect(arr, k - 1, arrsize)` followed by `avx512_qsort(arr, k - 1)`.
`k - 1` is `arrsize_t` arithmetic: for `k = 0` it wraps around to `2^64 - 1`,
which is modelled exactly. -/
def avx512_pqsort (lanes threshold U : Nat) (tmax tmin : α) (arr : List α)
    (k arrsize : Nat) : Option (List α) := do
  let k1 := (k + (W64 - 1)) % W64
  let arr ← avx512_qselect lanes threshold U tmax tmin arr k1 arrsize
  avx512_qsort lanes threshold U tmax tmin arr k1

/-! ## Proof infrastructure: invariants of the vectorized partition phase

`LoopInv` is the state invariant of the partition main loops (§4.4 of the
spec): relative to the working range `[L0, R0)` of the original array `orig`,
the cells `[L0, lst)` hold finalized `< pivot` elements, the cells
`[lst + unp + lanes, R0)` hold finalized `≥ pivot` elements, `[left, right)` is
the unread window, and `extra` is the multiset of lanes currently held in
registers (the cached edge vectors and any loaded-but-unstored group).  The
free scratch space is `card extra` cells. -/

structure LoopInv (lanes : Nat) (P : α) (orig : List α) (L0 R0 : Nat)
    (extra : Multiset α) (arr : List α) (left right lst unp : Nat) : Prop where
  len : arr.length = orig.length
  hL0 : L0 ≤ lst
  hlst : lst ≤ left
  hlr : left ≤ right
  hrst : right ≤ lst + unp + lanes
  hR0 : lst + unp + lanes ≤ R0
  hR0len : R0 ≤ orig.length
  hdvd : lanes ∣ right - left
  hunp : unp + lanes = (right - left) + Multiset.card extra
  hlt : ∀ j x, L0 ≤ j → j < lst → arr[j]? = some x → x < P
  hge : ∀ j x, lst + unp + lanes ≤ j → j < R0 → arr[j]? = some x → P ≤ x
  hframe : ∀ j, j < L0 ∨ R0 ≤ j → arr[j]? = orig[j]?
  hperm : (↑(seg arr L0 lst) : Multiset α) + ↑(seg arr left right)
      + ↑(seg arr (lst + unp + lanes) R0) + extra = ↑(seg orig L0 R0)

/-- Invariant of the running extreme registers during the vectorized phase:
`S` is the multiset of elements folded into `min_vec`/`max_vec` so far (the
lanes of every register handed to `partition_vec` since the vectors were seeded
from `s0`/`b0`); `reducemin`/`reducemax` of the registers bound exactly those
elements together with the seeds, and are attained. -/
structure MinMaxInv (lanes : Nat) (s0 b0 : α) (S : Multiset α)
    (mn mx : List α) : Prop where
  mnlen : mn.length = lanes
  mxlen : mx.length = lanes
  hmn : ∃ m, reducemin mn = some m ∧ m ≤ s0 ∧ (∀ x ∈ S, m ≤ x) ∧ (m = s0 ∨ m ∈ S)
  hmx : ∃ m, reducemax mx = some m ∧ b0 ≤ m ∧ (∀ x ∈ S, x ≤ m) ∧ (m = b0 ∨ m ∈ S)

/-- The multiset of all lanes of a register group. -/
def msum : List (List β) → Multiset β
  | [] => 0
  | c :: cs => ↑c + msum cs

/-- Invariant of the key-value partition main loop (the kv overload of
`partition_avx512`, lines 591-720): same shape as `LoopInv`, but the state is
the pair of arrays `keys`/`idx` moved in lock-step, the right store cursor
`rst` is carried directly (the ge region starts at `rst + lanes`), and the
permutation bookkeeping is over the zipped pair segments, so that an index
always travels with its key.  The extremes are not tracked. -/
structure KVInv (lanes : Nat) (P : α) (okeys : List α) (oidx : List γ)
    (L0 R0 : Nat) (extra : Multiset (α × γ)) (keys : List α) (idx : List γ)
    (left right lst rst : Nat) : Prop where
  klen : keys.length = okeys.length
  ilen : idx.length = oidx.length
  olen : okeys.length = oidx.length
  hL0 : L0 ≤ lst
  hlst : lst ≤ left
  hlr : left ≤ right
  hrst : right ≤ rst + lanes
  hR0 : rst + lanes ≤ R0
  hR0len : R0 ≤ okeys.length
  hdvd : lanes ∣ right - left
  hcnt : rst + lanes - lst = (right - left) + Multiset.card extra
  hlt : ∀ j x, L0 ≤ j → j < lst → keys[j]? = some x → x < P
  hge : ∀ j x, rst + lanes ≤ j → j < R0 → keys[j]? = some x → P ≤ x
  hframeK : ∀ j, j < L0 ∨ R0 ≤ j → keys[j]? = okeys[j]?
  hframeI : ∀ j, j < L0 ∨ R0 ≤ j → idx[j]? = oidx[j]?
  hperm : (↑((seg keys L0 lst).zip (seg idx L0 lst)) : Multiset (α × γ))
      + ↑((seg keys left right).zip (seg idx left right))
      + ↑((seg keys (rst + lanes) R0).zip (seg idx (rst + lanes) R0))
      + extra
      = ↑((seg okeys L0 R0).zip (seg oidx L0 R0))

/-! # Lemmas -/

/-! ## The array model -/

lemma seg_length {l : List β} {a b : Nat} (hb : b ≤ l.length) :
    (seg l a b).length = b - a := by
  simp [seg]
  omega

lemma seg_length_le (l : List β) (a b : Nat) : (seg l a b).length ≤ b - a := by
  simp [seg]

lemma seg_getElem? {l : List β} {a b : Nat} (i : Nat) (hi : i < b - a) :
    (seg l a b)[i]? = l[a + i]? := by
  simp [seg, List.getElem?_take, hi, List.getElem?_drop]

lemma seg_getElem?_of_ge {l : List β} {a b i : Nat} (hi : b - a ≤ i) :
    (seg l a b)[i]? = none := by
  apply List.getElem?_eq_none
  exact le_trans (seg_length_le l a b) hi

lemma seg_nil {l : List β} {a b : Nat} (h : b ≤ a) : seg l a b = [] := by
  simp [seg, Nat.sub_eq_zero_of_le h]

lemma seg_zero_length (l : List β) : seg l 0 l.length = l := by
  simp [seg]

/-- Two arrays that agree pointwise on `[a, b)` have equal segments, provided
`b` is within both. -/
lemma seg_congr {l l' : List β} {a b : Nat} (hb : b ≤ l.length)
    (hb' : b ≤ l'.length) (h : ∀ i, a ≤ i → i < b → l'[i]? = l[i]?) :
    seg l' a b = seg l a b := by
  apply List.ext_getElem?
  intro i
  rcases lt_or_le i (b - a) with hi | hi
  · rw [seg_getElem? i hi, seg_getElem? i hi]
    exact h (a + i) (Nat.le_add_right a i) (by omega)
  · rw [seg_getElem?_of_ge hi, seg_getElem?_of_ge hi]

lemma seg_split {l : List β} {a b c : Nat} (hab : a ≤ b) (hbc : b ≤ c)
    (hc : c ≤ l.length) : seg l a c = seg l a b ++ seg l b c := by
  apply List.ext_getElem?
  intro i
  have hlen : (seg l a b).length = b - a := seg_length (le_trans hbc hc)
  rw [List.getElem?_append, hlen]
  rcases lt_or_le i (b - a) with hi | hi
  · rw [if_pos hi, seg_getElem? i hi, seg_getElem? i (by omega)]
  · rw [if_neg (by omega)]
    rcases lt_or_le i (c - a) with hi2 | hi2
    · rw [seg_getElem? i hi2, seg_getElem? (i - (b - a)) (by omega)]
      congr 1
      omega
    · rw [seg_getElem?_of_ge hi2, seg_getElem?_of_ge (by omega)]

lemma seg_singleton {l : List β} {a : Nat} (ha : a < l.length) :
    seg l a (a + 1) = [l.get ⟨a, ha⟩] := by
  apply List.ext_getElem?
  intro i
  match i with
  | 0 =>
      rw [seg_getElem? 0 (by omega), Nat.add_zero, List.getElem?_eq_getElem ha]
      simp
  | n + 1 =>
      rw [seg_getElem?_of_ge (by omega)]
      simp

lemma writeSeg_eq_some {l s : List β} {i : Nat} (h : i + s.length ≤ l.length) :
    writeSeg l i s = some (l.take i ++ s ++ l.drop (i + s.length)) := by
  simp [writeSeg, h]

lemma writeSeg_length {l s l' : List β} {i : Nat} (h : writeSeg l i s = some l') :
    l'.length = l.length := by
  by_cases hb : i + s.length ≤ l.length
  · rw [writeSeg_eq_some hb] at h
    cases h
    simp
    omega
  · simp [writeSeg, hb] at h

lemma writeSeg_bound {l s l' : List β} {i : Nat} (h : writeSeg l i s = some l') :
    i + s.length ≤ l.length := by
  by_cases hb : i + s.length ≤ l.length
  · exact hb
  · simp [writeSeg, hb] at h

lemma writeSeg_getElem? {l s l' : List β} {i : Nat} (h : writeSeg l i s = some l')
    (j : Nat) : l'[j]? = if i ≤ j ∧ j < i + s.length then s[j - i]? else l[j]? := by
  have hb := writeSeg_bound h
  rw [writeSeg_eq_some hb] at h
  cases h
  have hti : (l.take i).length = i := by simp; omega
  rcases lt_or_le j i with hj | hj
  · rw [if_neg (by omega), List.getElem?_append, List.length_append, hti,
      if_pos (by omega), List.getElem?_append, hti, if_pos hj, List.getElem?_take,
      if_pos hj]
  · rcases lt_or_le j (i + s.length) with hj2 | hj2
    · rw [if_pos ⟨hj, hj2⟩, List.getElem?_append, List.length_append, hti,
        if_pos (by omega), List.getElem?_append, hti, if_neg (by omega)]
    · rw [if_neg (by omega), List.getElem?_append, List.length_append, hti,
        if_neg (by omega), List.getElem?_drop]
      congr 1
      omega

/-- The written segment reads back. -/
lemma writeSeg_seg_self {l s l' : List β} {i : Nat} (h : writeSeg l i s = some l') :
    seg l' i (i + s.length) = s := by
  have hb := writeSeg_bound h
  apply List.ext_getElem?
  intro j
  rcases lt_or_le j s.length with hj | hj
  · rw [seg_getElem? j (by omega), writeSeg_getElem? h, if_pos (by omega)]
    congr 1
    omega
  · rw [seg_getElem?_of_ge (by omega), List.getElem?_eq_none hj]

lemma writeSeg_getElem?_of_lt {l s l' : List β} {i : Nat}
    (h : writeSeg l i s = some l') {j : Nat} (hj : j < i) : l'[j]? = l[j]? := by
  rw [writeSeg_getElem? h, if_neg (by omega)]

lemma writeSeg_getElem?_of_ge {l s l' : List β} {i : Nat}
    (h : writeSeg l i s = some l') {j : Nat} (hj : i + s.length ≤ j) : l'[j]? = l[j]? := by
  rw [writeSeg_getElem? h, if_neg (by omega)]

lemma readSeg_eq_some {l : List β} {i n : Nat} (h : i + n ≤ l.length) :
    readSeg l i n = some (seg l i (i + n)) := by
  simp [readSeg, h]

lemma readSeg_some_elim {l s : List β} {i n : Nat} (h : readSeg l i n = some s) :
    i + n ≤ l.length ∧ s = seg l i (i + n) := by
  by_cases hb : i + n ≤ l.length
  · rw [readSeg_eq_some hb] at h
    exact ⟨hb, (Option.some.inj h).symm⟩
  · simp [readSeg, hb] at h

lemma readSeg_length {l s : List β} {i n : Nat} (h : readSeg l i n = some s) :
    s.length = n := by
  obtain ⟨hb, rfl⟩ := readSeg_some_elim h
  rw [seg_length (by omega)]
  omega

lemma readAt_eq_some {l : List β} {i : Nat} (h : i < l.length) :
    readAt l i = some (l.get ⟨i, h⟩) := by
  simp [readAt, List.getElem?_eq_getElem h]

lemma readAt_some_elim {l : List β} {i : Nat} {x : β} (h : readAt l i = some x) :
    i < l.length ∧ l[i]? = some x := by
  refine ⟨?_, h⟩
  by_contra hb
  simp [readAt, List.getElem?_eq_none (by omega : l.length ≤ i)] at h

lemma writeAt_eq_some {l : List β} {i : Nat} {x : β} (h : i < l.length) :
    writeAt l i x = some (l.set i x) := by
  simp [writeAt, h]

lemma swapAt_eq_some {l : List β} {i j : Nat} (hi : i < l.length) (hj : j < l.length) :
    swapAt l i j = some ((l.set i (l.get ⟨j, hj⟩)).set j (l.get ⟨i, hi⟩)) := by
  rw [swapAt, readAt_eq_some hi, readAt_eq_some hj]
  simp only [Option.bind_eq_bind, Option.some_bind]
  rw [writeAt_eq_some hi]
  simp only [Option.some_bind]
  rw [writeAt_eq_some (by simp [hj])]

lemma swapAt_some_bounds {l l' : List β} {i j : Nat} (h : swapAt l i j = some l') :
    i < l.length ∧ j < l.length := by
  by_cases hi : i < l.length
  · by_cases hj : j < l.length
    · exact ⟨hi, hj⟩
    · exfalso
      rw [swapAt, readAt_eq_some hi] at h
      simp only [Option.bind_eq_bind, Option.some_bind] at h
      rw [readAt, List.getElem?_eq_none (by omega)] at h
      simp at h
  · exfalso
    rw [swapAt, readAt, List.getElem?_eq_none (by omega)] at h
    simp at h

lemma swapAt_length {l l' : List β} {i j : Nat} (h : swapAt l i j = some l') :
    l'.length = l.length := by
  obtain ⟨hi, hj⟩ := swapAt_some_bounds h
  rw [swapAt_eq_some hi hj] at h
  cases h
  simp

lemma swapAt_getElem? {l l' : List β} {i j : Nat} (hi : i < l.length)
    (hj : j < l.length) (h : swapAt l i j = some l') (m : Nat) :
    l'[m]? = if m = i then l[j]? else if m = j then l[i]? else l[m]? := by
  rw [swapAt_eq_some hi hj] at h
  cases h
  simp only [List.get_eq_getElem]
  rcases eq_or_ne m i with hmi | hmi
  · subst hmi
    rcases eq_or_ne m j with hmj | hmj
    · subst hmj
      simp [List.getElem?_set, hi, List.getElem?_eq_getElem hi]
    · rw [List.getElem?_set, if_neg (Ne.symm hmj), List.getElem?_set, if_pos rfl,
        if_pos rfl]
      simp [hi, List.getElem?_eq_getElem hj]
  · rcases eq_or_ne m j with hmj | hmj
    · subst hmj
      rw [List.getElem?_set, if_pos rfl, if_neg hmi, if_pos rfl]
      simp [hi, hj, List.getElem?_eq_getElem hi]
    · rw [List.getElem?_set, if_neg (Ne.symm hmj), List.getElem?_set,
        if_neg (Ne.symm hmi), if_neg hmi, if_neg hmj]

/-! ## Multiset views of segments -/

lemma seg_mset_split {l : List β} {a b c : Nat} (hab : a ≤ b) (hbc : b ≤ c)
    (hc : c ≤ l.length) :
    (↑(seg l a c) : Multiset β) = ↑(seg l a b) + ↑(seg l b c) := by
  rw [seg_split hab hbc hc]
  rfl

/-- A swap of two positions inside `[lo, hi)` leaves the multiset of the
segment unchanged. -/
lemma swapAt_seg_mset {l l' : List β} {i j lo hi : Nat} (h : swapAt l i j = some l')
    (hloi : lo ≤ i) (hij : i ≤ j) (hjhi : j < hi) (hhi : hi ≤ l.length) :
    (↑(seg l' lo hi) : Multiset β) = ↑(seg l lo hi) := by
  have hi' : i < l.length := by omega
  have hj' : j < l.length := by omega
  have hlen : l'.length = l.length := swapAt_length h
  have hget := swapAt_getElem? hi' hj' h
  rcases eq_or_ne i j with rfl | hne
  · have : seg l' lo hi = seg l lo hi := by
      apply seg_congr hhi (by omega)
      intro m _ _
      rw [hget m]
      rcases eq_or_ne m i with rfl | hm
      · simp
      · simp [hm]
    rw [this]
  · have hij' : i < j := by omega
    have e1 : seg l' lo i = seg l lo i := by
      apply seg_congr (by omega) (by omega)
      intro m _ hm2
      rw [hget m, if_neg (by omega), if_neg (by omega)]
    have e2 : seg l' (i + 1) j = seg l (i + 1) j := by
      apply seg_congr (by omega) (by omega)
      intro m hm1 hm2
      rw [hget m, if_neg (by omega), if_neg (by omega)]
    have e3 : seg l' (j + 1) hi = seg l (j + 1) hi := by
      apply seg_congr (by omega) (by omega)
      intro m hm1 _
      rw [hget m, if_neg (by omega), if_neg (by omega)]
    have e4 : seg l' i (i + 1) = [l.get ⟨j, hj'⟩] := by
      rw [seg_singleton (by omega)]
      congr 1
      have := hget i
      rw [if_pos rfl] at this
      rw [List.getElem?_eq_getElem hj'] at this
      simp only [List.get_eq_getElem]
      exact Option.some.inj ((List.getElem?_eq_getElem (by omega)).symm.trans this)
    have e5 : seg l' j (j + 1) = [l.get ⟨i, hi'⟩] := by
      rw [seg_singleton (by omega)]
      congr 1
      have := hget j
      rw [if_neg (by omega), if_pos rfl] at this
      rw [List.getElem?_eq_getElem hi'] at this
      simp only [List.get_eq_getElem]
      exact Option.some.inj ((List.getElem?_eq_getElem (by omega)).symm.trans this)
    have d1 : (↑(seg l' lo hi) : Multiset β)
        = ↑(seg l' lo i) + ↑(seg l' i (i + 1)) + ↑(seg l' (i + 1) j)
          + ↑(seg l' j (j + 1)) + ↑(seg l' (j + 1) hi) := by
      rw [seg_mset_split hloi (by omega : i ≤ hi) (by omega),
        seg_mset_split (by omega : i ≤ i + 1) (by omega : i + 1 ≤ hi) (by omega),
        seg_mset_split (by omega : i + 1 ≤ j) (by omega : j ≤ hi) (by omega),
        seg_mset_split (by omega : j ≤ j + 1) (by omega : j + 1 ≤ hi) (by omega)]
      abel
    have d2 : (↑(seg l lo hi) : Multiset β)
        = ↑(seg l lo i) + ↑(seg l i (i + 1)) + ↑(seg l (i + 1) j)
          + ↑(seg l j (j + 1)) + ↑(seg l (j + 1) hi) := by
      rw [seg_mset_split hloi (by omega : i ≤ hi) hhi,
        seg_mset_split (by omega : i ≤ i + 1) (by omega : i + 1 ≤ hi) hhi,
        seg_mset_split (by omega : i + 1 ≤ j) (by omega : j ≤ hi) hhi,
        seg_mset_split (by omega : j ≤ j + 1) (by omega : j + 1 ≤ hi) hhi]
      abel
    rw [d1, d2, e1, e2, e3, e4, e5, seg_singleton hi', seg_singleton hj']
    abel

/-! ## Lane filters -/

lemma filter_length_split (p : β → Bool) (l : List β) :
    (l.filter p).length + (l.filter (fun x => ! p x)).length = l.length := by
  induction l with
  | nil => simp
  | cons x t ih =>
      by_cases hx : p x <;> simp [List.filter_cons, hx] <;> omega

lemma filter_mset_split (p : β → Bool) (l : List β) :
    (↑(l.filter p) : Multiset β) + ↑(l.filter (fun x => ! p x)) = ↑l :=
  Multiset.coe_eq_coe.mpr (List.filter_append_perm p l)

/-- The `knot(ge_mask)` filter is the `< pivot` filter. -/
lemma filter_lt_eq_not_ge (pivot : α) (l : List α) :
    l.filter (fun x => decide (x < pivot)) = l.filter (fun x => ! decide (pivot ≤ x)) := by
  apply List.filter_congr
  intro x _
  by_cases h : pivot ≤ x
  · simp [h, not_lt.mpr h]
  · simp [h, not_le.mp h]

lemma length_filter_ge_le (pivot : α) (l : List α) :
    (l.filter (fun x => decide (pivot ≤ x))).length ≤ l.length :=
  List.length_filter_le _ l

lemma filter_ge_add_filter_lt (pivot : α) (l : List α) :
    (l.filter (fun x => decide (pivot ≤ x))).length
      + (l.filter (fun x => decide (x < pivot))).length = l.length := by
  rw [filter_lt_eq_not_ge]
  exact filter_length_split _ l

lemma filter_ge_lt_mset (pivot : α) (l : List α) :
    (↑(l.filter (fun x => decide (pivot ≤ x))) : Multiset α)
      + ↑(l.filter (fun x => decide (x < pivot))) = ↑l := by
  rw [filter_lt_eq_not_ge]
  exact filter_mset_split _ l

/-! ## The sorted-permutation provider -/

lemma insertOrd_perm (x : α) (l : List α) : (insertOrd x l).Perm (x :: l) := by
  induction l with
  | nil => simp [insertOrd]
  | cons y t ih =>
      by_cases hxy : x ≤ y
      · simp [insertOrd, hxy]
      · rw [insertOrd, if_neg hxy]
        exact (ih.cons y).trans (List.Perm.swap x y t)

lemma insertOrd_sorted {x : α} {l : List α} (h : l.Sorted (· ≤ ·)) :
    (insertOrd x l).Sorted (· ≤ ·) := by
  induction l with
  | nil => simp [insertOrd]
  | cons y t ih =>
      obtain ⟨hy, ht⟩ := List.sorted_cons.mp h
      by_cases hxy : x ≤ y
      · rw [insertOrd, if_pos hxy]
        refine List.sorted_cons.mpr ⟨?_, h⟩
        intro b hb
        rcases List.mem_cons.mp hb with rfl | hb
        · exact hxy
        · exact le_trans hxy (hy b hb)
      · rw [insertOrd, if_neg hxy]
        refine List.sorted_cons.mpr ⟨?_, ih ht⟩
        intro b hb
        rcases List.mem_cons.mp ((insertOrd_perm x t).mem_iff.mp hb) with rfl | h1
        · exact le_of_not_le hxy
        · exact hy b h1

lemma insertionSort_perm (l : List α) : (insertionSort l).Perm l := by
  induction l with
  | nil => simp [insertionSort]
  | cons x t ih => exact (insertOrd_perm x (insertionSort t)).trans (ih.cons x)

lemma insertionSort_sorted (l : List α) : (insertionSort l).Sorted (· ≤ ·) := by
  induction l with
  | nil => simp [insertionSort]
  | cons x t ih => exact insertOrd_sorted ih

lemma insertionSort_length (l : List α) : (insertionSort l).length = l.length :=
  (insertionSort_perm l).length_eq

lemma insertionSort_mset (l : List α) :
    (↑(insertionSort l) : Multiset α) = ↑l :=
  Multiset.coe_eq_coe.mpr (insertionSort_perm l)

/-! ## Reductions -/

lemma foldl_min_le_init (t : List α) (a : α) : t.foldl min a ≤ a := by
  induction t generalizing a with
  | nil => simp
  | cons x s ih => exact le_trans (ih (min a x)) (min_le_left a x)

lemma foldl_min_le_mem (t : List α) (a : α) {x : α} (hx : x ∈ t) :
    t.foldl min a ≤ x := by
  induction t generalizing a with
  | nil => simp at hx
  | cons y s ih =>
      rw [List.foldl_cons]
      rcases List.mem_cons.mp hx with rfl | hx
      · exact le_trans (foldl_min_le_init s (min a x)) (min_le_right a x)
      · exact ih (min a y) hx

lemma foldl_min_mem (t : List α) (a : α) : t.foldl min a = a ∨ t.foldl min a ∈ t := by
  induction t generalizing a with
  | nil => left; rfl
  | cons y s ih =>
      rcases ih (min a y) with h | h
      · rcases le_or_lt a y with hay | hay
        · left
          rw [List.foldl_cons, h, min_eq_left hay]
        · right
          rw [List.foldl_cons, h, min_eq_right (le_of_lt hay)]
          exact List.mem_cons_self y s
      · right
        exact List.mem_cons_of_mem y h

lemma foldl_max_init_le (t : List α) (a : α) : a ≤ t.foldl max a := by
  induction t generalizing a with
  | nil => simp
  | cons x s ih => exact le_trans (le_max_left a x) (ih (max a x))

lemma foldl_max_mem_le (t : List α) (a : α) {x : α} (hx : x ∈ t) :
    x ≤ t.foldl max a := by
  induction t generalizing a with
  | nil => simp at hx
  | cons y s ih =>
      rw [List.foldl_cons]
      rcases List.mem_cons.mp hx with rfl | hx
      · exact le_trans (le_max_right a x) (foldl_max_init_le s (max a x))
      · exact ih (max a y) hx

lemma foldl_max_mem (t : List α) (a : α) : t.foldl max a = a ∨ t.foldl max a ∈ t := by
  induction t generalizing a with
  | nil => left; rfl
  | cons y s ih =>
      rcases ih (max a y) with h | h
      · rcases le_or_lt y a with hay | hay
        · left
          rw [List.foldl_cons, h, max_eq_left hay]
        · right
          rw [List.foldl_cons, h, max_eq_right (le_of_lt hay)]
          exact List.mem_cons_self y s
      · right
        exact List.mem_cons_of_mem y h

lemma reducemin_eq_some {l : List α} (h : l ≠ []) :
    ∃ m, reducemin l = some m ∧ (∀ x ∈ l, m ≤ x) ∧ m ∈ l := by
  match l, h with
  | a :: t, _ =>
      refine ⟨t.foldl min a, rfl, ?_, ?_⟩
      · intro x hx
        rcases List.mem_cons.mp hx with rfl | hx
        · exact foldl_min_le_init t x
        · exact foldl_min_le_mem t a hx
      · rcases foldl_min_mem t a with h1 | h1
        · rw [h1]; exact List.mem_cons_self a t
        · exact List.mem_cons_of_mem a h1

lemma reducemax_eq_some {l : List α} (h : l ≠ []) :
    ∃ m, reducemax l = some m ∧ (∀ x ∈ l, x ≤ m) ∧ m ∈ l := by
  match l, h with
  | a :: t, _ =>
      refine ⟨t.foldl max a, rfl, ?_, ?_⟩
      · intro x hx
        rcases List.mem_cons.mp hx with rfl | hx
        · exact foldl_max_init_le t x
        · exact foldl_max_mem_le t a hx
      · rcases foldl_max_mem t a with h1 | h1
        · rw [h1]; exact List.mem_cons_self a t
        · exact List.mem_cons_of_mem a h1

/-- Elementwise minimum of registers: membership-flavoured description of
`zipWith min`. -/
lemma zipWith_min_mem (u v : List α) (i : Nat) (hi : i < (List.zipWith min u v).length) :
    ∃ (hu : i < u.length) (hv : i < v.length),
      (List.zipWith min u v).get ⟨i, hi⟩ = min (u.get ⟨i, hu⟩) (v.get ⟨i, hv⟩) := by
  rw [List.length_zipWith] at hi
  refine ⟨by omega, by omega, ?_⟩
  simp [List.get_eq_getElem, List.getElem_zipWith]

lemma length_zipWith_min (u v : List α) (h : u.length = v.length) :
    (List.zipWith min u v).length = u.length := by
  rw [List.length_zipWith]
  omega

lemma length_zipWith_max (u v : List α) (h : u.length = v.length) :
    (List.zipWith max u v).length = u.length := by
  rw [List.length_zipWith]
  omega

/-! ## Pivot samplers -/

lemma sampleList_spec (arr : List α) (base stride : Nat) :
    ∀ n, (n = 0 ∨ base + (n - 1) * stride < arr.length) →
      ∃ s, sampleList arr base stride n = some s ∧ s.length = n ∧
        ∀ i, i < n → s[i]? = arr[base + i * stride]? := by
  intro n
  induction n generalizing base with
  | zero =>
      intro _
      exact ⟨[], rfl, rfl, by omega⟩
  | succ m ih =>
      intro hb
      have hbase : base < arr.length := by
        rcases hb with h | h
        · omega
        · have : base ≤ base + (m + 1 - 1) * stride := by omega
          omega
      obtain ⟨s, hs, hlen, hget⟩ := ih (base + stride)
        (by
          rcases m with _ | m'
          · exact Or.inl rfl
          · right
            rcases hb with h | h
            · omega
            · have e1 : (m' + 1 + 1 - 1) * stride = m' * stride + stride := by
                simp only [Nat.succ_sub_one]
                ring
              have e2 : (m' + 1 - 1) * stride = m' * stride := by
                simp only [Nat.succ_sub_one]
              rw [e1] at h
              rw [e2]
              omega)
      refine ⟨arr.get ⟨base, hbase⟩ :: s, ?_, by simp [hlen], ?_⟩
      · rw [sampleList, readAt_eq_some hbase]
        simp [hs]
      · intro i hi
        match i with
        | 0 => simp [List.getElem?_eq_getElem hbase]
        | j + 1 =>
            rw [List.getElem?_cons_succ, hget j (by omega)]
            congr 1
            ring

lemma get_pivot_stride_le (k d : Nat) : k * (d / k) ≤ d := by
  rw [Nat.mul_comm]
  exact Nat.div_mul_le_self d k

lemma get_pivot_scalar_some (lanes : Nat) (arr : List α) (left right : Nat)
    (hl : 1 ≤ lanes) (hlr : left ≤ right) (hr : right < arr.length) :
    ∃ p, get_pivot_scalar lanes arr left right = some p := by
  obtain ⟨s, hs, hlen, -⟩ := sampleList_spec arr left ((right - left) / lanes) lanes
    (Or.inr (by
      have h1 : (lanes - 1) * ((right - left) / lanes) ≤ right - left := by
        calc (lanes - 1) * ((right - left) / lanes) ≤ lanes * ((right - left) / lanes) :=
              Nat.mul_le_mul_right _ (by omega)
          _ ≤ right - left := get_pivot_stride_le lanes (right - left)
      omega))
  have hidx : lanes / 2 < (insertionSort s).length := by
    rw [insertionSort_length, hlen]
    omega
  refine ⟨(insertionSort s).get ⟨lanes / 2, hidx⟩, ?_⟩
  rw [get_pivot_scalar, hs]
  simp only [Option.bind_eq_bind, Option.some_bind]
  exact readAt_eq_some hidx

lemma get_pivot_64bit_some (arr : List α) (left right : Nat)
    (hlr : left ≤ right) (hr : right < arr.length) :
    ∃ p, get_pivot_64bit arr left right = some p := by
  obtain ⟨s, hs, hlen, -⟩ := sampleList_spec arr (left + (right - left) / 8)
    ((right - left) / 8) 8
    (Or.inr (by
      have h1 : 8 * ((right - left) / 8) ≤ right - left := get_pivot_stride_le 8 (right - left)
      have h2 : (right - left) / 8 + 7 * ((right - left) / 8) = 8 * ((right - left) / 8) := by
        ring
      omega))
  have hidx : 4 < (insertionSort s).length := by
    rw [insertionSort_length, hlen]
    omega
  refine ⟨(insertionSort s).get ⟨4, hidx⟩, ?_⟩
  rw [get_pivot_64bit, hs]
  simp only [Option.bind_eq_bind, Option.some_bind]
  exact readAt_eq_some hidx

lemma get_pivot_32bit_some (arr : List α) (left right : Nat)
    (hlr : left ≤ right) (hr : right < arr.length) :
    ∃ p, get_pivot_32bit arr left right = some p := by
  obtain ⟨s, hs, hlen, -⟩ := sampleList_spec arr (left + (right - left) / 16)
    ((right - left) / 16) 16
    (Or.inr (by
      have h1 : 16 * ((right - left) / 16) ≤ right - left := get_pivot_stride_le 16 (right - left)
      have h2 : (right - left) / 16 + 15 * ((right - left) / 16)
          = 16 * ((right - left) / 16) := by ring
      omega))
  have hidx : 8 < (insertionSort s).length := by
    rw [insertionSort_length, hlen]
    omega
  refine ⟨(insertionSort s).get ⟨8, hidx⟩, ?_⟩
  rw [get_pivot_32bit, hs]
  simp only [Option.bind_eq_bind, Option.some_bind]
  exact readAt_eq_some hidx

lemma get_pivot_16bit_some (arr : List α) (left right : Nat)
    (hlr : left ≤ right) (hr : right < arr.length) :
    ∃ p, get_pivot_16bit arr left right = some p := by
  obtain ⟨s, hs, hlen, -⟩ := sampleList_spec arr left ((right - left) / 32) 32
    (Or.inr (by
      have h1 : 31 * ((right - left) / 32) ≤ 32 * ((right - left) / 32) :=
        Nat.mul_le_mul_right _ (by omega)
      have h2 : 32 * ((right - left) / 32) ≤ right - left := get_pivot_stride_le 32 (right - left)
      omega))
  have hidx : 16 < (insertionSort s).length := by
    rw [insertionSort_length, hlen]
    omega
  refine ⟨(insertionSort s).get ⟨16, hidx⟩, ?_⟩
  rw [get_pivot_16bit, hs]
  simp only [Option.bind_eq_bind, Option.some_bind]
  exact readAt_eq_some hidx

lemma get_pivot_some (lanes : Nat) (arr : List α) (left right : Nat)
    (hl : 1 ≤ lanes) (hlr : left ≤ right) (hr : right < arr.length) :
    ∃ p, get_pivot lanes arr left right = some p := by
  rw [get_pivot]
  rcases eq_or_ne lanes 8 with h8 | h8
  · rw [if_pos h8]
    exact get_pivot_64bit_some arr left right hlr hr
  · rw [if_neg h8]
    rcases eq_or_ne lanes 16 with h16 | h16
    · rw [if_pos h16]
      exact get_pivot_32bit_some arr left right hlr hr
    · rw [if_neg h16]
      rcases eq_or_ne lanes 32 with h32 | h32
      · rw [if_pos h32]
        exact get_pivot_16bit_some arr left right hlr hr
      · rw [if_neg h32]
        exact get_pivot_scalar_some lanes arr left right hl hlr hr

lemma get_pivot_blocks_some (lanes : Nat) (arr : List α) (left right : Nat)
    (hl : 1 ≤ lanes) (hlr : left ≤ right) (hr : right < arr.length) :
    ∃ p, get_pivot_blocks lanes arr left right = some p :=
  get_pivot_some lanes arr left right hl hlr hr

/-! # Claim C10 -/

/-- C10: for every array and every `N ≤ 1`, `avx512_qsort(A, N)` leaves the
array bit-for-bit unchanged — the `arrsize > 1` guard skips the whole pipeline,
including the floating-point NaN pre- and post-passes, so even a single-element
NaN keeps its exact payload bits. -/
theorem claim_C10_qsort_small_untouched {α : Type} [LinearOrder α]
    (lanes threshold U : Nat) (tmax tmin : α) (arr : List (FP α)) (arrsize : Nat)
    (h : arrsize ≤ 1) :
    avx512_qsort_fp lanes threshold U tmax tmin arr arrsize = some arr := by
  rw [avx512_qsort_fp, if_neg (by omega)]

/-- Witness for C10: a length-1 float array holding a single NaN with payload 7
is returned with that exact payload. -/
theorem claim_C10_witness :
    1 ≤ 1 ∧ avx512_qsort_fp 8 128 8 (100 : Int) (-100) [FP.nan 7] 1 = some [FP.nan 7] :=
  ⟨by decide, claim_C10_qsort_small_untouched 8 128 8 100 (-100) [FP.nan 7] 1 (by decide)⟩

/-! # Claim C6 -/

/-- C6, counterexample: the claim says the 16-bit sampler draws its 32 samples
at positions `left + size·i` for `i = 1..32` ("sampling starts at offset `size`
from `left`, not at `A[left]` itself").  On `arr = [0, …, 32]`, `left = 0`,
`right = 32` (so `size = 1`), the code samples `arr[0..31]` and returns `16`,
while the claimed scheme samples `arr[1..32]` and its sorted index 16 is `17`. -/
theorem claim_C6_counterexample :
    get_pivot_16bit ((List.range 33).map Int.ofNat) 0 32 = some 16 ∧
    (do
      let s ← sampleList ((List.range 33).map Int.ofNat)
        (0 + (32 - 0) / 32) ((32 - 0) / 32) 32
      readAt (insertionSort s) 16) = some 17 ∧
    (16 : Int) ≠ 17 := by
  refine ⟨by decide, by decide, by decide⟩

/-- C6, amended: for 16-bit keys the pivot sampler returns the element at index
16 of the sorted 32-element sample drawn at positions `left + size·i` for
`i = 0, …, 31` — sampling starts at `A[left]` itself — where
`size = ⌊(right - left) / 32⌋`; the pivot is in particular one of the samples. -/
theorem claim_C6_pivot16_sample_characterization {α : Type} [LinearOrder α]
    (arr : List α) (left right : Nat) (hlr : left ≤ right) (hr : right < arr.length) :
    ∃ s p, sampleList arr left ((right - left) / 32) 32 = some s ∧
      s.length = 32 ∧
      (∀ i, i < 32 → s[i]? = arr[left + i * ((right - left) / 32)]?) ∧
      get_pivot_16bit arr left right = some p ∧
      (insertionSort s)[16]? = some p ∧
      p ∈ s := by
  obtain ⟨s, hs, hlen, hget⟩ := sampleList_spec arr left ((right - left) / 32) 32
    (Or.inr (by
      have h1 : 31 * ((right - left) / 32) ≤ 32 * ((right - left) / 32) :=
        Nat.mul_le_mul_right _ (by omega)
      have h2 : 32 * ((right - left) / 32) ≤ right - left := get_pivot_stride_le 32 (right - left)
      omega))
  have hidx : 16 < (insertionSort s).length := by
    rw [insertionSort_length, hlen]
    omega
  refine ⟨s, (insertionSort s).get ⟨16, hidx⟩, hs, hlen, hget, ?_, ?_, ?_⟩
  · rw [get_pivot_16bit, hs]
    simp only [Option.bind_eq_bind, Option.some_bind]
    exact readAt_eq_some hidx
  · exact List.getElem?_eq_getElem hidx
  · exact (insertionSort_perm s).mem_iff.mp (List.get_mem _ _ hidx)

/-- Witness for C6's amended statement, at `arr = [0, …, 32]`, `left = 0`,
`right = 32`. -/
theorem claim_C6_witness :
    (0 : Nat) ≤ 32 ∧ 32 < ((List.range 33).map Int.ofNat).length ∧
    (∃ s p, sampleList ((List.range 33).map Int.ofNat) 0 ((32 - 0) / 32) 32 = some s ∧
      s.length = 32 ∧
      (∀ i, i < 32 → s[i]? = ((List.range 33).map Int.ofNat)[0 + i * ((32 - 0) / 32)]?) ∧
      get_pivot_16bit ((List.range 33).map Int.ofNat) 0 32 = some p ∧
      (insertionSort s)[16]? = some p ∧
      p ∈ s) :=
  ⟨by decide, by decide,
    claim_C6_pivot16_sample_characterization ((List.range 33).map Int.ofNat) 0 32
      (by decide) (by decide)⟩

/-! # Claim C9 -/

/-- The two-pointer loop of `move_nans_to_end_of_array`: invariant-carrying
specification.  On entry `[0, ii)` holds non-NaNs, `(jj, |arr|)` holds NaNs,
and `count = |arr| - 1 - jj`; on exit the cursors have met. -/
lemma moveNansLoop_spec {α : Type} :
    ∀ (fuel : Nat) (arr : List (FP α)) (ii jj count : Nat),
      ii ≤ jj → jj < arr.length → jj - ii ≤ fuel →
      (∀ m x, m < ii → arr[m]? = some x → x.isNan = false) →
      (∀ m x, jj < m → arr[m]? = some x → x.isNan = true) →
      count = arr.length - 1 - jj →
      ∃ arr' ii', moveNansLoop fuel arr ii jj count = some (arr', ii', arr.length - 1 - ii') ∧
        arr'.length = arr.length ∧
        (↑arr' : Multiset (FP α)) = ↑arr ∧
        ii' < arr.length ∧
        (∀ m x, m < ii' → arr'[m]? = some x → x.isNan = false) ∧
        (∀ m x, ii' < m → arr'[m]? = some x → x.isNan = true) := by
  intro fuel
  induction fuel with
  | zero =>
      intro arr ii jj count h1 h2 h3 h4 h5 h6
      have hij : ii = jj := by omega
      subst hij
      refine ⟨arr, ii, ?_, rfl, rfl, h2, h4, h5⟩
      rw [moveNansLoop, if_neg (by omega), h6]
  | succ f ih =>
      intro arr ii jj count h1 h2 h3 h4 h5 h6
      rcases eq_or_lt_of_le h1 with rfl | hlt
      · refine ⟨arr, ii, ?_, rfl, rfl, h2, h4, h5⟩
        rw [moveNansLoop, if_neg (by omega), h6]
      · have hii : ii < arr.length := by omega
        rw [moveNansLoop, if_pos hlt, readAt_eq_some hii]
        simp only [Option.bind_eq_bind, Option.some_bind]
        by_cases hnan : (arr.get ⟨ii, hii⟩).isNan
        · rw [if_pos hnan]
          obtain ⟨arr1, harr1⟩ :
              ∃ a, swapAt arr ii jj = some a :=
            ⟨_, swapAt_eq_some hii h2⟩
          rw [harr1]
          simp only [Option.bind_eq_bind, Option.some_bind]
          have hlen1 : arr1.length = arr.length := swapAt_length harr1
          have hget1 := swapAt_getElem? hii h2 harr1
          obtain ⟨arr', ii', hrun, hlen', hmset, hii', hpre, hpost⟩ :=
            ih arr1 ii (jj - 1) (count + 1) (by omega) (by omega) (by omega)
              (by
                intro m x hm hx
                rw [hget1 m, if_neg (by omega), if_neg (by omega)] at hx
                exact h4 m x hm hx)
              (by
                intro m x hm hx
                rcases eq_or_ne m jj with rfl | hmjj
                · rw [hget1 m, if_neg (by omega), if_pos rfl,
                    List.getElem?_eq_getElem hii] at hx
                  cases hx
                  exact hnan
                · rw [hget1 m, if_neg (by omega), if_neg hmjj] at hx
                  exact h5 m x (by omega) hx)
              (by omega)
          refine ⟨arr', ii', ?_, by omega, ?_, by omega, hpre, hpost⟩
          · rw [hrun, hlen1]
          · have hms := swapAt_seg_mset harr1 (Nat.zero_le ii) (le_of_lt hlt) h2
              (le_refl arr.length)
            have e1 : seg arr1 0 arr.length = arr1 := by
              rw [← hlen1]
              exact seg_zero_length arr1
            have e2 : seg arr 0 arr.length = arr := seg_zero_length arr
            rw [e1, e2] at hms
            rw [hmset, hms]
        · rw [if_neg hnan]
          obtain ⟨arr', ii', hrun, hlen', hmset, hii', hpre, hpost⟩ :=
            ih arr (ii + 1) jj count (by omega) h2 (by omega)
              (by
                intro m x hm hx
                rcases eq_or_ne m ii with rfl | hmii
                · rw [List.getElem?_eq_getElem hii] at hx
                  cases hx
                  simpa using hnan
                · exact h4 m x (by omega) hx)
              h5 h6
          exact ⟨arr', ii', hrun, hlen', hmset, hii', hpre, hpost⟩

/-- C9, counterexample: on the all-NaN array `[NaN]` (size 1) the return value
`size - count - 1` underflows in `arrsize_t` arithmetic to `2^64 - 1`, which is
not the index of any element, let alone of a last non-NaN element. -/
theorem claim_C9_counterexample :
    move_nans_to_end_of_array ([FP.nan 0] : List (FP Int)) 1
      = some ([FP.nan 0], 2 ^ 64 - 1) ∧ ¬ 2 ^ 64 - 1 < 1 := by
  refine ⟨by decide, by decide⟩

/-- C9, amended: for a floating-point array of size ≥ 1 **that contains at
least one non-NaN value**, `move_nans_to_end_of_array` reorders the array so
that all NaNs occupy a contiguous suffix, preserves the multiset of elements
(payloads included, since it only swaps), and returns the index of the last
non-NaN element.  (For an all-NaN array the returned `size - count - 1` wraps
to `2^64 - 1`.) -/
theorem claim_C9_move_nans_spec {α : Type} (arr : List (FP α))
    (h0 : arr.length < W64) (h1 : 1 ≤ arr.length)
    (h2 : ∃ x ∈ arr, x.isNan = false) :
    ∃ out r, move_nans_to_end_of_array arr arr.length = some (out, r) ∧
      out.length = arr.length ∧
      (↑out : Multiset (FP α)) = ↑arr ∧
      r < arr.length ∧
      (∀ m x, m ≤ r → out[m]? = some x → x.isNan = false) ∧
      (∀ m x, r < m → out[m]? = some x → x.isNan = true) := by
  obtain ⟨arr', ii', hrun, hlen', hmset, hii', hpre, hpost⟩ :=
    moveNansLoop_spec (arr.length - 1 - 0) arr 0 (arr.length - 1) 0
      (by omega) (by omega) (by omega)
      (by intro m x hm hx; omega)
      (by
        intro m x hm hx
        have := readAt_some_elim (l := arr) (i := m) hx
        omega)
      (by omega)
  have hii'len : ii' < arr'.length := by omega
  have hperm : arr'.Perm arr := Multiset.coe_eq_coe.mp hmset
  rw [move_nans_to_end_of_array]
  simp only [Option.bind_eq_bind]
  rw [hrun]
  simp only [Option.some_bind]
  rw [readAt_eq_some hii'len]
  simp only [Option.some_bind]
  have hW64 : arr.length < W64 := h0
  by_cases hnan : (arr'.get ⟨ii', hii'len⟩).isNan
  · -- arr'[ii'] is a NaN: the suffix starts at ii'; since some element is not
    -- a NaN, ii' ≥ 1 and the last non-NaN sits at ii' - 1.
    rw [if_pos hnan]
    have hii'pos : 0 < ii' := by
      rcases Nat.eq_zero_or_pos ii' with h0' | h0'
      · exfalso
        obtain ⟨x, hx, hxn⟩ := h2
        obtain ⟨m, hm⟩ := List.mem_iff_getElem?.mp (hperm.mem_iff.mpr hx)
        rcases Nat.eq_zero_or_pos m with rfl | hmpos
        · have he0 : arr'[0]? = some (arr'.get ⟨ii', hii'len⟩) := by
            have : (⟨ii', hii'len⟩ : Fin arr'.length) = ⟨0, by omega⟩ := by
              simp [h0']
            rw [this]
            exact List.getElem?_eq_getElem (by omega)
          rw [he0] at hm
          cases hm
          rw [hxn] at hnan
          exact Bool.false_ne_true hnan
        · have := hpost m x (by omega) hm
          rw [this] at hxn
          exact Bool.false_ne_true hxn.symm
      · exact h0'
    have he : arr.length + W64 - (arr.length - 1 - ii' + 1 + 1) = W64 + (ii' - 1) := by
      omega
    have hmod : (arr.length + W64 - (arr.length - 1 - ii' + 1 + 1)) % W64 = ii' - 1 := by
      rw [he, Nat.add_mod_left, Nat.mod_eq_of_lt (by omega)]
    refine ⟨arr', ii' - 1, ?_, hlen', hmset, by omega, ?_, ?_⟩
    · simp only [pure]
      rw [hmod]
    · intro m x hm hx
      exact hpre m x (by omega) hx
    · intro m x hm hx
      rcases eq_or_ne m ii' with rfl | hmii
      · rw [List.getElem?_eq_getElem hii'len] at hx
        cases hx
        exact hnan
      · exact hpost m x (by omega) hx
  · -- arr'[ii'] is not a NaN: it is itself the last non-NaN, at index ii'.
    rw [if_neg hnan]
    have he : arr.length + W64 - (arr.length - 1 - ii' + 1) = W64 + ii' := by
      omega
    have hmod : (arr.length + W64 - (arr.length - 1 - ii' + 1)) % W64 = ii' := by
      rw [he, Nat.add_mod_left, Nat.mod_eq_of_lt (by omega)]
    refine ⟨arr', ii', ?_, hlen', hmset, by omega, ?_, ?_⟩
    · simp only [pure]
      rw [hmod]
    · intro m x hm hx
      rcases eq_or_ne m ii' with rfl | hmii
      · rw [List.getElem?_eq_getElem hii'len] at hx
        cases hx
        simpa using hnan
      · exact hpre m x (by omega) hx
    · intro m x hm hx
      exact hpost m x hm hx

/-- Witness for C9's amended statement. -/
theorem claim_C9_witness :
    ([FP.val 1, FP.nan 3, FP.val 2, FP.nan 4, FP.val 0] : List (FP Int)).length < W64 ∧
    1 ≤ ([FP.val 1, FP.nan 3, FP.val 2, FP.nan 4, FP.val 0] : List (FP Int)).length ∧
    (∃ x ∈ ([FP.val 1, FP.nan 3, FP.val 2, FP.nan 4, FP.val 0] : List (FP Int)),
      x.isNan = false) ∧
    (∃ out r, move_nans_to_end_of_array
        ([FP.val 1, FP.nan 3, FP.val 2, FP.nan 4, FP.val 0] : List (FP Int)) 5
        = some (out, r) ∧
      out.length = 5 ∧
      (↑out : Multiset (FP Int))
        = ↑([FP.val 1, FP.nan 3, FP.val 2, FP.nan 4, FP.val 0] : List (FP Int)) ∧
      r < 5 ∧
      (∀ m x, m ≤ r → out[m]? = some x → x.isNan = false) ∧
      (∀ m x, r < m → out[m]? = some x → x.isNan = true)) := by
  refine ⟨by decide, by decide, ⟨FP.val 1, by decide, by decide⟩, ?_⟩
  exact claim_C9_move_nans_spec _ (by decide) (by decide)
    ⟨FP.val 1, by decide, by decide⟩

/-! # The `partition_vec` step (single-array kernel) -/

/-- Full behavioural description of one `partition_vec` call: the `< pivot`
lanes land at `[lst, lst + (lanes - k))`, the `≥ pivot` lanes land at
`[rst - k, rst)` where `rst = lst + unp + lanes` and `k` is the number of
`≥ pivot` lanes; everything else is untouched. -/
lemma partition_vec_spec (lanes : Nat) (P : α) (arr curr mn mx : List α)
    (lst unp : Nat) (hcurr : curr.length = lanes)
    (hbound : lst + unp + lanes ≤ arr.length) :
    ∃ arr',
      partition_vec lanes arr lst unp curr P mn mx
        = some (arr', lst + (lanes - (curr.filter (fun x => decide (P ≤ x))).length),
            unp - lanes, List.zipWith min curr mn, List.zipWith max curr mx) ∧
      arr'.length = arr.length ∧
      (∀ j, j < lst → arr'[j]? = arr[j]?) ∧
      (∀ j, lst + (lanes - (curr.filter (fun x => decide (P ≤ x))).length) ≤ j →
        j < lst + (lanes - (curr.filter (fun x => decide (P ≤ x))).length) + unp →
        arr'[j]? = arr[j]?) ∧
      (∀ j, lst + unp + lanes ≤ j → arr'[j]? = arr[j]?) ∧
      seg arr' lst (lst + (lanes - (curr.filter (fun x => decide (P ≤ x))).length))
        = curr.filter (fun x => decide (x < P)) ∧
      seg arr' (lst + (lanes - (curr.filter (fun x => decide (P ≤ x))).length) + unp)
        (lst + unp + lanes) = curr.filter (fun x => decide (P ≤ x)) := by
  set k := (curr.filter (fun x => decide (P ≤ x))).length with hk
  have hsum := filter_ge_add_filter_lt P curr
  rw [hcurr] at hsum
  have hkle : k ≤ lanes := by omega
  have hlf : (curr.filter (fun x => decide (x < P))).length = lanes - k := by omega
  obtain ⟨arr1, ha1⟩ : ∃ a, writeSeg arr lst
      (curr.filter (fun x => decide (x < P))) = some a :=
    ⟨_, writeSeg_eq_some (by rw [hlf]; omega)⟩
  have hlen1 : arr1.length = arr.length := writeSeg_length ha1
  obtain ⟨arr2, ha2⟩ : ∃ a, writeSeg arr1 (lst + (lanes - k) + unp)
      (curr.filter (fun x => decide (P ≤ x))) = some a :=
    ⟨_, writeSeg_eq_some (by rw [hlen1, ← hk]; omega)⟩
  have hlen2 : arr2.length = arr1.length := writeSeg_length ha2
  have hrun : partition_vec lanes arr lst unp curr P mn mx
      = some (arr2, lst + (lanes - k), unp - lanes,
          List.zipWith min curr mn, List.zipWith max curr mx) := by
    rw [partition_vec, ← hk, ha1]
    simp only [Option.bind_eq_bind, Option.some_bind]
    rw [ha2]
    rfl
  refine ⟨arr2, hrun, by omega, ?_, ?_, ?_, ?_, ?_⟩
  · intro j hj
    rw [writeSeg_getElem?_of_lt ha2 (by omega), writeSeg_getElem?_of_lt ha1 hj]
  · intro j hj1 hj2
    rw [writeSeg_getElem?_of_lt ha2 (by omega),
      writeSeg_getElem?_of_ge ha1 (by rw [hlf]; omega)]
  · intro j hj
    rw [writeSeg_getElem?_of_ge ha2 (by rw [← hk]; omega),
      writeSeg_getElem?_of_ge ha1 (by rw [hlf]; omega)]
  · have e1 : seg arr1 lst (lst + (lanes - k)) = curr.filter (fun x => decide (x < P)) := by
      have := writeSeg_seg_self ha1
      rw [hlf] at this
      exact this
    rw [← e1]
    apply seg_congr (by omega) (by omega)
    intro j _ hj2
    exact writeSeg_getElem?_of_lt ha2 (by omega)
  · have := writeSeg_seg_self ha2
    rw [← hk] at this
    have he : lst + (lanes - k) + unp + k = lst + unp + lanes := by omega
    rw [he] at this
    exact this

/-! # Extreme-register algebra -/

lemma mem_seg_iff {l : List β} {a b : Nat} (hb : b ≤ l.length) {x : β} :
    x ∈ seg l a b ↔ ∃ j, a ≤ j ∧ j < b ∧ l[j]? = some x := by
  constructor
  · intro hx
    obtain ⟨i, hix⟩ := List.mem_iff_getElem?.mp hx
    have hiab : i < b - a := by
      by_contra hc
      rw [seg_getElem?_of_ge (by omega)] at hix
      simp at hix
    rw [seg_getElem? i hiab] at hix
    exact ⟨a + i, by omega, by omega, hix⟩
  · rintro ⟨j, hj1, hj2, hjx⟩
    apply List.mem_iff_getElem?.mpr
    refine ⟨j - a, ?_⟩
    rw [seg_getElem? (j - a) (by omega)]
    have : a + (j - a) = j := by omega
    rw [this]
    exact hjx

lemma reducemin_replicate {lanes : Nat} (hl : 1 ≤ lanes) (s : α) :
    reducemin (List.replicate lanes s) = some s := by
  obtain ⟨m, hm, hle, hmem⟩ := reducemin_eq_some
    (l := List.replicate lanes s) (by simp; omega)
  rw [hm, List.eq_of_mem_replicate hmem]

lemma reducemax_replicate {lanes : Nat} (hl : 1 ≤ lanes) (b : α) :
    reducemax (List.replicate lanes b) = some b := by
  obtain ⟨m, hm, hle, hmem⟩ := reducemax_eq_some
    (l := List.replicate lanes b) (by simp; omega)
  rw [hm, List.eq_of_mem_replicate hmem]

lemma reducemin_zip_props (u v : List α) (hlen : u.length = v.length)
    (hne : v ≠ []) :
    ∃ m, reducemin (List.zipWith min u v) = some m ∧
      (∀ x ∈ u, m ≤ x) ∧ (∀ x ∈ v, m ≤ x) ∧ (m ∈ u ∨ m ∈ v) := by
  have hzlen : (List.zipWith min u v).length = v.length := by
    rw [List.length_zipWith]
    omega
  have hzne : List.zipWith min u v ≠ [] := by
    intro h
    apply hne
    rw [← List.length_eq_zero, ← hzlen, h]
    rfl
  obtain ⟨m, hm, hle, hmem⟩ := reducemin_eq_some hzne
  obtain ⟨i, hi, him⟩ := List.mem_iff_getElem.mp hmem
  have hiu : i < u.length := by rw [List.length_zipWith] at hi; omega
  have hiv : i < v.length := by rw [List.length_zipWith] at hi; omega
  refine ⟨m, hm, ?_, ?_, ?_⟩
  · intro x hx
    obtain ⟨j, hj, hjx⟩ := List.mem_iff_getElem.mp hx
    have hjz : j < (List.zipWith min u v).length := by
      rw [List.length_zipWith]
      omega
    have := hle _ (List.getElem_mem hjz)
    rw [List.getElem_zipWith] at this
    calc m ≤ min u[j] v[j] := this
      _ ≤ u[j] := min_le_left _ _
      _ = x := hjx
  · intro x hx
    obtain ⟨j, hj, hjx⟩ := List.mem_iff_getElem.mp hx
    have hjz : j < (List.zipWith min u v).length := by
      rw [List.length_zipWith]
      omega
    have := hle _ (List.getElem_mem hjz)
    rw [List.getElem_zipWith] at this
    calc m ≤ min u[j] v[j] := this
      _ ≤ v[j] := min_le_right _ _
      _ = x := hjx
  · rw [List.getElem_zipWith] at him
    rcases min_cases u[i] v[i] with ⟨he, -⟩ | ⟨he, -⟩
    · left
      rw [← him, he]
      exact List.getElem_mem hiu
    · right
      rw [← him, he]
      exact List.getElem_mem hiv

lemma reducemax_zip_props (u v : List α) (hlen : u.length = v.length)
    (hne : v ≠ []) :
    ∃ m, reducemax (List.zipWith max u v) = some m ∧
      (∀ x ∈ u, x ≤ m) ∧ (∀ x ∈ v, x ≤ m) ∧ (m ∈ u ∨ m ∈ v) := by
  have hzlen : (List.zipWith max u v).length = v.length := by
    rw [List.length_zipWith]
    omega
  have hzne : List.zipWith max u v ≠ [] := by
    intro h
    apply hne
    rw [← List.length_eq_zero, ← hzlen, h]
    rfl
  obtain ⟨m, hm, hle, hmem⟩ := reducemax_eq_some hzne
  obtain ⟨i, hi, him⟩ := List.mem_iff_getElem.mp hmem
  have hiu : i < u.length := by rw [List.length_zipWith] at hi; omega
  have hiv : i < v.length := by rw [List.length_zipWith] at hi; omega
  refine ⟨m, hm, ?_, ?_, ?_⟩
  · intro x hx
    obtain ⟨j, hj, hjx⟩ := List.mem_iff_getElem.mp hx
    have hjz : j < (List.zipWith max u v).length := by
      rw [List.length_zipWith]
      omega
    have := hle _ (List.getElem_mem hjz)
    rw [List.getElem_zipWith] at this
    calc x = u[j] := hjx.symm
      _ ≤ max u[j] v[j] := le_max_left _ _
      _ ≤ m := this
  · intro x hx
    obtain ⟨j, hj, hjx⟩ := List.mem_iff_getElem.mp hx
    have hjz : j < (List.zipWith max u v).length := by
      rw [List.length_zipWith]
      omega
    have := hle _ (List.getElem_mem hjz)
    rw [List.getElem_zipWith] at this
    calc x = v[j] := hjx.symm
      _ ≤ max u[j] v[j] := le_max_right _ _
      _ ≤ m := this
  · rw [List.getElem_zipWith] at him
    rcases max_cases u[i] v[i] with ⟨he, -⟩ | ⟨he, -⟩
    · left
      rw [← him, he]
      exact List.getElem_mem hiu
    · right
      rw [← him, he]
      exact List.getElem_mem hiv

/-- One `partition_vec` call preserves the extreme-register invariant: the two
finalized regions grow by the two filtered halves `A` and `B` of the register
`curr` that was just folded into the extreme registers. -/
lemma MinMaxInv_step {lanes : Nat} {s0 b0 : α} {S : Multiset α} {mn mx curr : List α}
    (inv : MinMaxInv lanes s0 b0 S mn mx) (hl : 1 ≤ lanes)
    (hcurr : curr.length = lanes) :
    MinMaxInv lanes s0 b0 (S + ↑curr)
      (List.zipWith min curr mn) (List.zipWith max curr mx) := by
  have hmnne : mn ≠ [] := by
    intro h
    have := inv.mnlen
    rw [h] at this
    simp at this
    omega
  have hmxne : mx ≠ [] := by
    intro h
    have := inv.mxlen
    rw [h] at this
    simp at this
    omega
  refine ⟨?_, ?_, ?_, ?_⟩
  · rw [length_zipWith_min curr mn (by rw [hcurr, inv.mnlen])]
    exact hcurr
  · rw [length_zipWith_max curr mx (by rw [hcurr, inv.mxlen])]
    exact hcurr
  · obtain ⟨m, hm, hms0, hbS, hatt⟩ := inv.hmn
    obtain ⟨m2, hm2, hm2le, hm2mem⟩ := reducemin_eq_some hmnne
    rw [hm] at hm2
    cases hm2
    obtain ⟨m', hm', hcu, hcm, hmem'⟩ := reducemin_zip_props curr mn
      (by rw [hcurr, inv.mnlen]) hmnne
    refine ⟨m', hm', le_trans (hcm m hm2mem) hms0, ?_, ?_⟩
    · intro x hx
      rcases Multiset.mem_add.mp hx with hx | hx
      · exact le_trans (hcm m hm2mem) (hbS x hx)
      · exact hcu x (Multiset.mem_coe.mp hx)
    · rcases hmem' with hc | hmn'
      · exact Or.inr (Multiset.mem_add.mpr (Or.inr (Multiset.mem_coe.mpr hc)))
      · have hmm' : m' = m := le_antisymm (hcm m hm2mem) (hm2le m' hmn')
        rcases hatt with h | h
        · exact Or.inl (hmm'.trans h)
        · refine Or.inr (Multiset.mem_add.mpr (Or.inl ?_))
          rw [hmm']
          exact h
  · obtain ⟨m, hm, hms0, hbS, hatt⟩ := inv.hmx
    obtain ⟨m2, hm2, hm2le, hm2mem⟩ := reducemax_eq_some hmxne
    rw [hm] at hm2
    cases hm2
    obtain ⟨m', hm', hcu, hcm, hmem'⟩ := reducemax_zip_props curr mx
      (by rw [hcurr, inv.mxlen]) hmxne
    refine ⟨m', hm', le_trans hms0 (hcm m hm2mem), ?_, ?_⟩
    · intro x hx
      rcases Multiset.mem_add.mp hx with hx | hx
      · exact le_trans (hbS x hx) (hcm m hm2mem)
      · exact hcu x (Multiset.mem_coe.mp hx)
    · rcases hmem' with hc | hmx'
      · exact Or.inr (Multiset.mem_add.mpr (Or.inr (Multiset.mem_coe.mpr hc)))
      · have hmm' : m' = m := le_antisymm (hm2le m' hmx') (hcm m hm2mem)
        rcases hatt with h | h
        · exact Or.inl (hmm'.trans h)
        · refine Or.inr (Multiset.mem_add.mpr (Or.inl ?_))
          rw [hmm']
          exact h

/-! # `LoopInv` transitions -/

lemma getElem?_of_seg_eq {l s : List β} {a b j : Nat} (hseg : seg l a b = s)
    (hj1 : a ≤ j) (hj2 : j < b) : l[j]? = s[j - a]? := by
  rw [← hseg, seg_getElem? (j - a) (by omega)]
  congr 1
  omega

lemma lt_of_mem_filter_lt {P x : α} {curr : List α}
    (h : x ∈ curr.filter (fun x => decide (x < P))) : x < P :=
  of_decide_eq_true (List.mem_filter.mp h).2

lemma ge_of_mem_filter_ge {P x : α} {curr : List α}
    (h : x ∈ curr.filter (fun x => decide (P ≤ x))) : P ≤ x :=
  of_decide_eq_true (List.mem_filter.mp h).2

/-- A `partition_vec` step with a (possibly empty) protected window
`[left, right)`: both store gaps are at least one register wide, so the stores
stay clear of the window and the loop invariant is preserved; the register's
lanes move from the in-flight multiset into the finalized regions. -/
lemma LoopInv_pvec_step_window {lanes : Nat} {P : α} {orig arr curr mn mx : List α}
    {L0 R0 left right lst unp : Nat} {extra' : Multiset α}
    (inv : LoopInv lanes P orig L0 R0 (↑curr + extra') arr left right lst unp)
    (hl : 1 ≤ lanes) (hcurr : curr.length = lanes)
    (hgl : lst + lanes ≤ left) (hgr : right + lanes ≤ lst + unp + lanes) :
    ∃ arr',
      partition_vec lanes arr lst unp curr P mn mx
        = some (arr', lst + (lanes - (curr.filter (fun x => decide (P ≤ x))).length),
            unp - lanes, List.zipWith min curr mn, List.zipWith max curr mx) ∧
      LoopInv lanes P orig L0 R0 extra' arr' left right
        (lst + (lanes - (curr.filter (fun x => decide (P ≤ x))).length)) (unp - lanes) ∧
      (∀ j, j < lst → arr'[j]? = arr[j]?) ∧
      (∀ j, lst + unp + lanes ≤ j → arr'[j]? = arr[j]?) ∧
      (∀ j, left ≤ j → j < right → arr'[j]? = arr[j]?) ∧
      seg arr' lst (lst + (lanes - (curr.filter (fun x => decide (P ≤ x))).length))
        = curr.filter (fun x => decide (x < P)) ∧
      seg arr' (lst + (lanes - (curr.filter (fun x => decide (P ≤ x))).length) + unp)
        (lst + unp + lanes) = curr.filter (fun x => decide (P ≤ x)) := by
  have hsum := filter_ge_add_filter_lt P curr
  rw [hcurr] at hsum
  set k := (curr.filter (fun x => decide (P ≤ x))).length with hk
  have hkle : k ≤ lanes := by omega
  have hcard : Multiset.card ((curr : Multiset α) + extra') = lanes + Multiset.card extra' := by
    rw [Multiset.card_add, Multiset.coe_card, hcurr]
  have hunp0 := inv.hunp
  rw [hcard] at hunp0
  have hinvL0 := inv.hL0
  have hinvlst := inv.hlst
  have hinvlr := inv.hlr
  have hinvrst := inv.hrst
  have hinvR0 := inv.hR0
  have hinvR0len := inv.hR0len
  have hinvlen := inv.len
  have hunpge : lanes ≤ unp := by omega
  have hbound : lst + unp + lanes ≤ arr.length := by omega
  obtain ⟨arr', hrun, hlen, hlow, hmid, hhigh, hsegL, hsegR⟩ :=
    partition_vec_spec lanes P arr curr mn mx lst unp hcurr hbound
  rw [← hk] at hrun hmid hsegL hsegR
  have hlst' : lst + (lanes - k) ≤ left := by omega
  have hrst' : right ≤ lst + (lanes - k) + unp := by omega
  have harrlen : arr'.length = orig.length := by rw [hlen, inv.len]
  have hwin : ∀ j, left ≤ j → j < right → arr'[j]? = arr[j]? := by
    intro j hj1 hj2
    exact hmid j (by omega) (by omega)
  have hLseg : seg arr' L0 (lst + (lanes - k))
      = seg arr L0 lst ++ curr.filter (fun x => decide (x < P)) := by
    rw [seg_split inv.hL0 (by omega) (by omega), hsegL]
    congr 1
    exact seg_congr (by omega) (by omega) (fun j _ hj2 => hlow j hj2)
  have hRseg : seg arr' (lst + (lanes - k) + unp) R0
      = curr.filter (fun x => decide (P ≤ x)) ++ seg arr (lst + unp + lanes) R0 := by
    rw [seg_split (a := lst + (lanes - k) + unp) (b := lst + unp + lanes) (c := R0)
      (by omega) (by omega) (by omega), hsegR]
    congr 1
    exact seg_congr (by omega) (by omega) (fun j hj1 _ => hhigh j hj1)
  refine ⟨arr', hrun, ?_, hlow, hhigh, hwin, hsegL, hsegR⟩
  refine ⟨harrlen, by omega, hlst', inv.hlr, by omega, by omega, inv.hR0len, inv.hdvd,
    by omega, ?_, ?_, ?_, ?_⟩
  · -- the enlarged `< pivot` region
    intro j x hj1 hj2 hjx
    rcases lt_or_le j lst with hj | hj
    · exact inv.hlt j x hj1 hj (by rw [← hlow j hj]; exact hjx)
    · have := getElem?_of_seg_eq hsegL hj hj2
      rw [this] at hjx
      exact lt_of_mem_filter_lt (List.getElem?_mem hjx)
  · -- the enlarged `≥ pivot` region
    intro j x hj1 hj2 hjx
    have he : lst + (lanes - k) + (unp - lanes) + lanes = lst + (lanes - k) + unp := by
      omega
    rw [he] at hj1
    rcases lt_or_le j (lst + unp + lanes) with hj | hj
    · have := getElem?_of_seg_eq hsegR hj1 hj
      rw [this] at hjx
      exact ge_of_mem_filter_ge (List.getElem?_mem hjx)
    · exact inv.hge j x hj hj2 (by rw [← hhigh j hj]; exact hjx)
  · intro j hj
    rcases hj with hj | hj
    · rw [hlow j (by omega)]
      exact inv.hframe j (Or.inl hj)
    · rw [hhigh j (by omega)]
      exact inv.hframe j (Or.inr hj)
  · -- the permutation bookkeeping
    have he : lst + (lanes - k) + (unp - lanes) + lanes = lst + (lanes - k) + unp := by
      omega
    rw [he, hLseg, hRseg]
    have hwseg : seg arr' left right = seg arr left right :=
      seg_congr (by omega) (by omega) (fun j hj1 hj2 => hwin j hj1 hj2)
    rw [hwseg]
    have hco1 : (↑(seg arr L0 lst ++ curr.filter (fun x => decide (x < P))) : Multiset α)
        = ↑(seg arr L0 lst) + ↑(curr.filter (fun x => decide (x < P))) := rfl
    have hco2 : (↑(curr.filter (fun x => decide (P ≤ x))
          ++ seg arr (lst + unp + lanes) R0) : Multiset α)
        = ↑(curr.filter (fun x => decide (P ≤ x))) + ↑(seg arr (lst + unp + lanes) R0) := rfl
    rw [hco1, hco2]
    have hflt := filter_ge_lt_mset P curr
    have hold := inv.hperm
    calc (↑(seg arr L0 lst) + ↑(curr.filter (fun x => decide (x < P))) : Multiset α)
          + ↑(seg arr left right)
          + (↑(curr.filter (fun x => decide (P ≤ x))) + ↑(seg arr (lst + unp + lanes) R0))
          + extra'
        = ↑(seg arr L0 lst) + ↑(seg arr left right) + ↑(seg arr (lst + unp + lanes) R0)
          + ((↑(curr.filter (fun x => decide (P ≤ x)))
            + ↑(curr.filter (fun x => decide (x < P)))) + extra') := by
          abel
      _ = ↑(seg arr L0 lst) + ↑(seg arr left right) + ↑(seg arr (lst + unp + lanes) R0)
          + (↑curr + extra') := by rw [hflt]
      _ = ↑(seg orig L0 R0) := hold

/-- A flushing `partition_vec` step: the window has closed (`left = right`) and
at least one further register remains in flight, so the invariant survives with
the (now irrelevant) window marker relocated to the new store cursor. -/
lemma LoopInv_pvec_step_flush {lanes : Nat} {P : α} {orig arr curr mn mx : List α}
    {L0 R0 w lst unp : Nat} {extra' : Multiset α}
    (inv : LoopInv lanes P orig L0 R0 (↑curr + extra') arr w w lst unp)
    (hl : 1 ≤ lanes) (hcurr : curr.length = lanes)
    (hrem : lanes ≤ Multiset.card extra') :
    ∃ arr',
      partition_vec lanes arr lst unp curr P mn mx
        = some (arr', lst + (lanes - (curr.filter (fun x => decide (P ≤ x))).length),
            unp - lanes, List.zipWith min curr mn, List.zipWith max curr mx) ∧
      LoopInv lanes P orig L0 R0 extra' arr'
        (lst + (lanes - (curr.filter (fun x => decide (P ≤ x))).length))
        (lst + (lanes - (curr.filter (fun x => decide (P ≤ x))).length))
        (lst + (lanes - (curr.filter (fun x => decide (P ≤ x))).length)) (unp - lanes) ∧
      (∀ j, j < lst → arr'[j]? = arr[j]?) ∧
      (∀ j, lst + unp + lanes ≤ j → arr'[j]? = arr[j]?) ∧
      seg arr' lst (lst + (lanes - (curr.filter (fun x => decide (P ≤ x))).length))
        = curr.filter (fun x => decide (x < P)) ∧
      seg arr' (lst + (lanes - (curr.filter (fun x => decide (P ≤ x))).length) + unp)
        (lst + unp + lanes) = curr.filter (fun x => decide (P ≤ x)) := by
  have hsum := filter_ge_add_filter_lt P curr
  rw [hcurr] at hsum
  set k := (curr.filter (fun x => decide (P ≤ x))).length with hk
  have hkle : k ≤ lanes := by omega
  have hcard : Multiset.card ((curr : Multiset α) + extra') = lanes + Multiset.card extra' := by
    rw [Multiset.card_add, Multiset.coe_card, hcurr]
  have hunp0 := inv.hunp
  rw [hcard] at hunp0
  have hinvL0 := inv.hL0
  have hinvlst := inv.hlst
  have hinvlr := inv.hlr
  have hinvrst := inv.hrst
  have hinvR0 := inv.hR0
  have hinvR0len := inv.hR0len
  have hinvlen := inv.len
  have hunpge : lanes ≤ unp := by omega
  have hbound : lst + unp + lanes ≤ arr.length := by omega
  obtain ⟨arr', hrun, hlen, hlow, hmid, hhigh, hsegL, hsegR⟩ :=
    partition_vec_spec lanes P arr curr mn mx lst unp hcurr hbound
  rw [← hk] at hrun hmid hsegL hsegR
  have harrlen : arr'.length = orig.length := by rw [hlen, hinvlen]
  have hLseg : seg arr' L0 (lst + (lanes - k))
      = seg arr L0 lst ++ curr.filter (fun x => decide (x < P)) := by
    rw [seg_split hinvL0 (by omega) (by omega), hsegL]
    congr 1
    exact seg_congr (by omega) (by omega) (fun j _ hj2 => hlow j hj2)
  have hRseg : seg arr' (lst + (lanes - k) + unp) R0
      = curr.filter (fun x => decide (P ≤ x)) ++ seg arr (lst + unp + lanes) R0 := by
    rw [seg_split (a := lst + (lanes - k) + unp) (b := lst + unp + lanes) (c := R0)
      (by omega) (by omega) (by omega), hsegR]
    congr 1
    exact seg_congr (by omega) (by omega) (fun j hj1 _ => hhigh j hj1)
  refine ⟨arr', hrun, ?_, hlow, hhigh, hsegL, hsegR⟩
  refine ⟨harrlen, by omega, le_refl _, le_refl _, by omega, by omega, hinvR0len,
    by simp, by omega, ?_, ?_, ?_, ?_⟩
  · intro j x hj1 hj2 hjx
    rcases lt_or_le j lst with hj | hj
    · exact inv.hlt j x hj1 hj (by rw [← hlow j hj]; exact hjx)
    · have := getElem?_of_seg_eq hsegL hj hj2
      rw [this] at hjx
      exact lt_of_mem_filter_lt (List.getElem?_mem hjx)
  · intro j x hj1 hj2 hjx
    have he : lst + (lanes - k) + (unp - lanes) + lanes = lst + (lanes - k) + unp := by
      omega
    rw [he] at hj1
    rcases lt_or_le j (lst + unp + lanes) with hj | hj
    · have := getElem?_of_seg_eq hsegR hj1 hj
      rw [this] at hjx
      exact ge_of_mem_filter_ge (List.getElem?_mem hjx)
    · exact inv.hge j x hj hj2 (by rw [← hhigh j hj]; exact hjx)
  · intro j hj
    rcases hj with hj | hj
    · rw [hlow j (by omega)]
      exact inv.hframe j (Or.inl hj)
    · rw [hhigh j (by omega)]
      exact inv.hframe j (Or.inr hj)
  · have he : lst + (lanes - k) + (unp - lanes) + lanes = lst + (lanes - k) + unp := by
      omega
    rw [he, hLseg, hRseg]
    have hmidnil : seg arr' (lst + (lanes - k)) (lst + (lanes - k)) = ([] : List α) :=
      seg_nil (le_refl _)
    rw [hmidnil]
    have hwnil : seg arr w w = ([] : List α) := seg_nil (le_refl _)
    have hold := inv.hperm
    rw [hwnil] at hold
    have hco1 : (↑(seg arr L0 lst ++ curr.filter (fun x => decide (x < P))) : Multiset α)
        = ↑(seg arr L0 lst) + ↑(curr.filter (fun x => decide (x < P))) := rfl
    have hco2 : (↑(curr.filter (fun x => decide (P ≤ x))
          ++ seg arr (lst + unp + lanes) R0) : Multiset α)
        = ↑(curr.filter (fun x => decide (P ≤ x))) + ↑(seg arr (lst + unp + lanes) R0) := rfl
    rw [hco1, hco2]
    have hflt := filter_ge_lt_mset P curr
    calc (↑(seg arr L0 lst) + ↑(curr.filter (fun x => decide (x < P))) : Multiset α)
          + ↑([] : List α)
          + (↑(curr.filter (fun x => decide (P ≤ x))) + ↑(seg arr (lst + unp + lanes) R0))
          + extra'
        = ↑(seg arr L0 lst) + ↑([] : List α) + ↑(seg arr (lst + unp + lanes) R0)
          + ((↑(curr.filter (fun x => decide (P ≤ x)))
            + ↑(curr.filter (fun x => decide (x < P)))) + extra') := by
          abel
      _ = ↑(seg arr L0 lst) + ↑([] : List α) + ↑(seg arr (lst + unp + lanes) R0)
          + (↑curr + extra') := by rw [hflt]
      _ = ↑(seg orig L0 R0) := hold

/-- The very last `partition_vec` call: the window has closed and `curr` is the
final in-flight register, so afterwards the whole range `[L0, R0)` is
partitioned at `lst + (lanes - k)`. -/
lemma LoopInv_pvec_step_final {lanes : Nat} {P : α} {orig arr curr mn mx : List α}
    {L0 R0 w lst unp : Nat}
    (inv : LoopInv lanes P orig L0 R0 (↑curr) arr w w lst unp)
    (hl : 1 ≤ lanes) (hcurr : curr.length = lanes) :
    ∃ arr',
      partition_vec lanes arr lst unp curr P mn mx
        = some (arr', lst + (lanes - (curr.filter (fun x => decide (P ≤ x))).length),
            unp - lanes, List.zipWith min curr mn, List.zipWith max curr mx) ∧
      arr'.length = orig.length ∧
      L0 ≤ lst + (lanes - (curr.filter (fun x => decide (P ≤ x))).length) ∧
      lst + (lanes - (curr.filter (fun x => decide (P ≤ x))).length) ≤ R0 ∧
      (∀ j x, L0 ≤ j → j < lst + (lanes - (curr.filter (fun x => decide (P ≤ x))).length) →
        arr'[j]? = some x → x < P) ∧
      (∀ j x, lst + (lanes - (curr.filter (fun x => decide (P ≤ x))).length) ≤ j → j < R0 →
        arr'[j]? = some x → P ≤ x) ∧
      (∀ j, j < L0 ∨ R0 ≤ j → arr'[j]? = orig[j]?) ∧
      (↑(seg arr' L0 R0) : Multiset α) = ↑(seg orig L0 R0) ∧
      (∀ j, j < lst → arr'[j]? = arr[j]?) ∧
      (∀ j, lst + lanes ≤ j → arr'[j]? = arr[j]?) ∧
      seg arr' lst (lst + (lanes - (curr.filter (fun x => decide (P ≤ x))).length))
        = curr.filter (fun x => decide (x < P)) ∧
      seg arr' (lst + (lanes - (curr.filter (fun x => decide (P ≤ x))).length)) (lst + lanes)
        = curr.filter (fun x => decide (P ≤ x)) := by
  have hsum := filter_ge_add_filter_lt P curr
  rw [hcurr] at hsum
  set k := (curr.filter (fun x => decide (P ≤ x))).length with hk
  have hkle : k ≤ lanes := by omega
  have hcard : Multiset.card ((curr : Multiset α)) = lanes := by
    rw [Multiset.coe_card, hcurr]
  have hunp0 := inv.hunp
  rw [hcard] at hunp0
  have hinvL0 := inv.hL0
  have hinvlst := inv.hlst
  have hinvlr := inv.hlr
  have hinvrst := inv.hrst
  have hinvR0 := inv.hR0
  have hinvR0len := inv.hR0len
  have hinvlen := inv.len
  have hunp00 : unp = 0 := by omega
  have hbound : lst + unp + lanes ≤ arr.length := by omega
  obtain ⟨arr', hrun, hlen, hlow, hmid, hhigh, hsegL, hsegR⟩ :=
    partition_vec_spec lanes P arr curr mn mx lst unp hcurr hbound
  rw [← hk] at hrun hmid hsegL hsegR
  have harrlen : arr'.length = orig.length := by rw [hlen, hinvlen]
  have hsegR' : seg arr' (lst + (lanes - k)) (lst + lanes)
      = curr.filter (fun x => decide (P ≤ x)) := by
    have he1 : lst + (lanes - k) + unp = lst + (lanes - k) := by omega
    have he2 : lst + unp + lanes = lst + lanes := by omega
    rw [← he1, ← he2]
    exact hsegR
  have hhigh' : ∀ j, lst + lanes ≤ j → arr'[j]? = arr[j]? := by
    intro j hj
    exact hhigh j (by omega)
  refine ⟨arr', hrun, harrlen, by omega, by omega, ?_, ?_, ?_, ?_, hlow, hhigh', hsegL, hsegR'⟩
  · intro j x hj1 hj2 hjx
    rcases lt_or_le j lst with hj | hj
    · exact inv.hlt j x hj1 hj (by rw [← hlow j hj]; exact hjx)
    · have := getElem?_of_seg_eq hsegL hj hj2
      rw [this] at hjx
      exact lt_of_mem_filter_lt (List.getElem?_mem hjx)
  · intro j x hj1 hj2 hjx
    rcases lt_or_le j (lst + lanes) with hj | hj
    · have := getElem?_of_seg_eq hsegR' hj1 hj
      rw [this] at hjx
      exact ge_of_mem_filter_ge (List.getElem?_mem hjx)
    · refine inv.hge j x (by omega) hj2 ?_
      rw [← hhigh' j (by omega)]
      exact hjx
  · intro j hj
    rcases hj with hj | hj
    · rw [hlow j (by omega)]
      exact inv.hframe j (Or.inl hj)
    · rw [hhigh' j (by omega)]
      exact inv.hframe j (Or.inr hj)
  · have hLseg : seg arr' L0 (lst + (lanes - k))
        = seg arr L0 lst ++ curr.filter (fun x => decide (x < P)) := by
      rw [seg_split hinvL0 (by omega) (by omega), hsegL]
      congr 1
      exact seg_congr (by omega) (by omega) (fun j _ hj2 => hlow j hj2)
    have hRseg : seg arr' (lst + (lanes - k)) R0
        = curr.filter (fun x => decide (P ≤ x)) ++ seg arr (lst + lanes) R0 := by
      rw [seg_split (a := lst + (lanes - k)) (b := lst + lanes) (c := R0)
        (by omega) (by omega) (by omega), hsegR']
      congr 1
      exact seg_congr (by omega) (by omega) (fun j hj1 _ => hhigh' j hj1)
    have hwhole : seg arr' L0 R0
        = seg arr' L0 (lst + (lanes - k)) ++ seg arr' (lst + (lanes - k)) R0 :=
      seg_split (by omega) (by omega) (by omega)
    rw [hwhole, hLseg, hRseg]
    have hwnil : seg arr w w = ([] : List α) := seg_nil (le_refl _)
    have hold := inv.hperm
    rw [hwnil] at hold
    have he2 : lst + unp + lanes = lst + lanes := by omega
    rw [he2] at hold
    have hco : (↑((seg arr L0 lst ++ curr.filter (fun x => decide (x < P)))
          ++ (curr.filter (fun x => decide (P ≤ x)) ++ seg arr (lst + lanes) R0)) : Multiset α)
        = ↑(seg arr L0 lst) + ↑(curr.filter (fun x => decide (x < P)))
          + ↑(curr.filter (fun x => decide (P ≤ x))) + ↑(seg arr (lst + lanes) R0) := by
      simp [Multiset.coe_add]
    rw [hco]
    have hflt := filter_ge_lt_mset P curr
    calc (↑(seg arr L0 lst) : Multiset α) + ↑(curr.filter (fun x => decide (x < P)))
          + ↑(curr.filter (fun x => decide (P ≤ x))) + ↑(seg arr (lst + lanes) R0)
        = ↑(seg arr L0 lst) + ↑([] : List α) + ↑(seg arr (lst + lanes) R0)
          + (↑(curr.filter (fun x => decide (P ≤ x)))
            + ↑(curr.filter (fun x => decide (x < P)))) := by
          abel
      _ = ↑(seg arr L0 lst) + ↑([] : List α) + ↑(seg arr (lst + lanes) R0) + ↑curr := by
          rw [hflt]
      _ = ↑(seg orig L0 R0) := hold

/-- Extending a finalized-left segment: the new cells `[lst, lst')` were just
written with `lf`, everything below `lst` untouched. -/
lemma seg_extend_left {arr arr' : List α} {L0 lst lst' : Nat} {lf : List α}
    (hL0 : L0 ≤ lst) (hlst : lst ≤ lst') (hlen : lst' ≤ arr'.length)
    (hlen2 : lst ≤ arr.length)
    (hlow : ∀ j, j < lst → arr'[j]? = arr[j]?)
    (hsegL : seg arr' lst lst' = lf) :
    seg arr' L0 lst' = seg arr L0 lst ++ lf := by
  rw [seg_split hL0 hlst hlen, hsegL]
  congr 1
  exact seg_congr hlen2 (le_trans hlst hlen) (fun j _ hj2 => hlow j hj2)

/-- Extending a finalized-right segment downwards: the new cells `[rst', rst)`
were just written with `gf`, everything from `rst` on untouched. -/
lemma seg_extend_right {arr arr' : List α} {rst rst' R0 : Nat} {gf : List α}
    (hrr : rst' ≤ rst) (hR0 : rst ≤ R0) (hlen : R0 ≤ arr'.length)
    (hlen2 : R0 ≤ arr.length)
    (hhigh : ∀ j, rst ≤ j → arr'[j]? = arr[j]?)
    (hsegR : seg arr' rst' rst = gf) :
    seg arr' rst' R0 = gf ++ seg arr rst R0 := by
  rw [seg_split hrr hR0 hlen, hsegR]
  congr 1
  exact seg_congr hlen2 hlen (fun j hj1 _ => hhigh j hj1)

/-- Loading a register from the left edge of the window (`vtype::loadu` at
`arr + left`) moves its lanes from the window into the in-flight multiset. -/
lemma LoopInv_load_left {lanes : Nat} {P : α} {orig arr : List α}
    {L0 R0 left right lst unp : Nat} {extra : Multiset α}
    (inv : LoopInv lanes P orig L0 R0 extra arr left right lst unp)
    (hwin : left + lanes ≤ right) :
    readSeg arr left lanes = some (seg arr left (left + lanes)) ∧
    (seg arr left (left + lanes)).length = lanes ∧
    LoopInv lanes P orig L0 R0 (↑(seg arr left (left + lanes)) + extra) arr
      (left + lanes) right lst unp := by
  have hlen := inv.len
  have hrst := inv.hrst
  have hR0 := inv.hR0
  have hR0len := inv.hR0len
  have h1 : left + lanes ≤ arr.length := by omega
  have hread : readSeg arr left lanes = some (seg arr left (left + lanes)) := by
    simp [readSeg, h1]
  have hslen : (seg arr left (left + lanes)).length = lanes := by
    rw [seg_length h1]
    omega
  refine ⟨hread, hslen, ?_⟩
  have hsplit : seg arr left right
      = seg arr left (left + lanes) ++ seg arr (left + lanes) right :=
    seg_split (by omega) hwin (by omega)
  refine ⟨inv.len, inv.hL0, by have := inv.hlst; omega, hwin, inv.hrst, inv.hR0,
    inv.hR0len, ?_, ?_, inv.hlt, inv.hge, inv.hframe, ?_⟩
  · have hd := inv.hdvd
    have he : right - (left + lanes) = (right - left) - lanes := by omega
    rw [he]
    exact Nat.dvd_sub' hd (dvd_refl lanes)
  · have hu := inv.hunp
    have hc : Multiset.card ((↑(seg arr left (left + lanes)) : Multiset α) + extra)
        = lanes + Multiset.card extra := by
      rw [Multiset.card_add, Multiset.coe_card, hslen]
    rw [hc]
    have hlr := inv.hlr
    omega
  · have hold := inv.hperm
    rw [hsplit] at hold
    have hco : (↑(seg arr left (left + lanes) ++ seg arr (left + lanes) right) : Multiset α)
        = ↑(seg arr left (left + lanes)) + ↑(seg arr (left + lanes) right) := rfl
    rw [hco] at hold
    calc (↑(seg arr L0 lst) : Multiset α) + ↑(seg arr (left + lanes) right)
          + ↑(seg arr (lst + unp + lanes) R0) + (↑(seg arr left (left + lanes)) + extra)
        = ↑(seg arr L0 lst)
          + (↑(seg arr left (left + lanes)) + ↑(seg arr (left + lanes) right))
          + ↑(seg arr (lst + unp + lanes) R0) + extra := by abel
      _ = ↑(seg orig L0 R0) := hold

/-- Loading a register from the right edge of the window (`vtype::loadu` at
`arr + right - lanes`) moves its lanes from the window into the in-flight
multiset. -/
lemma LoopInv_load_right {lanes : Nat} {P : α} {orig arr : List α}
    {L0 R0 left right lst unp : Nat} {extra : Multiset α}
    (inv : LoopInv lanes P orig L0 R0 extra arr left right lst unp)
    (hwin : left + lanes ≤ right) :
    readSeg arr (right - lanes) lanes = some (seg arr (right - lanes) right) ∧
    (seg arr (right - lanes) right).length = lanes ∧
    LoopInv lanes P orig L0 R0 (↑(seg arr (right - lanes) right) + extra) arr
      left (right - lanes) lst unp := by
  have hlen := inv.len
  have hrst := inv.hrst
  have hR0 := inv.hR0
  have hR0len := inv.hR0len
  have h1 : right ≤ arr.length := by omega
  have he : right - lanes + lanes = right := by omega
  have hread : readSeg arr (right - lanes) lanes = some (seg arr (right - lanes) right) := by
    unfold readSeg
    rw [if_pos (by omega : right - lanes + lanes ≤ arr.length), he]
  have hslen : (seg arr (right - lanes) right).length = lanes := by
    rw [seg_length h1]
    omega
  refine ⟨hread, hslen, ?_⟩
  have hsplit : seg arr left right
      = seg arr left (right - lanes) ++ seg arr (right - lanes) right :=
    seg_split (by omega) (by omega) (by omega)
  refine ⟨inv.len, inv.hL0, inv.hlst, by omega, by omega, inv.hR0,
    inv.hR0len, ?_, ?_, inv.hlt, inv.hge, inv.hframe, ?_⟩
  · have hd := inv.hdvd
    have he2 : right - lanes - left = (right - left) - lanes := by omega
    rw [he2]
    exact Nat.dvd_sub' hd (dvd_refl lanes)
  · have hu := inv.hunp
    have hc : Multiset.card ((↑(seg arr (right - lanes) right) : Multiset α) + extra)
        = lanes + Multiset.card extra := by
      rw [Multiset.card_add, Multiset.coe_card, hslen]
    rw [hc]
    have hlr := inv.hlr
    omega
  · have hold := inv.hperm
    rw [hsplit] at hold
    have hco : (↑(seg arr left (right - lanes) ++ seg arr (right - lanes) right) : Multiset α)
        = ↑(seg arr left (right - lanes)) + ↑(seg arr (right - lanes) right) := rfl
    rw [hco] at hold
    calc (↑(seg arr L0 lst) : Multiset α) + ↑(seg arr left (right - lanes))
          + ↑(seg arr (lst + unp + lanes) R0) + (↑(seg arr (right - lanes) right) + extra)
        = ↑(seg arr L0 lst)
          + (↑(seg arr left (right - lanes)) + ↑(seg arr (right - lanes) right))
          + ↑(seg arr (lst + unp + lanes) R0) + extra := by abel
      _ = ↑(seg orig L0 R0) := hold

/-- The main loop of `partition_avx512` (lines 315-339) preserves both
invariants and runs the window down to empty: with two registers in flight
(`card extra = 2·lanes`), whichever side the heuristic picks leaves a
register-wide gap for the store, and every loaded register's lanes are folded
into the extreme vectors. -/
lemma partLoop_spec {lanes : Nat} {P : α} {orig : List α} {L0 R0 : Nat} {s0 b0 : α}
    {extra : Multiset α} :
    ∀ (f : Nat) (arr mn mx : List α) (left right lst unp : Nat),
    LoopInv lanes P orig L0 R0 extra arr left right lst unp →
    MinMaxInv lanes s0 b0
      (↑(seg arr L0 lst) + ↑(seg arr (lst + unp + lanes) R0)) mn mx →
    1 ≤ lanes →
    Multiset.card extra = 2 * lanes →
    right - left < f * lanes →
    ∃ arr' w lst' unp' mn' mx',
      partLoop lanes P f (arr, left, right, lst, unp, mn, mx)
        = some (arr', w, w, lst', unp', mn', mx') ∧
      LoopInv lanes P orig L0 R0 extra arr' w w lst' unp' ∧
      MinMaxInv lanes s0 b0
        (↑(seg arr' L0 lst') + ↑(seg arr' (lst' + unp' + lanes) R0)) mn' mx' := by
  intro f
  induction f with
  | zero =>
      intro arr mn mx left right lst unp inv mmi hl hcard hf
      exact absurd hf (by omega)
  | succ f ih =>
      intro arr mn mx left right lst unp inv mmi hl hcard hf
      by_cases hrl : right = left
      · subst hrl
        refine ⟨arr, right, lst, unp, mn, mx, ?_, inv, mmi⟩
        rw [partLoop, if_pos rfl]
      · have hdvd := inv.hdvd
        have hlr := inv.hlr
        have hwpos : lanes ≤ right - left := Nat.le_of_dvd (by omega) hdvd
        have hlst := inv.hlst
        have hrst := inv.hrst
        have hL0 := inv.hL0
        have hR0 := inv.hR0
        have hR0len := inv.hR0len
        have hlenA := inv.len
        have hunp := inv.hunp
        rw [hcard] at hunp
        have hunpge : lanes ≤ unp := by omega
        have hfe : (f + 1) * lanes = f * lanes + lanes := by ring
        by_cases hside : (lst + unp + lanes) - right < left - lst
        · -- read from the right edge
          have hwin : left + lanes ≤ right := by omega
          obtain ⟨hread, hclen, inv2⟩ := LoopInv_load_right inv hwin
          have hgl : lst + lanes ≤ left := by omega
          have hgr : (right - lanes) + lanes ≤ lst + unp + lanes := by omega
          obtain ⟨arr2, hrun, inv3, hlow, hhigh, hwinf, hsegL, hsegR⟩ :=
            LoopInv_pvec_step_window inv2 hl hclen hgl hgr
          have hksum := filter_ge_add_filter_lt P (seg arr (right - lanes) right)
          rw [hclen] at hksum
          have hkle :
              ((seg arr (right - lanes) right).filter
                (fun x => decide (P ≤ x))).length ≤ lanes := by omega
          have hlen2 : arr2.length = orig.length := inv3.len
          have hLg := seg_extend_left hL0 (by omega) (by rw [hlen2]; omega)
            (by omega) hlow hsegL
          have hRg := seg_extend_right (by omega : lst
              + (lanes - ((seg arr (right - lanes) right).filter
                (fun x => decide (P ≤ x))).length) + unp ≤ lst + unp + lanes)
            hR0 (by rw [hlen2]; omega) (by omega) hhigh hsegR
          have he3 : lst + (lanes - ((seg arr (right - lanes) right).filter
                (fun x => decide (P ≤ x))).length) + (unp - lanes) + lanes
              = lst + (lanes - ((seg arr (right - lanes) right).filter
                (fun x => decide (P ≤ x))).length) + unp := by omega
          have mm2 := MinMaxInv_step mmi hl hclen
          have hsum : (↑(seg arr L0 lst) : Multiset α)
                + ↑(seg arr (lst + unp + lanes) R0) + ↑(seg arr (right - lanes) right)
              = ↑(seg arr2 L0 (lst + (lanes - ((seg arr (right - lanes) right).filter
                  (fun x => decide (P ≤ x))).length)))
                + ↑(seg arr2 (lst + (lanes - ((seg arr (right - lanes) right).filter
                  (fun x => decide (P ≤ x))).length) + (unp - lanes) + lanes) R0) := by
            rw [he3, hLg, hRg]
            have hco1 : (↑(seg arr L0 lst
                  ++ (seg arr (right - lanes) right).filter (fun x => decide (x < P)))
                  : Multiset α)
                = ↑(seg arr L0 lst) + ↑((seg arr (right - lanes) right).filter
                    (fun x => decide (x < P))) := rfl
            have hco2 : (↑((seg arr (right - lanes) right).filter (fun x => decide (P ≤ x))
                  ++ seg arr (lst + unp + lanes) R0) : Multiset α)
                = ↑((seg arr (right - lanes) right).filter (fun x => decide (P ≤ x)))
                  + ↑(seg arr (lst + unp + lanes) R0) := rfl
            rw [hco1, hco2]
            have hflt := filter_ge_lt_mset P (seg arr (right - lanes) right)
            calc (↑(seg arr L0 lst) : Multiset α) + ↑(seg arr (lst + unp + lanes) R0)
                  + ↑(seg arr (right - lanes) right)
                = ↑(seg arr L0 lst) + ↑(seg arr (lst + unp + lanes) R0)
                  + (↑((seg arr (right - lanes) right).filter (fun x => decide (P ≤ x)))
                    + ↑((seg arr (right - lanes) right).filter
                      (fun x => decide (x < P)))) := by rw [hflt]
              _ = ↑(seg arr L0 lst) + ↑((seg arr (right - lanes) right).filter
                    (fun x => decide (x < P)))
                  + (↑((seg arr (right - lanes) right).filter (fun x => decide (P ≤ x)))
                    + ↑(seg arr (lst + unp + lanes) R0)) := by abel
          rw [hsum] at mm2
          obtain ⟨arr3, w, lst3, unp3, mn3, mx3, hrun3, inv4, mm4⟩ :=
            ih arr2 (List.zipWith min (seg arr (right - lanes) right) mn)
              (List.zipWith max (seg arr (right - lanes) right) mx)
              left (right - lanes)
              (lst + (lanes - ((seg arr (right - lanes) right).filter
                (fun x => decide (P ≤ x))).length))
              (unp - lanes) inv3 mm2 hl hcard (by omega)
          refine ⟨arr3, w, lst3, unp3, mn3, mx3, ?_, inv4, mm4⟩
          rw [partLoop, if_neg hrl, if_pos hside]
          simp only [Option.bind_eq_bind]
          rw [hread]
          simp only [Option.some_bind]
          rw [hrun]
          simp only [Option.some_bind]
          exact hrun3
        · -- read from the left edge
          have hwin : left + lanes ≤ right := by omega
          obtain ⟨hread, hclen, inv2⟩ := LoopInv_load_left inv hwin
          have hgl : lst + lanes ≤ left + lanes := by omega
          have hgr : right + lanes ≤ lst + unp + lanes := by omega
          obtain ⟨arr2, hrun, inv3, hlow, hhigh, hwinf, hsegL, hsegR⟩ :=
            LoopInv_pvec_step_window inv2 hl hclen hgl hgr
          have hksum := filter_ge_add_filter_lt P (seg arr left (left + lanes))
          rw [hclen] at hksum
          have hkle :
              ((seg arr left (left + lanes)).filter
                (fun x => decide (P ≤ x))).length ≤ lanes := by omega
          have hlen2 : arr2.length = orig.length := inv3.len
          have hLg := seg_extend_left hL0 (by omega) (by rw [hlen2]; omega)
            (by omega) hlow hsegL
          have hRg := seg_extend_right (by omega : lst
              + (lanes - ((seg arr left (left + lanes)).filter
                (fun x => decide (P ≤ x))).length) + unp ≤ lst + unp + lanes)
            hR0 (by rw [hlen2]; omega) (by omega) hhigh hsegR
          have he3 : lst + (lanes - ((seg arr left (left + lanes)).filter
                (fun x => decide (P ≤ x))).length) + (unp - lanes) + lanes
              = lst + (lanes - ((seg arr left (left + lanes)).filter
                (fun x => decide (P ≤ x))).length) + unp := by omega
          have mm2 := MinMaxInv_step mmi hl hclen
          have hsum : (↑(seg arr L0 lst) : Multiset α)
                + ↑(seg arr (lst + unp + lanes) R0) + ↑(seg arr left (left + lanes))
              = ↑(seg arr2 L0 (lst + (lanes - ((seg arr left (left + lanes)).filter
                  (fun x => decide (P ≤ x))).length)))
                + ↑(seg arr2 (lst + (lanes - ((seg arr left (left + lanes)).filter
                  (fun x => decide (P ≤ x))).length) + (unp - lanes) + lanes) R0) := by
            rw [he3, hLg, hRg]
            have hco1 : (↑(seg arr L0 lst
                  ++ (seg arr left (left + lanes)).filter (fun x => decide (x < P)))
                  : Multiset α)
                = ↑(seg arr L0 lst) + ↑((seg arr left (left + lanes)).filter
                    (fun x => decide (x < P))) := rfl
            have hco2 : (↑((seg arr left (left + lanes)).filter (fun x => decide (P ≤ x))
                  ++ seg arr (lst + unp + lanes) R0) : Multiset α)
                = ↑((seg arr left (left + lanes)).filter (fun x => decide (P ≤ x)))
                  + ↑(seg arr (lst + unp + lanes) R0) := rfl
            rw [hco1, hco2]
            have hflt := filter_ge_lt_mset P (seg arr left (left + lanes))
            calc (↑(seg arr L0 lst) : Multiset α) + ↑(seg arr (lst + unp + lanes) R0)
                  + ↑(seg arr left (left + lanes))
                = ↑(seg arr L0 lst) + ↑(seg arr (lst + unp + lanes) R0)
                  + (↑((seg arr left (left + lanes)).filter (fun x => decide (P ≤ x)))
                    + ↑((seg arr left (left + lanes)).filter
                      (fun x => decide (x < P)))) := by rw [hflt]
              _ = ↑(seg arr L0 lst) + ↑((seg arr left (left + lanes)).filter
                    (fun x => decide (x < P)))
                  + (↑((seg arr left (left + lanes)).filter (fun x => decide (P ≤ x)))
                    + ↑(seg arr (lst + unp + lanes) R0)) := by abel
          rw [hsum] at mm2
          obtain ⟨arr3, w, lst3, unp3, mn3, mx3, hrun3, inv4, mm4⟩ :=
            ih arr2 (List.zipWith min (seg arr left (left + lanes)) mn)
              (List.zipWith max (seg arr left (left + lanes)) mx)
              (left + lanes) right
              (lst + (lanes - ((seg arr left (left + lanes)).filter
                (fun x => decide (P ≤ x))).length))
              (unp - lanes) inv3 mm2 hl hcard (by omega)
          refine ⟨arr3, w, lst3, unp3, mn3, mx3, ?_, inv4, mm4⟩
          rw [partLoop, if_neg hrl, if_neg hside]
          simp only [Option.bind_eq_bind]
          rw [hread]
          simp only [Option.some_bind]
          rw [hrun]
          simp only [Option.some_bind]
          exact hrun3

lemma seg_cons {l : List β} {a b : Nat} (hab : a < b) (hb : b ≤ l.length) :
    seg l a b = l.get ⟨a, by omega⟩ :: seg l (a + 1) b := by
  have ha : a < l.length := by omega
  rw [seg_split (a := a) (b := a + 1) (c := b) (by omega) (by omega) hb,
    seg_singleton ha]
  rfl

lemma seg_eq_singleton_of_getElem? {l : List β} {a : Nat} {x : β}
    (ha : a < l.length) (hx : l[a]? = some x) : seg l a (a + 1) = [x] := by
  rw [seg_singleton ha]
  rw [List.getElem?_eq_getElem ha] at hx
  cases hx
  simp [List.get_eq_getElem]

lemma mem_seg_of_getElem? {l : List β} {a b j : Nat} {x : β} (hj1 : a ≤ j)
    (hj2 : j < b) (hx : l[j]? = some x) : x ∈ seg l a b := by
  have hs := seg_getElem? (l := l) (a := a) (b := b) (j - a) (by omega)
  rw [show a + (j - a) = j from by omega] at hs
  rw [← hs] at hx
  exact List.getElem?_mem hx

/-- The scalar alignment loop (lines 276-285): running `i` iterations inside
the window `[left, right)` advances the cursors by `i` cells in total, keeps
the window a permutation, collects `< pivot` elements in `[left, left')` and
`≥ pivot` elements in `[right', right)`, and folds every processed element
into the running extremes. -/
lemma alignLoop_spec {P : α} :
    ∀ (i : Nat) (arr : List α) (left right : Nat) (s b : α),
    i ≤ right - left → right ≤ arr.length → left ≤ right →
    ∃ arr' left' right' s' b',
      alignLoop P i (arr, left, right, s, b) = some (arr', left', right', s', b') ∧
      arr'.length = arr.length ∧
      left ≤ left' ∧ left' ≤ right' ∧ right' ≤ right ∧
      (left' - left) + (right - right') = i ∧
      (∀ j, j < left ∨ right ≤ j → arr'[j]? = arr[j]?) ∧
      (↑(seg arr' left right) : Multiset α) = ↑(seg arr left right) ∧
      (∀ j x, left ≤ j → j < left' → arr'[j]? = some x → x < P) ∧
      (∀ j x, right' ≤ j → j < right → arr'[j]? = some x → P ≤ x) ∧
      s' ≤ s ∧ b ≤ b' ∧
      (∀ x ∈ (↑(seg arr' left left') + ↑(seg arr' right' right) : Multiset α),
        s' ≤ x ∧ x ≤ b') ∧
      (s' = s ∨ s' ∈ (↑(seg arr' left left') + ↑(seg arr' right' right) : Multiset α)) ∧
      (b' = b ∨ b' ∈ (↑(seg arr' left left') + ↑(seg arr' right' right) : Multiset α)) := by
  intro i
  induction i with
  | zero =>
      intro arr left right s b hi hr hlr
      refine ⟨arr, left, right, s, b, rfl, rfl, le_refl _, hlr, le_refl _, by omega,
        fun j _ => rfl, rfl, by omega, by omega, le_refl _, le_refl _, ?_,
        Or.inl rfl, Or.inl rfl⟩
      intro x hx
      rw [seg_nil (le_refl left), seg_nil (le_refl right)] at hx
      simp at hx
  | succ i ih =>
      intro arr left right s b hi hr hlr
      have hlt : left < right := by omega
      have hll : left < arr.length := by omega
      have hxl : arr[left]? = some (arr.get ⟨left, hll⟩) := by
        simp [List.getElem?_eq_getElem hll]
      by_cases hc : arr.get ⟨left, hll⟩ < P
      · -- `arr[left] < pivot`: keep it on the left, advance `left`
        obtain ⟨arr', left', right', s', b', hrun, hlen, h1, h2, h3, hprog, hframe,
          hperm, hltreg, hgereg, hs, hb, hbnd, hsatt, hbatt⟩ :=
          ih arr (left + 1) right (min s (arr.get ⟨left, hll⟩))
            (max b (arr.get ⟨left, hll⟩)) (by omega) hr (by omega)
        have hfl : arr'[left]? = some (arr.get ⟨left, hll⟩) := by
          rw [hframe left (Or.inl (by omega))]
          exact hxl
        have hl'len : left' ≤ arr'.length := by omega
        have hrlen' : right ≤ arr'.length := by omega
        have hLdec : seg arr' left left' = arr.get ⟨left, hll⟩ :: seg arr' (left + 1) left' := by
          rw [seg_cons (by omega) hl'len]
          congr 1
          have hgl := List.getElem?_eq_getElem (l := arr') (show left < arr'.length by omega)
          rw [hgl] at hfl
          injection hfl
        refine ⟨arr', left', right', s', b', ?_, hlen, by omega, h2, h3, by omega,
          ?_, ?_, ?_, hgereg, le_trans hs (min_le_left _ _),
          le_trans (le_max_left _ _) hb, ?_, ?_, ?_⟩
        · rw [alignLoop, readAt_eq_some hll]
          simp only [Option.bind_eq_bind, Option.some_bind]
          rw [if_neg (not_not_intro hc)]
          exact hrun
        · intro j hj
          rw [hframe j (by omega)]
        · rw [seg_cons hlt hrlen', seg_cons hlt hr]
          have hhd : arr'.get ⟨left, by omega⟩ = arr.get ⟨left, hll⟩ := by
            have hgl := List.getElem?_eq_getElem (l := arr') (show left < arr'.length by omega)
            rw [hgl] at hfl
            injection hfl
          rw [hhd, ← Multiset.cons_coe, ← Multiset.cons_coe, hperm]
        · intro j x hj1 hj2 hjx
          rcases eq_or_lt_of_le hj1 with rfl | hj1'
          · rw [hfl] at hjx
            cases hjx
            exact hc
          · exact hltreg j x (by omega) hj2 hjx
        · intro y hy
          rw [hLdec] at hy
          rw [← Multiset.cons_coe] at hy
          rcases Multiset.mem_add.mp hy with hy | hy
          · rcases Multiset.mem_cons.mp hy with rfl | hy
            · exact ⟨le_trans hs (min_le_right _ _), le_trans (le_max_right _ _) hb⟩
            · exact hbnd y (Multiset.mem_add.mpr (Or.inl hy))
          · exact hbnd y (Multiset.mem_add.mpr (Or.inr hy))
        · rcases hsatt with he | hmem
          · rcases le_total s (arr.get ⟨left, hll⟩) with ho | ho
            · rw [min_eq_left ho] at he
              exact Or.inl he
            · rw [min_eq_right ho] at he
              refine Or.inr (Multiset.mem_add.mpr (Or.inl ?_))
              rw [hLdec, ← Multiset.cons_coe]
              rw [he]
              exact Multiset.mem_cons_self _ _
          · refine Or.inr ?_
            rw [hLdec, ← Multiset.cons_coe]
            rcases Multiset.mem_add.mp hmem with hy | hy
            · exact Multiset.mem_add.mpr (Or.inl (Multiset.mem_cons_of_mem hy))
            · exact Multiset.mem_add.mpr (Or.inr hy)
        · rcases hbatt with he | hmem
          · rcases le_total b (arr.get ⟨left, hll⟩) with ho | ho
            · rw [max_eq_right ho] at he
              refine Or.inr (Multiset.mem_add.mpr (Or.inl ?_))
              rw [hLdec, ← Multiset.cons_coe]
              rw [he]
              exact Multiset.mem_cons_self _ _
            · rw [max_eq_left ho] at he
              exact Or.inl he
          · refine Or.inr ?_
            rw [hLdec, ← Multiset.cons_coe]
            rcases Multiset.mem_add.mp hmem with hy | hy
            · exact Multiset.mem_add.mpr (Or.inl (Multiset.mem_cons_of_mem hy))
            · exact Multiset.mem_add.mpr (Or.inr hy)
      · -- `!(arr[left] < pivot)`: swap it to `arr[right - 1]` and retreat `right`
        have hr1 : right - 1 < arr.length := by omega
        obtain ⟨arr1, hsw⟩ : ∃ a, swapAt arr left (right - 1) = some a :=
          ⟨_, swapAt_eq_some hll hr1⟩
        have hlen1 : arr1.length = arr.length := swapAt_length hsw
        have hget1 := swapAt_getElem? hll hr1 hsw
        have hx1 : arr1[right - 1]? = some (arr.get ⟨left, hll⟩) := by
          rcases eq_or_ne (right - 1) left with he | hne
          · rw [hget1 (right - 1), if_pos he, he]
            exact hxl
          · rw [hget1 (right - 1), if_neg hne, if_pos rfl]
            exact hxl
        obtain ⟨arr', left', right', s', b', hrun, hlen, h1, h2, h3, hprog, hframe,
          hperm, hltreg, hgereg, hs, hb, hbnd, hsatt, hbatt⟩ :=
          ih arr1 left (right - 1) (min s (arr.get ⟨left, hll⟩))
            (max b (arr.get ⟨left, hll⟩)) (by omega) (by omega) (by omega)
        have hfr : arr'[right - 1]? = some (arr.get ⟨left, hll⟩) := by
          rw [hframe (right - 1) (Or.inr (le_refl _))]
          exact hx1
        have hrlen' : right ≤ arr'.length := by omega
        have hRdec : seg arr' right' right
            = seg arr' right' (right - 1) ++ [arr.get ⟨left, hll⟩] := by
          rw [seg_split h3 (by omega) (by omega : right ≤ arr'.length)]
          congr 1
          have := seg_eq_singleton_of_getElem? (l := arr') (by omega) hfr
          rw [show right - 1 + 1 = right from by omega] at this
          exact this
        refine ⟨arr', left', right', s', b', ?_, by omega, h1, h2, by omega, by omega,
          ?_, ?_, hltreg, ?_, le_trans hs (min_le_left _ _),
          le_trans (le_max_left _ _) hb, ?_, ?_, ?_⟩
        · rw [alignLoop, readAt_eq_some hll]
          simp only [Option.bind_eq_bind, Option.some_bind]
          rw [if_pos hc, hsw]
          simp only [Option.some_bind]
          exact hrun
        · intro j hj
          rw [hframe j (by omega)]
          rw [hget1 j, if_neg (by omega), if_neg (by omega)]
        · have hspl : seg arr' left right
              = seg arr' left (right - 1) ++ seg arr' (right - 1) right :=
            seg_split (by omega) (by omega) (by omega)
          have hsng : seg arr' (right - 1) right = [arr.get ⟨left, hll⟩] := by
            have := seg_eq_singleton_of_getElem? (l := arr') (by omega) hfr
            rw [show right - 1 + 1 = right from by omega] at this
            exact this
          have hspl1 : seg arr1 left right
              = seg arr1 left (right - 1) ++ seg arr1 (right - 1) right :=
            seg_split (by omega) (by omega) (by omega)
          have hsng1 : seg arr1 (right - 1) right = [arr.get ⟨left, hll⟩] := by
            have := seg_eq_singleton_of_getElem? (l := arr1) (by omega) hx1
            rw [show right - 1 + 1 = right from by omega] at this
            exact this
          have hswm := swapAt_seg_mset hsw (le_refl left) (by omega) (by omega) hr
          calc (↑(seg arr' left right) : Multiset α)
              = ↑(seg arr' left (right - 1)) + ↑([arr.get ⟨left, hll⟩] : List α) := by
                rw [hspl, hsng]
                rfl
            _ = ↑(seg arr1 left (right - 1)) + ↑([arr.get ⟨left, hll⟩] : List α) := by
                rw [hperm]
            _ = ↑(seg arr1 left right) := by
                rw [hspl1, hsng1]
                rfl
            _ = ↑(seg arr left right) := hswm
        · intro j x hj1 hj2 hjx
          rcases eq_or_ne j (right - 1) with rfl | hne
          · rw [hfr] at hjx
            cases hjx
            exact le_of_not_lt hc
          · exact hgereg j x hj1 (by omega) hjx
        · intro y hy
          rw [hRdec] at hy
          have hco : (↑(seg arr' right' (right - 1) ++ [arr.get ⟨left, hll⟩]) : Multiset α)
              = ↑(seg arr' right' (right - 1)) + ↑([arr.get ⟨left, hll⟩] : List α) := rfl
          rw [hco] at hy
          rcases Multiset.mem_add.mp hy with hy | hy
          · exact hbnd y (Multiset.mem_add.mpr (Or.inl hy))
          · rcases Multiset.mem_add.mp hy with hy | hy
            · exact hbnd y (Multiset.mem_add.mpr (Or.inr hy))
            · have : y = arr.get ⟨left, hll⟩ := by
                simpa using hy
              subst this
              exact ⟨le_trans hs (min_le_right _ _), le_trans (le_max_right _ _) hb⟩
        · rcases hsatt with he | hmem
          · rcases le_total s (arr.get ⟨left, hll⟩) with ho | ho
            · rw [min_eq_left ho] at he
              exact Or.inl he
            · rw [min_eq_right ho] at he
              refine Or.inr (Multiset.mem_add.mpr (Or.inr ?_))
              rw [hRdec]
              rw [he]
              exact Multiset.mem_coe.mpr (List.mem_append.mpr (Or.inr (by simp)))
          · refine Or.inr ?_
            rcases Multiset.mem_add.mp hmem with hy | hy
            · exact Multiset.mem_add.mpr (Or.inl hy)
            · refine Multiset.mem_add.mpr (Or.inr ?_)
              rw [hRdec]
              exact Multiset.mem_coe.mpr
                (List.mem_append.mpr (Or.inl (Multiset.mem_coe.mp hy)))
        · rcases hbatt with he | hmem
          · rcases le_total b (arr.get ⟨left, hll⟩) with ho | ho
            · rw [max_eq_right ho] at he
              refine Or.inr (Multiset.mem_add.mpr (Or.inr ?_))
              rw [hRdec]
              rw [he]
              exact Multiset.mem_coe.mpr (List.mem_append.mpr (Or.inr (by simp)))
            · rw [max_eq_left ho] at he
              exact Or.inl he
          · refine Or.inr ?_
            rcases Multiset.mem_add.mp hmem with hy | hy
            · exact Multiset.mem_add.mpr (Or.inl hy)
            · refine Multiset.mem_add.mpr (Or.inr ?_)
              rw [hRdec]
              exact Multiset.mem_coe.mpr
                (List.mem_append.mpr (Or.inl (Multiset.mem_coe.mp hy)))

lemma MinMaxInv_init {lanes : Nat} (hl : 1 ≤ lanes) (s0 b0 : α) :
    MinMaxInv lanes s0 b0 0 (List.replicate lanes s0) (List.replicate lanes b0) := by
  refine ⟨by simp, by simp,
    ⟨s0, reducemin_replicate hl s0, le_refl _, by simp, Or.inl rfl⟩,
    ⟨b0, reducemax_replicate hl b0, le_refl _, by simp, Or.inl rfl⟩⟩

/-- The general path of `partition_avx512` (lines 306-354): on an aligned
window of at least two registers it partitions `[left, right)` in place,
reports the store cursor, and reduces the running extremes over every element
of the window (seeded with `s0`/`b0`). -/
lemma partitionMain_spec {lanes : Nat} {P : α} (arr : List α) (left right : Nat)
    (s0 b0 : α) (hl : 1 ≤ lanes) (hdvd : lanes ∣ right - left)
    (h2 : 2 * lanes ≤ right - left) (hrlen : right ≤ arr.length) (hlr : left ≤ right) :
    ∃ arr' p s' b',
      partitionMain lanes arr left right P (List.replicate lanes s0)
        (List.replicate lanes b0) = some (arr', p, s', b') ∧
      arr'.length = arr.length ∧
      left ≤ p ∧ p ≤ right ∧
      (∀ j x, left ≤ j → j < p → arr'[j]? = some x → x < P) ∧
      (∀ j x, p ≤ j → j < right → arr'[j]? = some x → P ≤ x) ∧
      (∀ j, j < left ∨ right ≤ j → arr'[j]? = arr[j]?) ∧
      (↑(seg arr' left right) : Multiset α) = ↑(seg arr left right) ∧
      s' ≤ s0 ∧ b0 ≤ b' ∧
      (∀ x ∈ seg arr left right, s' ≤ x ∧ x ≤ b') ∧
      (s' = s0 ∨ s' ∈ seg arr left right) ∧
      (b' = b0 ∨ b' ∈ seg arr left right) := by
  have hvl : readSeg arr left lanes = some (seg arr left (left + lanes)) := by
    unfold readSeg
    rw [if_pos (by omega)]
  have hvr : readSeg arr (right - lanes) lanes = some (seg arr (right - lanes) right) := by
    unfold readSeg
    rw [if_pos (by omega), show right - lanes + lanes = right from by omega]
  have hvllen : (seg arr left (left + lanes)).length = lanes := by
    rw [seg_length (by omega)]
    omega
  have hvrlen : (seg arr (right - lanes) right).length = lanes := by
    rw [seg_length hrlen]
    omega
  have hcard : Multiset.card ((↑(seg arr left (left + lanes)) : Multiset α)
      + (↑(seg arr (right - lanes) right) : Multiset α)) = 2 * lanes := by
    rw [Multiset.card_add, Multiset.coe_card, Multiset.coe_card, hvllen, hvrlen]
    omega
  have inv0 : LoopInv lanes P arr left right
      ((↑(seg arr left (left + lanes)) : Multiset α) + ↑(seg arr (right - lanes) right))
      arr (left + lanes) (right - lanes) left (right - left - lanes) := by
    refine ⟨rfl, le_refl _, by omega, by omega, by omega, by omega, hrlen, ?_, ?_,
      by omega, by omega, fun j _ => rfl, ?_⟩
    · rw [show (right - lanes) - (left + lanes) = right - left - lanes - lanes from by omega]
      exact Nat.dvd_sub' (Nat.dvd_sub' hdvd (dvd_refl lanes)) (dvd_refl lanes)
    · rw [hcard]
      omega
    · rw [seg_nil (le_refl left),
        seg_nil (show right ≤ left + (right - left - lanes) + lanes from by omega)]
      have hsp1 : seg arr left right
          = seg arr left (left + lanes) ++ seg arr (left + lanes) right :=
        seg_split (by omega) (by omega) hrlen
      have hsp2 : seg arr (left + lanes) right
          = seg arr (left + lanes) (right - lanes) ++ seg arr (right - lanes) right :=
        seg_split (by omega) (by omega) hrlen
      rw [hsp1, hsp2]
      have hco : (↑((seg arr left (left + lanes))
            ++ (seg arr (left + lanes) (right - lanes) ++ seg arr (right - lanes) right))
            : Multiset α)
          = ↑(seg arr left (left + lanes)) + (↑(seg arr (left + lanes) (right - lanes))
            + ↑(seg arr (right - lanes) right)) := rfl
      rw [hco]
      have hnil : (↑([] : List α) : Multiset α) = 0 := rfl
      rw [hnil]
      abel
  have hS0 : ((↑(seg arr left left) : Multiset α)
      + ↑(seg arr (left + (right - left - lanes) + lanes) right)) = 0 := by
    rw [seg_nil (le_refl left),
      seg_nil (show right ≤ left + (right - left - lanes) + lanes from by omega)]
    rfl
  have mm0 : MinMaxInv lanes s0 b0
      ((↑(seg arr left left) : Multiset α)
        + ↑(seg arr (left + (right - left - lanes) + lanes) right))
      (List.replicate lanes s0) (List.replicate lanes b0) := by
    rw [hS0]
    exact MinMaxInv_init hl s0 b0
  have hq := Nat.div_add_mod ((right - lanes) - (left + lanes)) lanes
  have hm : ((right - lanes) - (left + lanes)) % lanes < lanes :=
    Nat.mod_lt _ (by omega)
  have hfe : (((right - lanes) - (left + lanes)) / lanes + 1) * lanes
      = lanes * (((right - lanes) - (left + lanes)) / lanes) + lanes := by ring
  obtain ⟨arrL, w, lst1, unp1, mn1, mx1, hrunL, invL, mmL⟩ :=
    partLoop_spec (((right - lanes) - (left + lanes)) / lanes + 1) arr
      (List.replicate lanes s0) (List.replicate lanes b0)
      (left + lanes) (right - lanes) left (right - left - lanes) inv0 mm0 hl hcard
      (by omega)
  have hunp1 : unp1 = lanes := by
    have hu := invL.hunp
    rw [hcard] at hu
    omega
  have hlenL : arrL.length = arr.length := invL.len
  have hrem : lanes ≤ Multiset.card (↑(seg arr (right - lanes) right) : Multiset α) := by
    rw [Multiset.coe_card, hvrlen]
  obtain ⟨arr2, hrun2, inv2, hlow2, hhigh2, hsegL2, hsegR2⟩ :=
    LoopInv_pvec_step_flush invL hl hvllen hrem
  have hL0w := invL.hL0
  have hlstw := invL.hlst
  have hR0w := invL.hR0
  have hk1 : ((seg arr left (left + lanes)).filter (fun x => decide (P ≤ x))).length
      ≤ lanes := by
    have := filter_ge_add_filter_lt P (seg arr left (left + lanes))
    rw [hvllen] at this
    omega
  have hlen2 : arr2.length = arr.length := by
    rw [inv2.len]
  have hLg2 := seg_extend_left hL0w
    (by omega : lst1 ≤ lst1 + (lanes - ((seg arr left (left + lanes)).filter
      (fun x => decide (P ≤ x))).length))
    (by rw [hlen2]; omega) (by rw [hlenL]; omega) hlow2 hsegL2
  have hRg2 := seg_extend_right
    (by omega : lst1 + (lanes - ((seg arr left (left + lanes)).filter
      (fun x => decide (P ≤ x))).length) + unp1 ≤ lst1 + unp1 + lanes)
    hR0w (by rw [hlen2]; omega) (by rw [hlenL]; omega) hhigh2 hsegR2
  have mm2 := MinMaxInv_step mmL hl hvllen
  have he2 : lst1 + (lanes - ((seg arr left (left + lanes)).filter
        (fun x => decide (P ≤ x))).length) + (unp1 - lanes) + lanes
      = lst1 + (lanes - ((seg arr left (left + lanes)).filter
        (fun x => decide (P ≤ x))).length) + unp1 := by omega
  have hsum2 : (↑(seg arrL left lst1) : Multiset α)
        + ↑(seg arrL (lst1 + unp1 + lanes) right) + ↑(seg arr left (left + lanes))
      = ↑(seg arr2 left (lst1 + (lanes - ((seg arr left (left + lanes)).filter
          (fun x => decide (P ≤ x))).length)))
        + ↑(seg arr2 (lst1 + (lanes - ((seg arr left (left + lanes)).filter
          (fun x => decide (P ≤ x))).length) + (unp1 - lanes) + lanes) right) := by
    rw [he2, hLg2, hRg2]
    have hco1 : (↑(seg arrL left lst1
          ++ (seg arr left (left + lanes)).filter (fun x => decide (x < P))) : Multiset α)
        = ↑(seg arrL left lst1) + ↑((seg arr left (left + lanes)).filter
            (fun x => decide (x < P))) := rfl
    have hco2 : (↑((seg arr left (left + lanes)).filter (fun x => decide (P ≤ x))
          ++ seg arrL (lst1 + unp1 + lanes) right) : Multiset α)
        = ↑((seg arr left (left + lanes)).filter (fun x => decide (P ≤ x)))
          + ↑(seg arrL (lst1 + unp1 + lanes) right) := rfl
    rw [hco1, hco2]
    have hflt := filter_ge_lt_mset P (seg arr left (left + lanes))
    calc (↑(seg arrL left lst1) : Multiset α) + ↑(seg arrL (lst1 + unp1 + lanes) right)
          + ↑(seg arr left (left + lanes))
        = ↑(seg arrL left lst1) + ↑(seg arrL (lst1 + unp1 + lanes) right)
          + (↑((seg arr left (left + lanes)).filter (fun x => decide (P ≤ x)))
            + ↑((seg arr left (left + lanes)).filter (fun x => decide (x < P)))) := by
          rw [hflt]
      _ = ↑(seg arrL left lst1) + ↑((seg arr left (left + lanes)).filter
            (fun x => decide (x < P)))
          + (↑((seg arr left (left + lanes)).filter (fun x => decide (P ≤ x)))
            + ↑(seg arrL (lst1 + unp1 + lanes) right)) := by abel
  rw [hsum2] at mm2
  obtain ⟨arr3, hrun3, hlen3, hpL0, hpR0, hltfin, hgefin, hframe3, hmset3, hlow3,
    hhigh3, hsegL3, hsegR3⟩ :=
    LoopInv_pvec_step_final inv2 hl hvrlen
  have hzL0 := inv2.hL0
  have hzR0 := inv2.hR0
  have hzrlen := inv2.hR0len
  have hunp2 : unp1 - lanes = 0 := by omega
  have hk2 : ((seg arr (right - lanes) right).filter (fun x => decide (P ≤ x))).length
      ≤ lanes := by
    have := filter_ge_add_filter_lt P (seg arr (right - lanes) right)
    rw [hvrlen] at this
    omega
  have hlen3' : arr3.length = arr.length := hlen3
  have mm3 := MinMaxInv_step mm2 hl hvrlen
  have hLg3 := seg_extend_left hzL0
    (by omega : lst1 + (lanes - ((seg arr left (left + lanes)).filter
        (fun x => decide (P ≤ x))).length)
      ≤ lst1 + (lanes - ((seg arr left (left + lanes)).filter
        (fun x => decide (P ≤ x))).length)
      + (lanes - ((seg arr (right - lanes) right).filter
        (fun x => decide (P ≤ x))).length))
    (by rw [hlen3']; omega) (by rw [hlen2]; omega) hlow3 hsegL3
  have hRg3 := seg_extend_right
    (by omega : lst1 + (lanes - ((seg arr left (left + lanes)).filter
        (fun x => decide (P ≤ x))).length)
      + (lanes - ((seg arr (right - lanes) right).filter
        (fun x => decide (P ≤ x))).length)
      ≤ lst1 + (lanes - ((seg arr left (left + lanes)).filter
        (fun x => decide (P ≤ x))).length) + lanes)
    (by omega : lst1 + (lanes - ((seg arr left (left + lanes)).filter
        (fun x => decide (P ≤ x))).length) + lanes ≤ right)
    (by rw [hlen3']; omega) (by rw [hlen2]; omega) hhigh3 hsegR3
  have hsum3 : (↑(seg arr2 left (lst1 + (lanes - ((seg arr left (left + lanes)).filter
          (fun x => decide (P ≤ x))).length))) : Multiset α)
        + ↑(seg arr2 (lst1 + (lanes - ((seg arr left (left + lanes)).filter
          (fun x => decide (P ≤ x))).length) + (unp1 - lanes) + lanes) right)
        + ↑(seg arr (right - lanes) right)
      = ↑(seg arr left right) := by
    have hez : lst1 + (lanes - ((seg arr left (left + lanes)).filter
          (fun x => decide (P ≤ x))).length) + (unp1 - lanes) + lanes
        = lst1 + (lanes - ((seg arr left (left + lanes)).filter
          (fun x => decide (P ≤ x))).length) + lanes := by omega
    rw [hez]
    have hwhole : seg arr3 left right
        = seg arr3 left (lst1 + (lanes - ((seg arr left (left + lanes)).filter
            (fun x => decide (P ≤ x))).length)
          + (lanes - ((seg arr (right - lanes) right).filter
            (fun x => decide (P ≤ x))).length))
          ++ seg arr3 (lst1 + (lanes - ((seg arr left (left + lanes)).filter
            (fun x => decide (P ≤ x))).length)
          + (lanes - ((seg arr (right - lanes) right).filter
            (fun x => decide (P ≤ x))).length)) right :=
      seg_split (by omega) (by omega) (by rw [hlen3']; omega)
    have hmw : (↑(seg arr3 left right) : Multiset α) = ↑(seg arr left right) := hmset3
    rw [hwhole, hLg3, hRg3] at hmw
    have hco1 : (↑((seg arr2 left (lst1 + (lanes - ((seg arr left (left + lanes)).filter
            (fun x => decide (P ≤ x))).length))
          ++ (seg arr (right - lanes) right).filter (fun x => decide (x < P)))
          ++ ((seg arr (right - lanes) right).filter (fun x => decide (P ≤ x))
          ++ seg arr2 (lst1 + (lanes - ((seg arr left (left + lanes)).filter
            (fun x => decide (P ≤ x))).length) + lanes) right)) : Multiset α)
        = ↑(seg arr2 left (lst1 + (lanes - ((seg arr left (left + lanes)).filter
            (fun x => decide (P ≤ x))).length)))
          + ↑((seg arr (right - lanes) right).filter (fun x => decide (x < P)))
          + (↑((seg arr (right - lanes) right).filter (fun x => decide (P ≤ x)))
          + ↑(seg arr2 (lst1 + (lanes - ((seg arr left (left + lanes)).filter
            (fun x => decide (P ≤ x))).length) + lanes) right)) := by
      simp [Multiset.coe_add]
    rw [hco1] at hmw
    have hflt := filter_ge_lt_mset P (seg arr (right - lanes) right)
    calc (↑(seg arr2 left (lst1 + (lanes - ((seg arr left (left + lanes)).filter
            (fun x => decide (P ≤ x))).length))) : Multiset α)
          + ↑(seg arr2 (lst1 + (lanes - ((seg arr left (left + lanes)).filter
            (fun x => decide (P ≤ x))).length) + lanes) right)
          + ↑(seg arr (right - lanes) right)
        = ↑(seg arr2 left (lst1 + (lanes - ((seg arr left (left + lanes)).filter
            (fun x => decide (P ≤ x))).length)))
          + ↑(seg arr2 (lst1 + (lanes - ((seg arr left (left + lanes)).filter
            (fun x => decide (P ≤ x))).length) + lanes) right)
          + (↑((seg arr (right - lanes) right).filter (fun x => decide (P ≤ x)))
            + ↑((seg arr (right - lanes) right).filter (fun x => decide (x < P)))) := by
          rw [hflt]
      _ = ↑(seg arr2 left (lst1 + (lanes - ((seg arr left (left + lanes)).filter
            (fun x => decide (P ≤ x))).length)))
          + ↑((seg arr (right - lanes) right).filter (fun x => decide (x < P)))
          + (↑((seg arr (right - lanes) right).filter (fun x => decide (P ≤ x)))
          + ↑(seg arr2 (lst1 + (lanes - ((seg arr left (left + lanes)).filter
            (fun x => decide (P ≤ x))).length) + lanes) right)) := by abel
      _ = ↑(seg arr left right) := hmw
  rw [hsum3] at mm3
  obtain ⟨m, hmred, hms0, hmbnd, hmatt⟩ := mm3.hmn
  obtain ⟨M, hMred, hMb0, hMbnd, hMatt⟩ := mm3.hmx
  refine ⟨arr3, lst1 + (lanes - ((seg arr left (left + lanes)).filter
      (fun x => decide (P ≤ x))).length)
    + (lanes - ((seg arr (right - lanes) right).filter
      (fun x => decide (P ≤ x))).length), m, M, ?_, hlen3', by omega, by omega,
    ?_, ?_, hframe3, hmset3, hms0, hMb0, ?_, ?_, ?_⟩
  · rw [partitionMain]
    simp only [Option.bind_eq_bind]
    rw [hvl]
    simp only [Option.some_bind]
    rw [hvr]
    simp only [Option.some_bind]
    rw [hrunL]
    simp only [Option.some_bind]
    rw [hrun2]
    simp only [Option.some_bind]
    rw [hrun3]
    simp only [Option.some_bind]
    rw [hmred]
    simp only [Option.some_bind]
    rw [hMred]
    simp only [Option.some_bind]
    rfl
  · intro j x hj1 hj2
    exact hltfin j x hj1 (by omega)
  · intro j x hj1 hj2
    exact hgefin j x (by omega) hj2
  · intro x hx
    exact ⟨hmbnd x (Multiset.mem_coe.mpr hx), hMbnd x (Multiset.mem_coe.mpr hx)⟩
  · rcases hmatt with h | h
    · exact Or.inl h
    · exact Or.inr (Multiset.mem_coe.mp h)
  · rcases hMatt with h | h
    · exact Or.inl h
    · exact Or.inr (Multiset.mem_coe.mp h)

/-- If two arrays agree outside `[mid1, mid2)` and their `[mid1, mid2)`
segments agree as multisets, the whole `[left, right)` segments agree as
multisets. -/
lemma seg_mset_congr_mid {arr arr' : List β} {left mid1 mid2 right : Nat}
    (h1 : left ≤ mid1) (h2 : mid1 ≤ mid2) (h3 : mid2 ≤ right)
    (hrl : right ≤ arr.length) (hrl' : right ≤ arr'.length)
    (hout : ∀ j, j < mid1 ∨ mid2 ≤ j → arr'[j]? = arr[j]?)
    (hmid : (↑(seg arr' mid1 mid2) : Multiset β) = ↑(seg arr mid1 mid2)) :
    (↑(seg arr' left right) : Multiset β) = ↑(seg arr left right) := by
  rw [seg_split (l := arr') h1 (le_trans h2 h3) hrl',
    seg_split (l := arr') h2 h3 hrl',
    seg_split (l := arr) h1 (le_trans h2 h3) hrl,
    seg_split (l := arr) h2 h3 hrl]
  have e1 : seg arr' left mid1 = seg arr left mid1 :=
    seg_congr (by omega) (by omega) (fun j _ hj2 => hout j (Or.inl hj2))
  have e2 : seg arr' mid2 right = seg arr mid2 right :=
    seg_congr hrl hrl' (fun j hj1 _ => hout j (Or.inr hj1))
  rw [e1, e2]
  have hco1 : (↑(seg arr left mid1 ++ (seg arr' mid1 mid2 ++ seg arr mid2 right))
      : Multiset β)
      = ↑(seg arr left mid1) + (↑(seg arr' mid1 mid2) + ↑(seg arr mid2 right)) := rfl
  have hco2 : (↑(seg arr left mid1 ++ (seg arr mid1 mid2 ++ seg arr mid2 right))
      : Multiset β)
      = ↑(seg arr left mid1) + (↑(seg arr mid1 mid2) + ↑(seg arr mid2 right)) := rfl
  rw [hco1, hco2, hmid]

/-- `partition_avx512` (lines 267-355): on any nonempty subrange it returns a
partition point `p` with strictly-less elements in `[left, p)`, greater-or-equal
elements in `[p, right)`, the subrange permuted and nothing outside written.
The reported extremes absorb every element of the subrange (together with the
seeds) whenever the post-alignment window is not exactly one register — i.e.
unless `lanes ≤ right - left < 2·lanes`, where the single-register path
(lines 295-304) returns the seeds/alignment extremes unreduced. -/
lemma partition_avx512_spec {lanes : Nat} (P : α) (arr : List α) (left right : Nat)
    (s0 b0 : α) (hl : 1 ≤ lanes) (hlr : left < right) (hrlen : right ≤ arr.length) :
    ∃ arr' p s' b',
      partition_avx512 lanes arr left right P s0 b0 = some (arr', p, s', b') ∧
      arr'.length = arr.length ∧
      left ≤ p ∧ p ≤ right ∧
      (∀ j x, left ≤ j → j < p → arr'[j]? = some x → x < P) ∧
      (∀ j x, p ≤ j → j < right → arr'[j]? = some x → P ≤ x) ∧
      (∀ j, j < left ∨ right ≤ j → arr'[j]? = arr[j]?) ∧
      (↑(seg arr' left right) : Multiset α) = ↑(seg arr left right) ∧
      (right - left < lanes ∨ 2 * lanes ≤ right - left →
        s' ≤ s0 ∧ b0 ≤ b' ∧
        (∀ x ∈ seg arr left right, s' ≤ x ∧ x ≤ b') ∧
        (s' = s0 ∨ s' ∈ seg arr left right) ∧
        (b' = b0 ∨ b' ∈ seg arr left right)) := by
  have hlanes0 : 0 < lanes := hl
  have hmod : (right - left) % lanes < lanes := Nat.mod_lt _ hlanes0
  have hmodle : (right - left) % lanes ≤ right - left := Nat.mod_le _ _
  obtain ⟨arrA, lA, rA, sA, bA, hrunA, hlenA, h1A, h2A, h3A, hprogA, hframeA, hpermA,
    hltA, hgeA, hsA, hbA, hbndA, hsattA, hbattA⟩ :=
    alignLoop_spec ((right - left) % lanes) arr left right s0 b0 hmodle hrlen
      (le_of_lt hlr)
  have hqm := Nat.div_add_mod (right - left) lanes
  have hwA : rA - lA = lanes * ((right - left) / lanes) := by omega
  have hrAlen : rA ≤ arrA.length := by omega
  have hsplitA : seg arrA left right
      = seg arrA left lA ++ (seg arrA lA rA ++ seg arrA rA right) := by
    rw [seg_split (l := arrA) h1A (le_trans h2A h3A) (by omega),
      seg_split (l := arrA) h2A h3A (by omega)]
  have hmem_entry : ∀ x, x ∈ seg arrA left right → x ∈ seg arr left right := by
    intro x hx
    have hx' : x ∈ (↑(seg arr left right) : Multiset α) := by
      rw [← hpermA]
      exact Multiset.mem_coe.mpr hx
    exact Multiset.mem_coe.mp hx'
  have hmem_entry' : ∀ x, x ∈ seg arr left right → x ∈ seg arrA left right := by
    intro x hx
    have hx' : x ∈ (↑(seg arrA left right) : Multiset α) := by
      rw [hpermA]
      exact Multiset.mem_coe.mpr hx
    exact Multiset.mem_coe.mp hx'
  by_cases hpr : lA = rA
  · -- the alignment loop consumed the whole window
    refine ⟨arrA, lA, sA, bA, ?_, hlenA, h1A, by omega, hltA, ?_, hframeA, hpermA, ?_⟩
    · rw [partition_avx512]
      simp only [Option.bind_eq_bind]
      rw [hrunA]
      simp only [Option.some_bind]
      rw [if_pos hpr]
      rfl
    · intro j x hj1 hj2 hjx
      exact hgeA j x (by omega) hj2 hjx
    · intro _
      have hmidnil : seg arrA lA rA = [] := seg_nil (le_of_eq hpr.symm)
      refine ⟨hsA, hbA, ?_, ?_, ?_⟩
      · intro x hx
        have hx' := hmem_entry' x hx
        rw [hsplitA] at hx'
        rcases List.mem_append.mp hx' with hx1 | hx23
        · exact hbndA x (Multiset.mem_add.mpr (Or.inl (Multiset.mem_coe.mpr hx1)))
        · rcases List.mem_append.mp hx23 with hx2 | hx3
          · rw [hmidnil] at hx2
            simp at hx2
          · exact hbndA x (Multiset.mem_add.mpr (Or.inr (Multiset.mem_coe.mpr hx3)))
      · rcases hsattA with h | h
        · exact Or.inl h
        · refine Or.inr (hmem_entry _ ?_)
          rw [hsplitA]
          rcases Multiset.mem_add.mp h with h | h
          · exact List.mem_append.mpr (Or.inl (Multiset.mem_coe.mp h))
          · exact List.mem_append.mpr (Or.inr (List.mem_append.mpr
              (Or.inr (Multiset.mem_coe.mp h))))
      · rcases hbattA with h | h
        · exact Or.inl h
        · refine Or.inr (hmem_entry _ ?_)
          rw [hsplitA]
          rcases Multiset.mem_add.mp h with h | h
          · exact List.mem_append.mpr (Or.inl (Multiset.mem_coe.mp h))
          · exact List.mem_append.mpr (Or.inr (List.mem_append.mpr
              (Or.inr (Multiset.mem_coe.mp h))))
  · by_cases hsingle : rA - lA = lanes
    · -- the single-register path (the one that skips the reduction)
      have hlArA : lA < rA := by omega
      have hrAeq : rA = lA + lanes := by omega
      have hvlen : (seg arrA lA (lA + lanes)).length = lanes := by
        rw [seg_length (by omega)]
        omega
      have hread : readSeg arrA lA lanes = some (seg arrA lA (lA + lanes)) := by
        unfold readSeg
        rw [if_pos (by omega)]
      obtain ⟨arr2, hrun2, hlen2, hlow2, hmid2, hhigh2, hsegL2, hsegR2⟩ :=
        partition_vec_spec lanes P arrA (seg arrA lA (lA + lanes))
          (List.replicate lanes sA) (List.replicate lanes bA) lA 0 hvlen (by omega)
      have hksum := filter_ge_add_filter_lt P (seg arrA lA (lA + lanes))
      rw [hvlen] at hksum
      have hkle : ((seg arrA lA (lA + lanes)).filter
          (fun x => decide (P ≤ x))).length ≤ lanes := by omega
      have hsegR2' : seg arr2 (lA + (lanes - ((seg arrA lA (lA + lanes)).filter
            (fun x => decide (P ≤ x))).length)) rA
          = (seg arrA lA (lA + lanes)).filter (fun x => decide (P ≤ x)) := by
        have h := hsegR2
        rw [show lA + (lanes - ((seg arrA lA (lA + lanes)).filter
              (fun x => decide (P ≤ x))).length) + 0
            = lA + (lanes - ((seg arrA lA (lA + lanes)).filter
              (fun x => decide (P ≤ x))).length) from by omega,
          show lA + 0 + lanes = rA from by omega] at h
        exact h
      have hout2 : ∀ j, j < lA ∨ rA ≤ j → arr2[j]? = arrA[j]? := by
        intro j hj
        rcases hj with hj | hj
        · exact hlow2 j hj
        · exact hhigh2 j (by omega)
      have hmid2' : (↑(seg arr2 lA rA) : Multiset α) = ↑(seg arrA lA rA) := by
        rw [seg_split (a := lA)
            (b := lA + (lanes - ((seg arrA lA (lA + lanes)).filter
              (fun x => decide (P ≤ x))).length)) (c := rA)
            (by omega) (by omega) (by rw [hlen2]; omega),
          hsegL2, hsegR2']
        have hflt := filter_ge_lt_mset P (seg arrA lA (lA + lanes))
        have hco : (↑((seg arrA lA (lA + lanes)).filter (fun x => decide (x < P))
              ++ (seg arrA lA (lA + lanes)).filter (fun x => decide (P ≤ x)))
              : Multiset α)
            = ↑((seg arrA lA (lA + lanes)).filter (fun x => decide (x < P)))
              + ↑((seg arrA lA (lA + lanes)).filter (fun x => decide (P ≤ x))) := rfl
        rw [hco, show seg arrA lA rA = seg arrA lA (lA + lanes) from by rw [← hrAeq]]
        calc (↑((seg arrA lA (lA + lanes)).filter (fun x => decide (x < P))) : Multiset α)
              + ↑((seg arrA lA (lA + lanes)).filter (fun x => decide (P ≤ x)))
            = ↑((seg arrA lA (lA + lanes)).filter (fun x => decide (P ≤ x)))
              + ↑((seg arrA lA (lA + lanes)).filter (fun x => decide (x < P))) := by
              abel
          _ = ↑(seg arrA lA (lA + lanes)) := hflt
      refine ⟨arr2, lA + (lanes - ((seg arrA lA (lA + lanes)).filter
          (fun x => decide (P ≤ x))).length), sA, bA, ?_, by rw [hlen2, hlenA],
        by omega, by omega, ?_, ?_, ?_, ?_, ?_⟩
      · rw [partition_avx512]
        simp only [Option.bind_eq_bind]
        rw [hrunA]
        simp only [Option.some_bind]
        rw [if_neg hpr, if_pos hsingle]
        rw [hread]
        simp only [Option.some_bind]
        rw [show rA - lA - lanes = 0 from by omega, hrun2]
        simp only [Option.some_bind]
        rfl
      · intro j x hj1 hj2 hjx
        rcases lt_or_le j lA with hj | hj
        · exact hltA j x hj1 hj (by rw [← hlow2 j hj]; exact hjx)
        · have hjs := getElem?_of_seg_eq hsegL2 hj hj2
          rw [hjs] at hjx
          exact lt_of_mem_filter_lt (List.getElem?_mem hjx)
      · intro j x hj1 hj2 hjx
        rcases lt_or_le j rA with hj | hj
        · have hjs := getElem?_of_seg_eq hsegR2' hj1 hj
          rw [hjs] at hjx
          exact ge_of_mem_filter_ge (List.getElem?_mem hjx)
        · exact hgeA j x hj hj2 (by rw [← hhigh2 j (by omega)]; exact hjx)
      · intro j hj
        rw [hout2 j (by omega)]
        exact hframeA j hj
      · have := seg_mset_congr_mid h1A h2A h3A (by omega) (by rw [hlen2]; omega)
          hout2 hmid2'
        rw [this, hpermA]
      · intro hcase
        exact absurd hcase (by omega)
    · -- the general path
      have h2A' : 2 * lanes ≤ rA - lA := by
        generalize hg : (right - left) / lanes = q at hwA
        rcases Nat.lt_or_ge q 2 with hq | hq
        · have hq01 : q = 0 ∨ q = 1 := by
            omega
          rcases hq01 with h | h
          · rw [h] at hwA
            omega
          · rw [h] at hwA
            omega
        · have hmul := Nat.mul_le_mul (le_refl lanes) hq
          omega
      have hdvdA : lanes ∣ rA - lA := ⟨_, hwA⟩
      obtain ⟨arrM, p, sM, bM, hrunM, hlenM, hpl, hpu, hltM, hgeM, hframeM, hmsetM,
        hsMle, hbMle, hbndM, hsattM, hbattM⟩ :=
        partitionMain_spec arrA lA rA sA bA hl hdvdA h2A' hrAlen h2A
      refine ⟨arrM, p, sM, bM, ?_, by rw [hlenM, hlenA], by omega, by omega,
        ?_, ?_, ?_, ?_, ?_⟩
      · rw [partition_avx512]
        simp only [Option.bind_eq_bind]
        rw [hrunA]
        simp only [Option.some_bind]
        rw [if_neg hpr, if_neg hsingle]
        exact hrunM
      · intro j x hj1 hj2 hjx
        rcases lt_or_le j lA with hj | hj
        · exact hltA j x hj1 hj (by rw [← hframeM j (Or.inl hj)]; exact hjx)
        · exact hltM j x hj hj2 hjx
      · intro j x hj1 hj2 hjx
        rcases lt_or_le j rA with hj | hj
        · exact hgeM j x hj1 hj hjx
        · exact hgeA j x hj hj2 (by rw [← hframeM j (Or.inr hj)]; exact hjx)
      · intro j hj
        rw [hframeM j (by omega)]
        exact hframeA j hj
      · have := seg_mset_congr_mid h1A h2A h3A (by omega) (by rw [hlenM]; omega)
          (fun j hj => hframeM j hj) hmsetM
        rw [this, hpermA]
      · intro _
        refine ⟨le_trans hsMle hsA, le_trans hbA hbMle, ?_, ?_, ?_⟩
        · intro x hx
          have hx' := hmem_entry' x hx
          rw [hsplitA] at hx'
          rcases List.mem_append.mp hx' with hx1 | hx23
          · have hb := hbndA x (Multiset.mem_add.mpr (Or.inl (Multiset.mem_coe.mpr hx1)))
            exact ⟨le_trans hsMle hb.1, le_trans hb.2 hbMle⟩
          · rcases List.mem_append.mp hx23 with hx2 | hx3
            · exact hbndM x hx2
            · have hb := hbndA x (Multiset.mem_add.mpr (Or.inr (Multiset.mem_coe.mpr hx3)))
              exact ⟨le_trans hsMle hb.1, le_trans hb.2 hbMle⟩
        · rcases hsattM with h | h
          · rcases hsattA with h' | h'
            · exact Or.inl (h.trans h')
            · refine Or.inr (hmem_entry _ ?_)
              rw [hsplitA]
              rcases Multiset.mem_add.mp h' with h'' | h''
              · exact List.mem_append.mpr (Or.inl (by rw [h]; exact Multiset.mem_coe.mp h''))
              · exact List.mem_append.mpr (Or.inr (List.mem_append.mpr
                  (Or.inr (by rw [h]; exact Multiset.mem_coe.mp h''))))
          · refine Or.inr (hmem_entry _ ?_)
            rw [hsplitA]
            exact List.mem_append.mpr (Or.inr (List.mem_append.mpr (Or.inl h)))
        · rcases hbattM with h | h
          · rcases hbattA with h' | h'
            · exact Or.inl (h.trans h')
            · refine Or.inr (hmem_entry _ ?_)
              rw [hsplitA]
              rcases Multiset.mem_add.mp h' with h'' | h''
              · exact List.mem_append.mpr (Or.inl (by rw [h]; exact Multiset.mem_coe.mp h''))
              · exact List.mem_append.mpr (Or.inr (List.mem_append.mpr
                  (Or.inr (by rw [h]; exact Multiset.mem_coe.mp h''))))
          · refine Or.inr (hmem_entry _ ?_)
            rw [hsplitA]
            exact List.mem_append.mpr (Or.inr (List.mem_append.mpr (Or.inl h)))

/-- **C3.** For every array, pivot value `P`, and indices
`left < right ≤ |A|` (and any register width `lanes ≥ 1` supplied by the
capability pack), `partition_avx512` returns an index `p` with
`left ≤ p ≤ right` such that afterwards every element of `A[left..p)` is
`< P`, every element of `A[p..right)` is `≥ P` (equal-to-pivot elements go to
the right side), `A[left..right)` holds a permutation of its entry contents,
and no position outside `[left, right)` is written. -/
theorem claim_C3_partition_contract {lanes : Nat} (P : α) (arr : List α)
    (left right : Nat) (s0 b0 : α) (hl : 1 ≤ lanes) (hlr : left < right)
    (hrlen : right ≤ arr.length) :
    ∃ arr' p s' b',
      partition_avx512 lanes arr left right P s0 b0 = some (arr', p, s', b') ∧
      left ≤ p ∧ p ≤ right ∧
      (∀ j x, left ≤ j → j < p → arr'[j]? = some x → x < P) ∧
      (∀ j x, p ≤ j → j < right → arr'[j]? = some x → P ≤ x) ∧
      (∀ j, j < left ∨ right ≤ j → arr'[j]? = arr[j]?) ∧
      (↑(seg arr' left right) : Multiset α) = ↑(seg arr left right) := by
  obtain ⟨arr', p, s', b', hrun, _, h1, h2, h3, h4, h5, h6, _⟩ :=
    partition_avx512_spec P arr left right s0 b0 hl hlr hrlen
  exact ⟨arr', p, s', b', hrun, h1, h2, h3, h4, h5, h6⟩

theorem claim_C3_witness :
    1 ≤ 2 ∧ 0 < 4 ∧ 4 ≤ [(3 : Int), 1, 2, 5].length ∧
    (∃ arr' p s' b',
      partition_avx512 2 [(3 : Int), 1, 2, 5] 0 4 2 100 (-100)
        = some (arr', p, s', b') ∧
      0 ≤ p ∧ p ≤ 4 ∧
      (∀ j x, 0 ≤ j → j < p → arr'[j]? = some x → x < 2) ∧
      (∀ j x, p ≤ j → j < 4 → arr'[j]? = some x → (2 : Int) ≤ x) ∧
      (∀ j, j < 0 ∨ 4 ≤ j → arr'[j]? = [(3 : Int), 1, 2, 5][j]?) ∧
      (↑(seg arr' 0 4) : Multiset Int) = ↑(seg [(3 : Int), 1, 2, 5] 0 4)) :=
  ⟨by decide, by decide, by decide,
    claim_C3_partition_contract 2 [(3 : Int), 1, 2, 5] 0 4 100 (-100)
      (by decide) (by decide) (by decide)⟩

/-- **C5 counterexample.** On `arr = [1, 2]` with `lanes = 2`, pivot `1` and
seeds `smallest = 100`, `biggest = -100` (which bound every element of the
subrange, as `type_max`/`type_min` do), `partition_avx512` takes the
single-register path and returns the seeds untouched: the reported smallest is
`100`, which is not even an element of the subrange, let alone its minimum. -/
theorem claim_C5_counterexample :
    partition_avx512 2 [(1 : Int), 2] 0 2 1 100 (-100)
      = some ([(1 : Int), 2], 0, 100, -100) ∧
    (∀ x ∈ seg [(1 : Int), 2] 0 2, x ≤ 100 ∧ -100 ≤ x) ∧
    ¬ (100 : Int) ∈ seg [(1 : Int), 2] 0 2 :=
  ⟨by decide, by decide, by decide⟩

/-- **C5 (amended).** With the seeds bounding the subrange (as `type_max` and
`type_min` do), `partition_avx512` reports the true minimum and maximum of the
entry contents of `A[left..right)` — provided the subrange is not exactly one
register wide after alignment, i.e. `right - left < lanes` or
`2·lanes ≤ right - left`; on `lanes ≤ right - left < 2·lanes` the
single-register path (lines 295-304) skips the `reducemin`/`reducemax` and
returns the seeds. -/
theorem claim_C5_partition_extremes {lanes : Nat} (P : α) (arr : List α)
    (left right : Nat) (s0 b0 : α) (hl : 1 ≤ lanes) (hlr : left < right)
    (hrlen : right ≤ arr.length)
    (hcase : right - left < lanes ∨ 2 * lanes ≤ right - left)
    (hs0 : ∀ x ∈ seg arr left right, x ≤ s0)
    (hb0 : ∀ x ∈ seg arr left right, b0 ≤ x) :
    ∃ arr' p s' b',
      partition_avx512 lanes arr left right P s0 b0 = some (arr', p, s', b') ∧
      s' ∈ seg arr left right ∧ (∀ x ∈ seg arr left right, s' ≤ x) ∧
      b' ∈ seg arr left right ∧ (∀ x ∈ seg arr left right, x ≤ b') := by
  obtain ⟨arr', p, s', b', hrun, hlen, h1, h2, h3, h4, h5, h6, hext⟩ :=
    partition_avx512_spec P arr left right s0 b0 hl hlr hrlen
  obtain ⟨hss0, hbb0, hbnd, hsatt, hbatt⟩ := hext hcase
  have hslen : (seg arr left right).length = right - left := seg_length hrlen
  have hne : seg arr left right ≠ [] := by
    intro h
    rw [h] at hslen
    simp at hslen
    omega
  refine ⟨arr', p, s', b', hrun, ?_, fun x hx => (hbnd x hx).1, ?_,
    fun x hx => (hbnd x hx).2⟩
  · rcases hsatt with h | h
    · obtain ⟨y, hy⟩ := List.exists_mem_of_ne_nil _ hne
      have hy1 := (hbnd y hy).1
      have hy2 := hs0 y hy
      have hey : y = s' := le_antisymm (by rw [h]; exact hy2) hy1
      rw [← hey]
      exact hy
    · exact h
  · rcases hbatt with h | h
    · obtain ⟨y, hy⟩ := List.exists_mem_of_ne_nil _ hne
      have hy1 := (hbnd y hy).2
      have hy2 := hb0 y hy
      have hey : y = b' := le_antisymm hy1 (by rw [h]; exact hy2)
      rw [← hey]
      exact hy
    · exact h

theorem claim_C5_witness :
    1 ≤ 2 ∧ 0 < 6 ∧ 6 ≤ [(3 : Int), 1, 2, 5, 4, 0].length ∧
    (6 - 0 < 2 ∨ 2 * 2 ≤ 6 - 0) ∧
    (∀ x ∈ seg [(3 : Int), 1, 2, 5, 4, 0] 0 6, x ≤ 100) ∧
    (∀ x ∈ seg [(3 : Int), 1, 2, 5, 4, 0] 0 6, -100 ≤ x) ∧
    (∃ arr' p s' b',
      partition_avx512 2 [(3 : Int), 1, 2, 5, 4, 0] 0 6 3 100 (-100)
        = some (arr', p, s', b') ∧
      s' ∈ seg [(3 : Int), 1, 2, 5, 4, 0] 0 6 ∧
      (∀ x ∈ seg [(3 : Int), 1, 2, 5, 4, 0] 0 6, s' ≤ x) ∧
      b' ∈ seg [(3 : Int), 1, 2, 5, 4, 0] 0 6 ∧
      (∀ x ∈ seg [(3 : Int), 1, 2, 5, 4, 0] 0 6, x ≤ b')) :=
  ⟨by decide, by decide, by decide, by decide, by decide, by decide,
    claim_C5_partition_extremes 3 [(3 : Int), 1, 2, 5, 4, 0] 0 6 100 (-100)
      (by decide) (by decide) (by decide) (by decide) (by decide) (by decide)⟩

/-! ## The unrolled kernel: group loads and folds -/

lemma msum_card {lanes : Nat} :
    ∀ (cs : List (List β)), (∀ c ∈ cs, c.length = lanes) →
    Multiset.card (msum cs) = cs.length * lanes := by
  intro cs
  induction cs with
  | nil =>
      intro _
      simp [msum]
  | cons c cs ih =>
      intro h
      have hc := h c (List.mem_cons_self c cs)
      have ihh := ih (fun d hd => h d (List.mem_cons_of_mem c hd))
      show Multiset.card ((↑c : Multiset β) + msum cs) = (cs.length + 1) * lanes
      rw [Multiset.card_add, Multiset.coe_card, hc, ihh]
      ring

lemma readGroup_spec (lanes : Nat) :
    ∀ (U : Nat) (arr : List α) (pos : Nat), pos + U * lanes ≤ arr.length →
    ∃ currs, readGroup lanes arr pos U = some currs ∧
      currs.length = U ∧ (∀ c ∈ currs, c.length = lanes) ∧
      msum currs = ↑(seg arr pos (pos + U * lanes)) := by
  intro U
  induction U with
  | zero =>
      intro arr pos h
      refine ⟨[], rfl, rfl, by simp, ?_⟩
      rw [show pos + 0 * lanes = pos from by ring, seg_nil (le_refl pos)]
      rfl
  | succ U ih =>
      intro arr pos h
      have hmul : (U + 1) * lanes = U * lanes + lanes := by ring
      have hb1 : pos + lanes ≤ arr.length := by omega
      have hread : readSeg arr pos lanes = some (seg arr pos (pos + lanes)) := by
        unfold readSeg
        rw [if_pos hb1]
      obtain ⟨rest, hrest, hlen, hall, hms⟩ := ih arr (pos + lanes) (by omega)
      refine ⟨seg arr pos (pos + lanes) :: rest, ?_, by simp [hlen], ?_, ?_⟩
      · rw [readGroup]
        simp only [Option.bind_eq_bind]
        rw [hread]
        simp only [Option.some_bind]
        rw [hrest]
        simp only [Option.some_bind]
        rfl
      · intro c hc
        rcases List.mem_cons.mp hc with rfl | hc
        · rw [seg_length hb1]
          omega
        · exact hall c hc
      · show (↑(seg arr pos (pos + lanes)) : Multiset α) + msum rest
            = ↑(seg arr pos (pos + (U + 1) * lanes))
        rw [hms, show pos + (U + 1) * lanes = pos + lanes + U * lanes from by ring,
          seg_split (l := arr) (a := pos) (b := pos + lanes)
            (c := pos + lanes + U * lanes) (by omega) (by omega) (by omega)]
        rfl

/-- Shrinking the window from the left by a whole number of registers moves the
covered segment into the in-flight multiset. -/
lemma LoopInv_shrink_left {lanes n : Nat} {P : α} {orig arr : List α}
    {L0 R0 left right lst unp : Nat} {extra : Multiset α}
    (inv : LoopInv lanes P orig L0 R0 extra arr left right lst unp)
    (hwin : left + n ≤ right) (hdn : lanes ∣ n) :
    LoopInv lanes P orig L0 R0 (↑(seg arr left (left + n)) + extra) arr
      (left + n) right lst unp := by
  have hlen := inv.len
  have hrst := inv.hrst
  have hR0 := inv.hR0
  have hR0len := inv.hR0len
  have h1 : left + n ≤ arr.length := by omega
  have hslen : (seg arr left (left + n)).length = n := by
    rw [seg_length h1]
    omega
  have hsplit : seg arr left right = seg arr left (left + n) ++ seg arr (left + n) right :=
    seg_split (by omega) hwin (by omega)
  refine ⟨inv.len, inv.hL0, by have := inv.hlst; omega, hwin, inv.hrst, inv.hR0,
    inv.hR0len, ?_, ?_, inv.hlt, inv.hge, inv.hframe, ?_⟩
  · have hd := inv.hdvd
    have he : right - (left + n) = (right - left) - n := by omega
    rw [he]
    exact Nat.dvd_sub' hd hdn
  · have hu := inv.hunp
    have hc : Multiset.card ((↑(seg arr left (left + n)) : Multiset α) + extra)
        = n + Multiset.card extra := by
      rw [Multiset.card_add, Multiset.coe_card, hslen]
    rw [hc]
    have hlr := inv.hlr
    omega
  · have hold := inv.hperm
    rw [hsplit] at hold
    have hco : (↑(seg arr left (left + n) ++ seg arr (left + n) right) : Multiset α)
        = ↑(seg arr left (left + n)) + ↑(seg arr (left + n) right) := rfl
    rw [hco] at hold
    calc (↑(seg arr L0 lst) : Multiset α) + ↑(seg arr (left + n) right)
          + ↑(seg arr (lst + unp + lanes) R0) + (↑(seg arr left (left + n)) + extra)
        = ↑(seg arr L0 lst)
          + (↑(seg arr left (left + n)) + ↑(seg arr (left + n) right))
          + ↑(seg arr (lst + unp + lanes) R0) + extra := by abel
      _ = ↑(seg orig L0 R0) := hold

/-- Shrinking the window from the right by a whole number of registers. -/
lemma LoopInv_shrink_right {lanes n : Nat} {P : α} {orig arr : List α}
    {L0 R0 left right lst unp : Nat} {extra : Multiset α}
    (inv : LoopInv lanes P orig L0 R0 extra arr left right lst unp)
    (hwin : left + n ≤ right) (hdn : lanes ∣ n) :
    LoopInv lanes P orig L0 R0 (↑(seg arr (right - n) right) + extra) arr
      left (right - n) lst unp := by
  have hlen := inv.len
  have hrst := inv.hrst
  have hR0 := inv.hR0
  have hR0len := inv.hR0len
  have h1 : right ≤ arr.length := by omega
  have hslen : (seg arr (right - n) right).length = n := by
    rw [seg_length h1]
    omega
  have hsplit : seg arr left right
      = seg arr left (right - n) ++ seg arr (right - n) right :=
    seg_split (by omega) (by omega) (by omega)
  refine ⟨inv.len, inv.hL0, inv.hlst, by omega, by omega, inv.hR0,
    inv.hR0len, ?_, ?_, inv.hlt, inv.hge, inv.hframe, ?_⟩
  · have hd := inv.hdvd
    have he : right - n - left = (right - left) - n := by omega
    rw [he]
    exact Nat.dvd_sub' hd hdn
  · have hu := inv.hunp
    have hc : Multiset.card ((↑(seg arr (right - n) right) : Multiset α) + extra)
        = n + Multiset.card extra := by
      rw [Multiset.card_add, Multiset.coe_card, hslen]
    rw [hc]
    have hlr := inv.hlr
    omega
  · have hold := inv.hperm
    rw [hsplit] at hold
    have hco : (↑(seg arr left (right - n) ++ seg arr (right - n) right) : Multiset α)
        = ↑(seg arr left (right - n)) + ↑(seg arr (right - n) right) := rfl
    rw [hco] at hold
    calc (↑(seg arr L0 lst) : Multiset α) + ↑(seg arr left (right - n))
          + ↑(seg arr (lst + unp + lanes) R0) + (↑(seg arr (right - n) right) + extra)
        = ↑(seg arr L0 lst)
          + (↑(seg arr left (right - n)) + ↑(seg arr (right - n) right))
          + ↑(seg arr (lst + unp + lanes) R0) + extra := by abel
      _ = ↑(seg orig L0 R0) := hold

/-- One window-protected `partition_vec` step, carrying both invariants. -/
lemma LoopInv_MinMax_step_window {lanes : Nat} {P : α} {orig arr curr mn mx : List α}
    {L0 R0 left right lst unp : Nat} {extra' : Multiset α} {s0 b0 : α}
    (inv : LoopInv lanes P orig L0 R0 (↑curr + extra') arr left right lst unp)
    (mmi : MinMaxInv lanes s0 b0
      (↑(seg arr L0 lst) + ↑(seg arr (lst + unp + lanes) R0)) mn mx)
    (hl : 1 ≤ lanes) (hcurr : curr.length = lanes)
    (hgl : lst + lanes ≤ left) (hgr : right + lanes ≤ lst + unp + lanes) :
    ∃ arr',
      partition_vec lanes arr lst unp curr P mn mx
        = some (arr', lst + (lanes - (curr.filter (fun x => decide (P ≤ x))).length),
            unp - lanes, List.zipWith min curr mn, List.zipWith max curr mx) ∧
      LoopInv lanes P orig L0 R0 extra' arr' left right
        (lst + (lanes - (curr.filter (fun x => decide (P ≤ x))).length))
        (unp - lanes) ∧
      MinMaxInv lanes s0 b0
        (↑(seg arr' L0 (lst + (lanes - (curr.filter (fun x => decide (P ≤ x))).length)))
          + ↑(seg arr' (lst + (lanes - (curr.filter (fun x => decide (P ≤ x))).length)
            + (unp - lanes) + lanes) R0))
        (List.zipWith min curr mn) (List.zipWith max curr mx) := by
  have hL0 := inv.hL0
  have hR0 := inv.hR0
  have hR0len := inv.hR0len
  have hlenA := inv.len
  have hlst := inv.hlst
  have hrst := inv.hrst
  have hlr := inv.hlr
  have hunp := inv.hunp
  have hcardc : Multiset.card ((↑curr : Multiset α) + extra')
      = lanes + Multiset.card extra' := by
    rw [Multiset.card_add, Multiset.coe_card, hcurr]
  rw [hcardc] at hunp
  have hunpge : lanes ≤ unp := by omega
  obtain ⟨arr2, hrun, inv3, hlow, hhigh, hwinf, hsegL, hsegR⟩ :=
    LoopInv_pvec_step_window inv hl hcurr hgl hgr
  have hksum := filter_ge_add_filter_lt P curr
  rw [hcurr] at hksum
  have hkle : (curr.filter (fun x => decide (P ≤ x))).length ≤ lanes := by omega
  have hlen2 : arr2.length = orig.length := inv3.len
  have hLg := seg_extend_left hL0 (by omega) (by rw [hlen2]; omega)
    (by omega) hlow hsegL
  have hRg := seg_extend_right (by omega : lst
      + (lanes - (curr.filter (fun x => decide (P ≤ x))).length) + unp
      ≤ lst + unp + lanes)
    hR0 (by rw [hlen2]; omega) (by omega) hhigh hsegR
  have he3 : lst + (lanes - (curr.filter (fun x => decide (P ≤ x))).length)
        + (unp - lanes) + lanes
      = lst + (lanes - (curr.filter (fun x => decide (P ≤ x))).length) + unp := by
    omega
  have mm2 := MinMaxInv_step mmi hl hcurr
  have hsum : (↑(seg arr L0 lst) : Multiset α)
        + ↑(seg arr (lst + unp + lanes) R0) + ↑curr
      = ↑(seg arr2 L0 (lst + (lanes - (curr.filter (fun x => decide (P ≤ x))).length)))
        + ↑(seg arr2 (lst + (lanes - (curr.filter (fun x => decide (P ≤ x))).length)
          + (unp - lanes) + lanes) R0) := by
    rw [he3, hLg, hRg]
    have hco1 : (↑(seg arr L0 lst ++ curr.filter (fun x => decide (x < P))) : Multiset α)
        = ↑(seg arr L0 lst) + ↑(curr.filter (fun x => decide (x < P))) := rfl
    have hco2 : (↑(curr.filter (fun x => decide (P ≤ x))
          ++ seg arr (lst + unp + lanes) R0) : Multiset α)
        = ↑(curr.filter (fun x => decide (P ≤ x)))
          + ↑(seg arr (lst + unp + lanes) R0) := rfl
    rw [hco1, hco2]
    have hflt := filter_ge_lt_mset P curr
    calc (↑(seg arr L0 lst) : Multiset α) + ↑(seg arr (lst + unp + lanes) R0) + ↑curr
        = ↑(seg arr L0 lst) + ↑(seg arr (lst + unp + lanes) R0)
          + (↑(curr.filter (fun x => decide (P ≤ x)))
            + ↑(curr.filter (fun x => decide (x < P)))) := by rw [hflt]
      _ = ↑(seg arr L0 lst) + ↑(curr.filter (fun x => decide (x < P)))
          + (↑(curr.filter (fun x => decide (P ≤ x)))
            + ↑(seg arr (lst + unp + lanes) R0)) := by abel
  rw [hsum] at mm2
  exact ⟨arr2, hrun, inv3, mm2⟩

/-- Folding a group of registers through `partition_vec` with the window
protected on both sides. -/
lemma pvecFold_window {lanes : Nat} {P : α} {orig : List α} {L0 R0 : Nat}
    {s0 b0 : α} {extra' : Multiset α} :
    ∀ (currs : List (List α)) (arr mn mx : List α) (left right lst unp : Nat),
    LoopInv lanes P orig L0 R0 (msum currs + extra') arr left right lst unp →
    MinMaxInv lanes s0 b0
      (↑(seg arr L0 lst) + ↑(seg arr (lst + unp + lanes) R0)) mn mx →
    1 ≤ lanes → (∀ c ∈ currs, c.length = lanes) →
    lst + currs.length * lanes ≤ left →
    right + currs.length * lanes ≤ lst + unp + lanes →
    ∃ arr' lst' unp' mn' mx',
      pvecFold lanes P currs (arr, lst, unp, mn, mx)
        = some (arr', lst', unp', mn', mx') ∧
      LoopInv lanes P orig L0 R0 extra' arr' left right lst' unp' ∧
      MinMaxInv lanes s0 b0
        (↑(seg arr' L0 lst') + ↑(seg arr' (lst' + unp' + lanes) R0)) mn' mx' := by
  intro currs
  induction currs with
  | nil =>
      intro arr mn mx left right lst unp inv mmi hl hcl hgl hgr
      have hz : msum ([] : List (List α)) + extra' = extra' := by
        show (0 : Multiset α) + extra' = extra'
        rw [zero_add]
      rw [hz] at inv
      exact ⟨arr, lst, unp, mn, mx, rfl, inv, mmi⟩
  | cons c cs ih =>
      intro arr mn mx left right lst unp inv mmi hl hcl hgl hgr
      have hcc : c.length = lanes := hcl c (List.mem_cons_self c cs)
      have hcs : ∀ d ∈ cs, d.length = lanes :=
        fun d hd => hcl d (List.mem_cons_of_mem c hd)
      have hassoc : msum (c :: cs) + extra' = ↑c + (msum cs + extra') := by
        show (↑c : Multiset α) + msum cs + extra' = ↑c + (msum cs + extra')
        rw [add_assoc]
      rw [hassoc] at inv
      have hgl1 : lst + lanes ≤ left := by
        have : (cs.length + 1) * lanes = cs.length * lanes + lanes := by ring
        have hll : (c :: cs).length = cs.length + 1 := rfl
        rw [hll] at hgl
        omega
      have hgr1 : right + lanes ≤ lst + unp + lanes := by
        have : (cs.length + 1) * lanes = cs.length * lanes + lanes := by ring
        have hll : (c :: cs).length = cs.length + 1 := rfl
        rw [hll] at hgr
        omega
      obtain ⟨arr2, hrun, inv2, mm2⟩ :=
        LoopInv_MinMax_step_window inv mmi hl hcc hgl1 hgr1
      have hksum := filter_ge_add_filter_lt P c
      rw [hcc] at hksum
      have hgl2 : lst + (lanes - (c.filter (fun x => decide (P ≤ x))).length)
          + cs.length * lanes ≤ left := by
        have : (cs.length + 1) * lanes = cs.length * lanes + lanes := by ring
        have hll : (c :: cs).length = cs.length + 1 := rfl
        rw [hll] at hgl
        omega
      have hgr2 : right + cs.length * lanes
          ≤ lst + (lanes - (c.filter (fun x => decide (P ≤ x))).length)
            + (unp - lanes) + lanes := by
        have hunp := inv.hunp
        have hcardc : Multiset.card ((↑c : Multiset α) + (msum cs + extra'))
            = lanes + Multiset.card (msum cs + extra') := by
          rw [Multiset.card_add, Multiset.coe_card, hcc]
        rw [hcardc] at hunp
        have hlr := inv.hlr
        have : (cs.length + 1) * lanes = cs.length * lanes + lanes := by ring
        have hll : (c :: cs).length = cs.length + 1 := rfl
        rw [hll] at hgr
        omega
      obtain ⟨arr3, lst3, unp3, mn3, mx3, hrun3, inv3, mm3⟩ :=
        ih arr2 (List.zipWith min c mn) (List.zipWith max c mx) left right
          (lst + (lanes - (c.filter (fun x => decide (P ≤ x))).length))
          (unp - lanes) inv2 mm2 hl hcs hgl2 hgr2
      refine ⟨arr3, lst3, unp3, mn3, mx3, ?_, inv3, mm3⟩
      rw [pvecFold]
      simp only [Option.bind_eq_bind]
      rw [hrun]
      simp only [Option.some_bind]
      exact hrun3

/-- One flushing `partition_vec` step, carrying both invariants. -/
lemma LoopInv_MinMax_step_flush {lanes : Nat} {P : α} {orig arr curr mn mx : List α}
    {L0 R0 w lst unp : Nat} {extra' : Multiset α} {s0 b0 : α}
    (inv : LoopInv lanes P orig L0 R0 (↑curr + extra') arr w w lst unp)
    (mmi : MinMaxInv lanes s0 b0
      (↑(seg arr L0 lst) + ↑(seg arr (lst + unp + lanes) R0)) mn mx)
    (hl : 1 ≤ lanes) (hcurr : curr.length = lanes)
    (hrem : lanes ≤ Multiset.card extra') :
    ∃ arr',
      partition_vec lanes arr lst unp curr P mn mx
        = some (arr', lst + (lanes - (curr.filter (fun x => decide (P ≤ x))).length),
            unp - lanes, List.zipWith min curr mn, List.zipWith max curr mx) ∧
      LoopInv lanes P orig L0 R0 extra' arr'
        (lst + (lanes - (curr.filter (fun x => decide (P ≤ x))).length))
        (lst + (lanes - (curr.filter (fun x => decide (P ≤ x))).length))
        (lst + (lanes - (curr.filter (fun x => decide (P ≤ x))).length))
        (unp - lanes) ∧
      MinMaxInv lanes s0 b0
        (↑(seg arr' L0 (lst + (lanes - (curr.filter (fun x => decide (P ≤ x))).length)))
          + ↑(seg arr' (lst + (lanes - (curr.filter (fun x => decide (P ≤ x))).length)
            + (unp - lanes) + lanes) R0))
        (List.zipWith min curr mn) (List.zipWith max curr mx) := by
  have hL0 := inv.hL0
  have hR0 := inv.hR0
  have hR0len := inv.hR0len
  have hlenA := inv.len
  have hlst := inv.hlst
  have hrst := inv.hrst
  have hunp := inv.hunp
  have hcardc : Multiset.card ((↑curr : Multiset α) + extra')
      = lanes + Multiset.card extra' := by
    rw [Multiset.card_add, Multiset.coe_card, hcurr]
  rw [hcardc] at hunp
  have hunpge : lanes ≤ unp := by omega
  obtain ⟨arr2, hrun, inv3, hlow, hhigh, hsegL, hsegR⟩ :=
    LoopInv_pvec_step_flush inv hl hcurr hrem
  have hksum := filter_ge_add_filter_lt P curr
  rw [hcurr] at hksum
  have hkle : (curr.filter (fun x => decide (P ≤ x))).length ≤ lanes := by omega
  have hlen2 : arr2.length = orig.length := inv3.len
  have hLg := seg_extend_left hL0 (by omega) (by rw [hlen2]; omega)
    (by omega) hlow hsegL
  have hRg := seg_extend_right (by omega : lst
      + (lanes - (curr.filter (fun x => decide (P ≤ x))).length) + unp
      ≤ lst + unp + lanes)
    hR0 (by rw [hlen2]; omega) (by omega) hhigh hsegR
  have he3 : lst + (lanes - (curr.filter (fun x => decide (P ≤ x))).length)
        + (unp - lanes) + lanes
      = lst + (lanes - (curr.filter (fun x => decide (P ≤ x))).length) + unp := by
    omega
  have mm2 := MinMaxInv_step mmi hl hcurr
  have hsum : (↑(seg arr L0 lst) : Multiset α)
        + ↑(seg arr (lst + unp + lanes) R0) + ↑curr
      = ↑(seg arr2 L0 (lst + (lanes - (curr.filter (fun x => decide (P ≤ x))).length)))
        + ↑(seg arr2 (lst + (lanes - (curr.filter (fun x => decide (P ≤ x))).length)
          + (unp - lanes) + lanes) R0) := by
    rw [he3, hLg, hRg]
    have hco1 : (↑(seg arr L0 lst ++ curr.filter (fun x => decide (x < P))) : Multiset α)
        = ↑(seg arr L0 lst) + ↑(curr.filter (fun x => decide (x < P))) := rfl
    have hco2 : (↑(curr.filter (fun x => decide (P ≤ x))
          ++ seg arr (lst + unp + lanes) R0) : Multiset α)
        = ↑(curr.filter (fun x => decide (P ≤ x)))
          + ↑(seg arr (lst + unp + lanes) R0) := rfl
    rw [hco1, hco2]
    have hflt := filter_ge_lt_mset P curr
    calc (↑(seg arr L0 lst) : Multiset α) + ↑(seg arr (lst + unp + lanes) R0) + ↑curr
        = ↑(seg arr L0 lst) + ↑(seg arr (lst + unp + lanes) R0)
          + (↑(curr.filter (fun x => decide (P ≤ x)))
            + ↑(curr.filter (fun x => decide (x < P)))) := by rw [hflt]
      _ = ↑(seg arr L0 lst) + ↑(curr.filter (fun x => decide (x < P)))
          + (↑(curr.filter (fun x => decide (P ≤ x)))
            + ↑(seg arr (lst + unp + lanes) R0)) := by abel
  rw [hsum] at mm2
  exact ⟨arr2, hrun, inv3, mm2⟩

/-- The very last `partition_vec` step, carrying both invariants and producing
the complete partition postcondition. -/
lemma LoopInv_MinMax_step_final {lanes : Nat} {P : α} {orig arr curr mn mx : List α}
    {L0 R0 w lst unp : Nat} {s0 b0 : α}
    (inv : LoopInv lanes P orig L0 R0 (↑curr) arr w w lst unp)
    (mmi : MinMaxInv lanes s0 b0
      (↑(seg arr L0 lst) + ↑(seg arr (lst + unp + lanes) R0)) mn mx)
    (hl : 1 ≤ lanes) (hcurr : curr.length = lanes) :
    ∃ arr',
      partition_vec lanes arr lst unp curr P mn mx
        = some (arr', lst + (lanes - (curr.filter (fun x => decide (P ≤ x))).length),
            unp - lanes, List.zipWith min curr mn, List.zipWith max curr mx) ∧
      arr'.length = orig.length ∧
      L0 ≤ lst + (lanes - (curr.filter (fun x => decide (P ≤ x))).length) ∧
      lst + (lanes - (curr.filter (fun x => decide (P ≤ x))).length) ≤ R0 ∧
      (∀ j x, L0 ≤ j →
        j < lst + (lanes - (curr.filter (fun x => decide (P ≤ x))).length) →
        arr'[j]? = some x → x < P) ∧
      (∀ j x, lst + (lanes - (curr.filter (fun x => decide (P ≤ x))).length) ≤ j →
        j < R0 → arr'[j]? = some x → P ≤ x) ∧
      (∀ j, j < L0 ∨ R0 ≤ j → arr'[j]? = orig[j]?) ∧
      (↑(seg arr' L0 R0) : Multiset α) = ↑(seg orig L0 R0) ∧
      MinMaxInv lanes s0 b0 (↑(seg orig L0 R0))
        (List.zipWith min curr mn) (List.zipWith max curr mx) := by
  have hL0 := inv.hL0
  have hR0 := inv.hR0
  have hR0len := inv.hR0len
  have hlenA := inv.len
  have hlst := inv.hlst
  have hrst := inv.hrst
  have hunp := inv.hunp
  have hcardc : Multiset.card ((↑curr : Multiset α)) = lanes := by
    rw [Multiset.coe_card, hcurr]
  rw [hcardc] at hunp
  have hunp0 : unp = 0 := by omega
  obtain ⟨arr2, hrun, hlen2', hpL0, hpR0, hltfin, hgefin, hframe, hmset, hlow,
    hhigh, hsegL, hsegR⟩ :=
    LoopInv_pvec_step_final inv hl hcurr
  have hksum := filter_ge_add_filter_lt P curr
  rw [hcurr] at hksum
  have hkle : (curr.filter (fun x => decide (P ≤ x))).length ≤ lanes := by omega
  have mm2 := MinMaxInv_step mmi hl hcurr
  have hLg := seg_extend_left hL0 (by omega) (by rw [hlen2']; omega)
    (by omega) hlow hsegL
  have hRg := seg_extend_right
    (by omega : lst + (lanes - (curr.filter (fun x => decide (P ≤ x))).length)
      ≤ lst + lanes)
    (by omega : lst + lanes ≤ R0) (by rw [hlen2']; omega) (by omega) hhigh hsegR
  have hsum : (↑(seg arr L0 lst) : Multiset α)
        + ↑(seg arr (lst + unp + lanes) R0) + ↑curr
      = ↑(seg orig L0 R0) := by
    have he : lst + unp + lanes = lst + lanes := by omega
    rw [he]
    have hwhole : seg arr2 L0 R0
        = seg arr2 L0 (lst + (lanes - (curr.filter (fun x => decide (P ≤ x))).length))
          ++ seg arr2 (lst + (lanes - (curr.filter
            (fun x => decide (P ≤ x))).length)) R0 :=
      seg_split (by omega) (by omega) (by rw [hlen2']; omega)
    have hmw : (↑(seg arr2 L0 R0) : Multiset α) = ↑(seg orig L0 R0) := hmset
    rw [hwhole, hLg, hRg] at hmw
    have hco : (↑((seg arr L0 lst ++ curr.filter (fun x => decide (x < P)))
          ++ (curr.filter (fun x => decide (P ≤ x)) ++ seg arr (lst + lanes) R0))
          : Multiset α)
        = ↑(seg arr L0 lst) + ↑(curr.filter (fun x => decide (x < P)))
          + (↑(curr.filter (fun x => decide (P ≤ x))) + ↑(seg arr (lst + lanes) R0)) := by
      simp [Multiset.coe_add]
    rw [hco] at hmw
    have hflt := filter_ge_lt_mset P curr
    calc (↑(seg arr L0 lst) : Multiset α) + ↑(seg arr (lst + lanes) R0) + ↑curr
        = ↑(seg arr L0 lst) + ↑(seg arr (lst + lanes) R0)
          + (↑(curr.filter (fun x => decide (P ≤ x)))
            + ↑(curr.filter (fun x => decide (x < P)))) := by rw [hflt]
      _ = ↑(seg arr L0 lst) + ↑(curr.filter (fun x => decide (x < P)))
          + (↑(curr.filter (fun x => decide (P ≤ x)))
            + ↑(seg arr (lst + lanes) R0)) := by abel
      _ = ↑(seg orig L0 R0) := hmw
  rw [hsum] at mm2
  exact ⟨arr2, hrun, hlen2', hpL0, hpR0, hltfin, hgefin, hframe, hmset, mm2⟩

/-- Flushing a whole register group with at least one further register still in
flight. -/
lemma pvecFold_flush {lanes : Nat} {P : α} {orig : List α} {L0 R0 : Nat}
    {s0 b0 : α} {extra' : Multiset α} :
    ∀ (currs : List (List α)) (arr mn mx : List α) (w lst unp : Nat),
    LoopInv lanes P orig L0 R0 (msum currs + extra') arr w w lst unp →
    MinMaxInv lanes s0 b0
      (↑(seg arr L0 lst) + ↑(seg arr (lst + unp + lanes) R0)) mn mx →
    1 ≤ lanes → (∀ c ∈ currs, c.length = lanes) →
    lanes ≤ Multiset.card extra' →
    ∃ arr' w' lst' unp' mn' mx',
      pvecFold lanes P currs (arr, lst, unp, mn, mx)
        = some (arr', lst', unp', mn', mx') ∧
      LoopInv lanes P orig L0 R0 extra' arr' w' w' lst' unp' ∧
      MinMaxInv lanes s0 b0
        (↑(seg arr' L0 lst') + ↑(seg arr' (lst' + unp' + lanes) R0)) mn' mx' := by
  intro currs
  induction currs with
  | nil =>
      intro arr mn mx w lst unp inv mmi hl hcl hrem
      have hz : msum ([] : List (List α)) + extra' = extra' := by
        show (0 : Multiset α) + extra' = extra'
        rw [zero_add]
      rw [hz] at inv
      exact ⟨arr, w, lst, unp, mn, mx, rfl, inv, mmi⟩
  | cons c cs ih =>
      intro arr mn mx w lst unp inv mmi hl hcl hrem
      have hcc : c.length = lanes := hcl c (List.mem_cons_self c cs)
      have hcs : ∀ d ∈ cs, d.length = lanes :=
        fun d hd => hcl d (List.mem_cons_of_mem c hd)
      have hassoc : msum (c :: cs) + extra' = ↑c + (msum cs + extra') := by
        show (↑c : Multiset α) + msum cs + extra' = ↑c + (msum cs + extra')
        rw [add_assoc]
      rw [hassoc] at inv
      have hrem1 : lanes ≤ Multiset.card (msum cs + extra') := by
        rw [Multiset.card_add]
        omega
      obtain ⟨arr2, hrun, inv2, mm2⟩ :=
        LoopInv_MinMax_step_flush inv mmi hl hcc hrem1
      obtain ⟨arr3, w3, lst3, unp3, mn3, mx3, hrun3, inv3, mm3⟩ :=
        ih arr2 (List.zipWith min c mn) (List.zipWith max c mx)
          (lst + (lanes - (c.filter (fun x => decide (P ≤ x))).length))
          (lst + (lanes - (c.filter (fun x => decide (P ≤ x))).length))
          (unp - lanes) inv2 mm2 hl hcs hrem
      refine ⟨arr3, w3, lst3, unp3, mn3, mx3, ?_, inv3, mm3⟩
      rw [pvecFold]
      simp only [Option.bind_eq_bind]
      rw [hrun]
      simp only [Option.some_bind]
      exact hrun3

/-- Flushing the last register group: the whole working range ends up
partitioned and the extremes cover all of it. -/
lemma pvecFold_final {lanes : Nat} {P : α} {orig : List α} {L0 R0 : Nat}
    {s0 b0 : α} :
    ∀ (currs : List (List α)) (arr mn mx : List α) (w lst unp : Nat),
    LoopInv lanes P orig L0 R0 (msum currs) arr w w lst unp →
    MinMaxInv lanes s0 b0
      (↑(seg arr L0 lst) + ↑(seg arr (lst + unp + lanes) R0)) mn mx →
    1 ≤ lanes → (∀ c ∈ currs, c.length = lanes) → currs ≠ [] →
    ∃ arr' p unp' mn' mx',
      pvecFold lanes P currs (arr, lst, unp, mn, mx)
        = some (arr', p, unp', mn', mx') ∧
      arr'.length = orig.length ∧
      L0 ≤ p ∧ p ≤ R0 ∧
      (∀ j x, L0 ≤ j → j < p → arr'[j]? = some x → x < P) ∧
      (∀ j x, p ≤ j → j < R0 → arr'[j]? = some x → P ≤ x) ∧
      (∀ j, j < L0 ∨ R0 ≤ j → arr'[j]? = orig[j]?) ∧
      (↑(seg arr' L0 R0) : Multiset α) = ↑(seg orig L0 R0) ∧
      MinMaxInv lanes s0 b0 (↑(seg orig L0 R0)) mn' mx' := by
  intro currs
  induction currs with
  | nil =>
      intro arr mn mx w lst unp inv mmi hl hcl hne
      exact absurd rfl hne
  | cons c cs ih =>
      intro arr mn mx w lst unp inv mmi hl hcl hne
      have hcc : c.length = lanes := hcl c (List.mem_cons_self c cs)
      have hcs : ∀ d ∈ cs, d.length = lanes :=
        fun d hd => hcl d (List.mem_cons_of_mem c hd)
      rcases cs with _ | ⟨d, ds⟩
      · -- the very last register
        have hz : msum [c] = (↑c : Multiset α) := by
          show (↑c : Multiset α) + 0 = ↑c
          rw [add_zero]
        rw [hz] at inv
        obtain ⟨arr2, hrun, hlen2, hpL0, hpR0, hltfin, hgefin, hframe, hmset, mm2⟩ :=
          LoopInv_MinMax_step_final inv mmi hl hcc
        refine ⟨arr2, lst + (lanes - (c.filter (fun x => decide (P ≤ x))).length),
          unp - lanes, List.zipWith min c mn, List.zipWith max c mx, ?_, hlen2,
          hpL0, hpR0, hltfin, hgefin, hframe, hmset, mm2⟩
        rw [pvecFold]
        simp only [Option.bind_eq_bind]
        rw [hrun]
        simp only [Option.some_bind]
        rfl
      · -- flush this register; at least one register remains
        have hassoc : msum (c :: d :: ds) = ↑c + msum (d :: ds) := rfl
        rw [hassoc] at inv
        have hrem1 : lanes ≤ Multiset.card (msum (d :: ds)) := by
          rw [msum_card (d :: ds) hcs]
          have : (d :: ds).length = ds.length + 1 := rfl
          rw [this]
          have h1 : 1 * lanes ≤ (ds.length + 1) * lanes :=
            Nat.mul_le_mul (by omega) (le_refl lanes)
          omega
        obtain ⟨arr2, hrun, inv2, mm2⟩ :=
          LoopInv_MinMax_step_flush inv mmi hl hcc hrem1
        obtain ⟨arr3, p, unp3, mn3, mx3, hrun3, hlen3, hpL0, hpR0, hltfin, hgefin,
          hframe3, hmset3, mm3⟩ :=
          ih arr2 (List.zipWith min c mn) (List.zipWith max c mx)
            (lst + (lanes - (c.filter (fun x => decide (P ≤ x))).length))
            (lst + (lanes - (c.filter (fun x => decide (P ≤ x))).length))
            (unp - lanes) inv2 mm2 hl hcs (by simp)
        refine ⟨arr3, p, unp3, mn3, mx3, ?_, hlen3, hpL0, hpR0, hltfin, hgefin,
          hframe3, hmset3, mm3⟩
        rw [pvecFold]
        simp only [Option.bind_eq_bind]
        rw [hrun]
        simp only [Option.some_bind]
        exact hrun3

/-- The main loop of `partition_avx512_unrolled` (lines 447-486): with two
register groups in flight (`card extra = 2·U·lanes`), whichever side the
heuristic picks leaves a group-wide gap for the stores. -/
lemma partLoopU_spec {lanes U : Nat} {P : α} {orig : List α} {L0 R0 : Nat}
    {s0 b0 : α} {extra : Multiset α} :
    ∀ (f : Nat) (arr mn mx : List α) (left right lst unp : Nat),
    LoopInv lanes P orig L0 R0 extra arr left right lst unp →
    MinMaxInv lanes s0 b0
      (↑(seg arr L0 lst) + ↑(seg arr (lst + unp + lanes) R0)) mn mx →
    1 ≤ lanes → 1 ≤ U →
    Multiset.card extra = 2 * (U * lanes) →
    U * lanes ∣ right - left →
    right - left < f * (U * lanes) →
    ∃ arr' w lst' unp' mn' mx',
      partLoopU lanes U P f (arr, left, right, lst, unp, mn, mx)
        = some (arr', w, w, lst', unp', mn', mx') ∧
      LoopInv lanes P orig L0 R0 extra arr' w w lst' unp' ∧
      MinMaxInv lanes s0 b0
        (↑(seg arr' L0 lst') + ↑(seg arr' (lst' + unp' + lanes) R0)) mn' mx' := by
  intro f
  induction f with
  | zero =>
      intro arr mn mx left right lst unp inv mmi hl hU hcard hdvdU hf
      exact absurd hf (by omega)
  | succ f ih =>
      intro arr mn mx left right lst unp inv mmi hl hU hcard hdvdU hf
      by_cases hrl : right = left
      · subst hrl
        refine ⟨arr, right, lst, unp, mn, mx, ?_, inv, mmi⟩
        rw [partLoopU, if_pos rfl]
      · have hlr := inv.hlr
        have hwpos : U * lanes ≤ right - left := Nat.le_of_dvd (by omega) hdvdU
        have hlst := inv.hlst
        have hrst := inv.hrst
        have hR0 := inv.hR0
        have hR0len := inv.hR0len
        have hlenA := inv.len
        have hunp := inv.hunp
        rw [hcard] at hunp
        have hUlanes : lanes ≤ U * lanes := Nat.le_mul_of_pos_left lanes hU
        have hfe : (f + 1) * (U * lanes) = f * (U * lanes) + U * lanes := by ring
        have hdvdlU : lanes ∣ U * lanes := dvd_mul_left lanes U
        by_cases hside : (lst + unp + lanes) - right < left - lst
        · -- read a group from the right edge
          have hwin : left + U * lanes ≤ right := by omega
          have inv2 := LoopInv_shrink_right inv hwin hdvdlU
          obtain ⟨currs, hrd, hclen, hcall, hms⟩ :=
            readGroup_spec lanes U arr (right - U * lanes) (by omega)
          rw [show right - U * lanes + U * lanes = right from by omega] at hms
          rw [← hms] at inv2
          obtain ⟨arr2, lst2, unp2, mn2, mx2, hrun2, inv3, mm3⟩ :=
            pvecFold_window currs arr mn mx left (right - U * lanes) lst unp inv2 mmi
              hl hcall (by rw [hclen]; omega) (by rw [hclen]; omega)
          obtain ⟨arr3, w, lst3, unp3, mn3, mx3, hrun3, inv4, mm4⟩ :=
            ih arr2 mn2 mx2 left (right - U * lanes) lst2 unp2 inv3 mm3 hl hU hcard
              (by
                rw [show right - U * lanes - left = (right - left) - U * lanes from by
                  omega]
                exact Nat.dvd_sub' hdvdU (dvd_refl _))
              (by omega)
          refine ⟨arr3, w, lst3, unp3, mn3, mx3, ?_, inv4, mm4⟩
          rw [partLoopU, if_neg hrl, if_pos hside]
          simp only [Option.bind_eq_bind]
          rw [hrd]
          simp only [Option.some_bind]
          rw [hrun2]
          simp only [Option.some_bind]
          exact hrun3
        · -- read a group from the left edge
          have hwin : left + U * lanes ≤ right := by omega
          have inv2 := LoopInv_shrink_left inv hwin hdvdlU
          obtain ⟨currs, hrd, hclen, hcall, hms⟩ :=
            readGroup_spec lanes U arr left (by omega)
          rw [← hms] at inv2
          obtain ⟨arr2, lst2, unp2, mn2, mx2, hrun2, inv3, mm3⟩ :=
            pvecFold_window currs arr mn mx (left + U * lanes) right lst unp inv2 mmi
              hl hcall (by rw [hclen]; omega) (by rw [hclen]; omega)
          obtain ⟨arr3, w, lst3, unp3, mn3, mx3, hrun3, inv4, mm4⟩ :=
            ih arr2 mn2 mx2 (left + U * lanes) right lst2 unp2 inv3 mm3 hl hU hcard
              (by
                rw [show right - (left + U * lanes) = (right - left) - U * lanes from by
                  omega]
                exact Nat.dvd_sub' hdvdU (dvd_refl _))
              (by omega)
          refine ⟨arr3, w, lst3, unp3, mn3, mx3, ?_, inv4, mm4⟩
          rw [partLoopU, if_neg hrl, if_neg hside]
          simp only [Option.bind_eq_bind]
          rw [hrd]
          simp only [Option.some_bind]
          rw [hrun2]
          simp only [Option.some_bind]
          exact hrun3

/-- Any pair of extreme vectors is a valid `MinMaxInv` for the empty multiset,
seeded with its own reductions. -/
lemma MinMaxInv_reseed {lanes : Nat} {mn mx : List α} {s1 b1 : α}
    (hlen1 : mn.length = lanes) (hlen2 : mx.length = lanes)
    (h1 : reducemin mn = some s1) (h2 : reducemax mx = some b1) :
    MinMaxInv lanes s1 b1 0 mn mx :=
  ⟨hlen1, hlen2, ⟨s1, h1, le_refl _, by simp, Or.inl rfl⟩,
   ⟨b1, h2, le_refl _, by simp, Or.inl rfl⟩⟩

/-- The post-preamble phase of `partition_avx512_unrolled` (lines 432-511): on
an aligned window of at least two register groups it partitions `[left, right)`
in place and reduces the extreme vectors it was handed over every element of
the window. -/
lemma unrolledMain_spec {lanes U : Nat} {P : α} (arr : List α) (left right : Nat)
    (mn mx : List α) (s1 b1 : α)
    (hl : 1 ≤ lanes) (hU : 1 ≤ U)
    (hmnl : mn.length = lanes) (hmxl : mx.length = lanes)
    (hs1 : reducemin mn = some s1) (hb1 : reducemax mx = some b1)
    (hdvd : lanes ∣ right - left) (hdvdU : U * lanes ∣ right - left)
    (h2 : 2 * (U * lanes) ≤ right - left) (hrlen : right ≤ arr.length)
    (hlr : left ≤ right) :
    ∃ arr' p s' b',
      unrolledMain lanes U arr left right P mn mx = some (arr', p, s', b') ∧
      arr'.length = arr.length ∧ left ≤ p ∧ p ≤ right ∧
      (∀ j x, left ≤ j → j < p → arr'[j]? = some x → x < P) ∧
      (∀ j x, p ≤ j → j < right → arr'[j]? = some x → P ≤ x) ∧
      (∀ j, j < left ∨ right ≤ j → arr'[j]? = arr[j]?) ∧
      (↑(seg arr' left right) : Multiset α) = ↑(seg arr left right) ∧
      s' ≤ s1 ∧ b1 ≤ b' ∧
      (∀ x ∈ seg arr left right, s' ≤ x ∧ x ≤ b') ∧
      (s' = s1 ∨ s' ∈ seg arr left right) ∧
      (b' = b1 ∨ b' ∈ seg arr left right) := by
  have hUlanes : lanes ≤ U * lanes := Nat.le_mul_of_pos_left lanes hU
  obtain ⟨currsL, hrdL, hclenL, hcallL, hmsL⟩ :=
    readGroup_spec lanes U arr left (by omega)
  obtain ⟨currsR, hrdR, hclenR, hcallR, hmsR⟩ :=
    readGroup_spec lanes U arr (right - U * lanes) (by omega)
  rw [show right - U * lanes + U * lanes = right from by omega] at hmsR
  have hcardL : Multiset.card (msum currsL) = U * lanes := by
    rw [msum_card currsL hcallL, hclenL]
  have hcardR : Multiset.card (msum currsR) = U * lanes := by
    rw [msum_card currsR hcallR, hclenR]
  have hcard : Multiset.card (msum currsL + msum currsR) = 2 * (U * lanes) := by
    rw [Multiset.card_add, hcardL, hcardR]
    ring
  have inv0 : LoopInv lanes P arr left right (msum currsL + msum currsR)
      arr (left + U * lanes) (right - U * lanes) left (right - left - lanes) := by
    refine ⟨rfl, le_refl _, by omega, by omega, by omega, by omega, hrlen, ?_, ?_,
      by omega, by omega, fun j _ => rfl, ?_⟩
    · rw [show (right - U * lanes) - (left + U * lanes)
          = right - left - U * lanes - U * lanes from by omega]
      exact Nat.dvd_sub' (Nat.dvd_sub' hdvd (dvd_mul_left lanes U)) (dvd_mul_left lanes U)
    · rw [hcard]
      omega
    · rw [seg_nil (le_refl left),
        seg_nil (show right ≤ left + (right - left - lanes) + lanes from by omega)]
      rw [hmsL, hmsR]
      have hsp1 : seg arr left right
          = seg arr left (left + U * lanes) ++ seg arr (left + U * lanes) right :=
        seg_split (by omega) (by omega) hrlen
      have hsp2 : seg arr (left + U * lanes) right
          = seg arr (left + U * lanes) (right - U * lanes)
            ++ seg arr (right - U * lanes) right :=
        seg_split (by omega) (by omega) hrlen
      rw [hsp1, hsp2]
      have hco : (↑((seg arr left (left + U * lanes))
            ++ (seg arr (left + U * lanes) (right - U * lanes)
              ++ seg arr (right - U * lanes) right)) : Multiset α)
          = ↑(seg arr left (left + U * lanes))
            + (↑(seg arr (left + U * lanes) (right - U * lanes))
              + ↑(seg arr (right - U * lanes) right)) := rfl
      rw [hco]
      have hnil : (↑([] : List α) : Multiset α) = 0 := rfl
      rw [hnil]
      abel
  have hS0 : ((↑(seg arr left left) : Multiset α)
      + ↑(seg arr (left + (right - left - lanes) + lanes) right)) = 0 := by
    rw [seg_nil (le_refl left),
      seg_nil (show right ≤ left + (right - left - lanes) + lanes from by omega)]
    rfl
  have mm0 : MinMaxInv lanes s1 b1
      ((↑(seg arr left left) : Multiset α)
        + ↑(seg arr (left + (right - left - lanes) + lanes) right)) mn mx := by
    rw [hS0]
    exact MinMaxInv_reseed hmnl hmxl hs1 hb1
  obtain ⟨t, ht⟩ := Nat.dvd_sub' hdvd (dvd_mul_left lanes U)
  have ht2 : (right - U * lanes) - (left + U * lanes)
      = right - left - U * lanes - U * lanes := by omega
  -- fuel bound for the main loop
  obtain ⟨tw, htw⟩ : lanes ∣ (right - U * lanes) - (left + U * lanes) := by
    rw [ht2]
    exact Nat.dvd_sub' (Nat.dvd_sub' hdvd (dvd_mul_left lanes U)) (dvd_mul_left lanes U)
  have htwq : ((right - U * lanes) - (left + U * lanes)) / lanes = tw := by
    rw [htw]
    exact Nat.mul_div_cancel_left tw hl
  have hfuel : (right - U * lanes) - (left + U * lanes)
      < (((right - U * lanes) - (left + U * lanes)) / lanes + 1) * (U * lanes) := by
    rw [htwq, htw]
    have h1' : tw * lanes ≤ tw * (U * lanes) := Nat.mul_le_mul (le_refl tw) hUlanes
    have h2' : (tw + 1) * (U * lanes) = tw * (U * lanes) + U * lanes := by ring
    have h3' : lanes * tw = tw * lanes := by ring
    omega
  obtain ⟨arrL, w, lst1, unp1, mn1, mx1, hrunL, invL, mmL⟩ :=
    partLoopU_spec (((right - U * lanes) - (left + U * lanes)) / lanes + 1) arr mn mx
      (left + U * lanes) (right - U * lanes) left (right - left - lanes) inv0 mm0
      hl hU hcard
      (by
        rw [ht2]
        exact Nat.dvd_sub' (Nat.dvd_sub' hdvdU (dvd_refl _)) (dvd_refl _))
      hfuel
  have hunp1 : unp1 + lanes = 2 * (U * lanes) := by
    have hu := invL.hunp
    rw [hcard] at hu
    omega
  have hlenL : arrL.length = arr.length := invL.len
  obtain ⟨arr2, w2, lst2, unp2, mn2, mx2, hrun2, inv2, mm2⟩ :=
    pvecFold_flush currsL arrL mn1 mx1 w lst1 unp1 invL mmL hl hcallL
      (by rw [hcardR]; omega)
  obtain ⟨arr3, p, unp3, mn3, mx3, hrun3, hlen3, hpL0, hpR0, hltfin, hgefin,
    hframe3, hmset3, mm3⟩ :=
    pvecFold_final currsR arr2 mn2 mx2 w2 lst2 unp2 inv2 mm2 hl hcallR
      (by
        intro h
        rw [h] at hclenR
        simp at hclenR
        omega)
  obtain ⟨m, hmred, hms1, hmbnd, hmatt⟩ := mm3.hmn
  obtain ⟨M, hMred, hMb1, hMbnd, hMatt⟩ := mm3.hmx
  refine ⟨arr3, p, m, M, ?_, by rw [hlen3], hpL0, hpR0, hltfin, hgefin, hframe3,
    hmset3, hms1, hMb1, ?_, ?_, ?_⟩
  · rw [unrolledMain]
    simp only [Option.bind_eq_bind]
    rw [hrdL]
    simp only [Option.some_bind]
    rw [hrdR]
    simp only [Option.some_bind]
    rw [hrunL]
    simp only [Option.some_bind]
    rw [hrun2]
    simp only [Option.some_bind]
    rw [hrun3]
    simp only [Option.some_bind]
    rw [hmred]
    simp only [Option.some_bind]
    rw [hMred]
    simp only [Option.some_bind]
    rfl
  · intro x hx
    exact ⟨hmbnd x (Multiset.mem_coe.mpr hx), hMbnd x (Multiset.mem_coe.mpr hx)⟩
  · rcases hmatt with h | h
    · exact Or.inl h
    · exact Or.inr (Multiset.mem_coe.mp h)
  · rcases hMatt with h | h
    · exact Or.inl h
    · exact Or.inr (Multiset.mem_coe.mp h)

/-- The preamble of `partition_avx512_unrolled` (lines 397-411): partitions `r`
registers starting at `pos`, writing the `< pivot` lanes back to the array at
the store cursor and the `≥ pivot` lanes into the stack buffer, and folds every
register into the extreme vectors. -/
lemma preambleLoop_spec {lanes : Nat} {P : α} {s0 b0 : α} :
    ∀ (r : Nat) (arr buffer mn mx : List α) (pos ls : Nat) (S : Multiset α),
    ls + buffer.length = pos →
    pos + r * lanes ≤ arr.length →
    1 ≤ lanes →
    (∀ x ∈ buffer, P ≤ x) →
    MinMaxInv lanes s0 b0 S mn mx →
    ∃ arr' ls' buffer' mn' mx',
      preambleLoop lanes P r pos (arr, ls, buffer, mn, mx)
        = some (arr', ls', buffer', mn', mx') ∧
      arr'.length = arr.length ∧
      ls ≤ ls' ∧
      ls' + buffer'.length = pos + r * lanes ∧
      (∀ j, j < ls ∨ pos + r * lanes ≤ j → arr'[j]? = arr[j]?) ∧
      (∀ j x, ls ≤ j → j < ls' → arr'[j]? = some x → x < P) ∧
      (∀ x ∈ buffer', P ≤ x) ∧
      ((↑(seg arr' ls ls') : Multiset α) + ↑buffer'
        = ↑buffer + ↑(seg arr pos (pos + r * lanes))) ∧
      MinMaxInv lanes s0 b0 (S + ↑(seg arr pos (pos + r * lanes))) mn' mx' := by
  intro r
  induction r with
  | zero =>
      intro arr buffer mn mx pos ls S hls hbound hl hbuf mmi
      refine ⟨arr, ls, buffer, mn, mx, rfl, rfl, le_refl _, ?_, fun j _ => rfl,
        by omega, hbuf, ?_, ?_⟩
      · rw [show pos + 0 * lanes = pos from by ring]
        exact hls
      · rw [show pos + 0 * lanes = pos from by ring, seg_nil (le_refl ls),
          seg_nil (le_refl pos)]
        show (0 : Multiset α) + ↑buffer = ↑buffer + 0
        rw [zero_add, add_zero]
      · rw [show pos + 0 * lanes = pos from by ring, seg_nil (le_refl pos)]
        show MinMaxInv lanes s0 b0 (S + 0) mn mx
        rw [add_zero]
        exact mmi
  | succ r ih =>
      intro arr buffer mn mx pos ls S hls hbound hl hbuf mmi
      have hmul : (r + 1) * lanes = r * lanes + lanes := by ring
      have hb1 : pos + lanes ≤ arr.length := by omega
      have hread := readSeg_eq_some (l := arr) (i := pos) (n := lanes) hb1
      have hclen : (seg arr pos (pos + lanes)).length = lanes := by
        rw [seg_length hb1]
        omega
      have hksum := filter_ge_add_filter_lt P (seg arr pos (pos + lanes))
      rw [hclen] at hksum
      have hlf : ((seg arr pos (pos + lanes)).filter
          (fun x => decide (x < P))).length
          = lanes - ((seg arr pos (pos + lanes)).filter
            (fun x => decide (P ≤ x))).length := by omega
      obtain ⟨arr1, hw⟩ : ∃ a, writeSeg arr ls
          ((seg arr pos (pos + lanes)).filter (fun x => decide (x < P))) = some a :=
        ⟨_, writeSeg_eq_some (by rw [hlf]; omega)⟩
      have hlen1 : arr1.length = arr.length := writeSeg_length hw
      have hseg1 : seg arr1 ls (ls + (lanes - ((seg arr pos (pos + lanes)).filter
            (fun x => decide (P ≤ x))).length))
          = (seg arr pos (pos + lanes)).filter (fun x => decide (x < P)) := by
        have h := writeSeg_seg_self hw
        rw [hlf] at h
        exact h
      have hout1lt : ∀ j, j < ls → arr1[j]? = arr[j]? := by
        intro j hj
        exact writeSeg_getElem?_of_lt hw hj
      have hout1ge : ∀ j, ls + (lanes - ((seg arr pos (pos + lanes)).filter
          (fun x => decide (P ≤ x))).length) ≤ j → arr1[j]? = arr[j]? := by
        intro j hj
        refine writeSeg_getElem?_of_ge hw ?_
        rw [hlf]
        exact hj
      have hbuf1 : ∀ x ∈ buffer ++ (seg arr pos (pos + lanes)).filter
          (fun x => decide (P ≤ x)), P ≤ x := by
        intro x hx
        rcases List.mem_append.mp hx with hx | hx
        · exact hbuf x hx
        · exact ge_of_mem_filter_ge hx
      have mm1 := MinMaxInv_step mmi hl hclen
      obtain ⟨arr', ls', buffer', mn', mx', hrun', hlen', hlsle', hlsbuf', hframe',
        hlt', hbuf'', hmset', mm'⟩ :=
        ih arr1 (buffer ++ (seg arr pos (pos + lanes)).filter
            (fun x => decide (P ≤ x)))
          (List.zipWith min (seg arr pos (pos + lanes)) mn)
          (List.zipWith max (seg arr pos (pos + lanes)) mx)
          (pos + lanes)
          (ls + (lanes - ((seg arr pos (pos + lanes)).filter
            (fun x => decide (P ≤ x))).length))
          (S + ↑(seg arr pos (pos + lanes)))
          (by
            rw [List.length_append]
            omega)
          (by rw [hlen1]; omega) hl hbuf1 mm1
      have hrest : seg arr1 (pos + lanes) (pos + lanes + r * lanes)
          = seg arr (pos + lanes) (pos + lanes + r * lanes) := by
        refine seg_congr (by omega) (by rw [hlen1]; omega) ?_
        intro j hj1 _
        exact hout1ge j (by omega)
      refine ⟨arr', ls', buffer', mn', mx', ?_, by rw [hlen', hlen1], by omega,
        by omega, ?_, ?_, hbuf'', ?_, ?_⟩
      · rw [preambleLoop]
        simp only [Option.bind_eq_bind]
        rw [hread]
        simp only [Option.some_bind]
        rw [hw]
        simp only [Option.some_bind]
        exact hrun'
      · intro j hj
        have h1 : arr'[j]? = arr1[j]? := by
          refine hframe' j ?_
          rcases hj with hj | hj
          · exact Or.inl (by omega)
          · exact Or.inr (by omega)
        rw [h1]
        rcases hj with hj | hj
        · exact hout1lt j hj
        · exact hout1ge j (by omega)
      · intro j x hj1 hj2 hjx
        rcases lt_or_le j (ls + (lanes - ((seg arr pos (pos + lanes)).filter
            (fun x => decide (P ≤ x))).length)) with hj | hj
        · have h1 : arr'[j]? = arr1[j]? := hframe' j (Or.inl hj)
          rw [h1] at hjx
          have := getElem?_of_seg_eq hseg1 hj1 hj
          rw [this] at hjx
          exact lt_of_mem_filter_lt (List.getElem?_mem hjx)
        · exact hlt' j x hj hj2 hjx
      · -- the multiset bookkeeping
        have hlsle2 : ls + (lanes - ((seg arr pos (pos + lanes)).filter
            (fun x => decide (P ≤ x))).length) ≤ ls' := hlsle'
        have hls'len : ls' ≤ arr'.length := by
          rw [hlen', hlen1]
          omega
        have hspl : seg arr' ls ls'
            = seg arr' ls (ls + (lanes - ((seg arr pos (pos + lanes)).filter
                (fun x => decide (P ≤ x))).length))
              ++ seg arr' (ls + (lanes - ((seg arr pos (pos + lanes)).filter
                (fun x => decide (P ≤ x))).length)) ls' :=
          seg_split (by omega) hlsle2 hls'len
        have hfirst : seg arr' ls (ls + (lanes - ((seg arr pos (pos + lanes)).filter
              (fun x => decide (P ≤ x))).length))
            = (seg arr pos (pos + lanes)).filter (fun x => decide (x < P)) := by
          rw [← hseg1]
          refine seg_congr (by rw [hlen1]; omega) (by rw [hlen', hlen1]; omega) ?_
          intro j _ hj2
          exact hframe' j (Or.inl hj2)
        have hsplR : seg arr pos (pos + (r + 1) * lanes)
            = seg arr pos (pos + lanes) ++ seg arr (pos + lanes)
              (pos + lanes + r * lanes) := by
          rw [show pos + (r + 1) * lanes = pos + lanes + r * lanes from by
            rw [hmul]; omega]
          exact seg_split (by omega) (by omega) (by omega)
        rw [hspl, hfirst, hsplR]
        rw [hrest] at hmset'
        have hco1 : (↑((seg arr pos (pos + lanes)).filter (fun x => decide (x < P))
              ++ seg arr' (ls + (lanes - ((seg arr pos (pos + lanes)).filter
                (fun x => decide (P ≤ x))).length)) ls') : Multiset α)
            = ↑((seg arr pos (pos + lanes)).filter (fun x => decide (x < P)))
              + ↑(seg arr' (ls + (lanes - ((seg arr pos (pos + lanes)).filter
                (fun x => decide (P ≤ x))).length)) ls') := rfl
        have hco2 : (↑(buffer ++ (seg arr pos (pos + lanes)).filter
              (fun x => decide (P ≤ x))) : Multiset α)
            = ↑buffer + ↑((seg arr pos (pos + lanes)).filter
                (fun x => decide (P ≤ x))) := rfl
        have hco3 : (↑(seg arr pos (pos + lanes) ++ seg arr (pos + lanes)
              (pos + lanes + r * lanes)) : Multiset α)
            = ↑(seg arr pos (pos + lanes)) + ↑(seg arr (pos + lanes)
              (pos + lanes + r * lanes)) := rfl
        rw [hco1, hco3]
        rw [hco2] at hmset'
        have hflt := filter_ge_lt_mset P (seg arr pos (pos + lanes))
        calc (↑((seg arr pos (pos + lanes)).filter (fun x => decide (x < P)))
                : Multiset α)
              + ↑(seg arr' (ls + (lanes - ((seg arr pos (pos + lanes)).filter
                (fun x => decide (P ≤ x))).length)) ls') + ↑buffer'
            = ↑((seg arr pos (pos + lanes)).filter (fun x => decide (x < P)))
              + (↑(seg arr' (ls + (lanes - ((seg arr pos (pos + lanes)).filter
                (fun x => decide (P ≤ x))).length)) ls') + ↑buffer') := by abel
          _ = ↑((seg arr pos (pos + lanes)).filter (fun x => decide (x < P)))
              + (↑buffer + ↑((seg arr pos (pos + lanes)).filter
                  (fun x => decide (P ≤ x)))
                + ↑(seg arr (pos + lanes) (pos + lanes + r * lanes))) := by
              rw [hmset']
          _ = ↑buffer + ((↑((seg arr pos (pos + lanes)).filter
                  (fun x => decide (P ≤ x)))
                + ↑((seg arr pos (pos + lanes)).filter (fun x => decide (x < P))))
              + ↑(seg arr (pos + lanes) (pos + lanes + r * lanes))) := by abel
          _ = ↑buffer + (↑(seg arr pos (pos + lanes))
              + ↑(seg arr (pos + lanes) (pos + lanes + r * lanes))) := by rw [hflt]
      · rw [show pos + (r + 1) * lanes = pos + lanes + r * lanes from by
          rw [hmul]; omega]
        rw [seg_split (l := arr) (a := pos) (b := pos + lanes)
          (c := pos + lanes + r * lanes) (by omega) (by omega) (by omega)]
        have hco : (↑(seg arr pos (pos + lanes) ++ seg arr (pos + lanes)
              (pos + lanes + r * lanes)) : Multiset α)
            = ↑(seg arr pos (pos + lanes)) + ↑(seg arr (pos + lanes)
              (pos + lanes + r * lanes)) := rfl
        rw [hco]
        rw [hrest] at mm'
        have hassoc : S + ((↑(seg arr pos (pos + lanes)) : Multiset α)
              + ↑(seg arr (pos + lanes) (pos + lanes + r * lanes)))
            = S + ↑(seg arr pos (pos + lanes))
              + ↑(seg arr (pos + lanes) (pos + lanes + r * lanes)) :=
          (add_assoc S _ _).symm
        rw [hassoc]
        exact mm'

/-- The preamble-and-copy phase of `partition_avx512_unrolled` plus its main
phase (lines 392-511), on an aligned nonempty window: provided the register
count `q = (right-left)/lanes` is either below `U` (everything fits in the
scratch buffer) or at least `2U` (two full edge groups exist), it partitions
`[left, right)` and reports extremes over every element of the window. -/
lemma unrolledPre_spec {lanes U : Nat} {P : α} (arr : List α) (left right : Nat)
    (sA bA : α) (hl : 1 ≤ lanes) (hU : 1 ≤ U) (hlr : left < right)
    (hrlen : right ≤ arr.length) (hdvd : lanes ∣ right - left)
    (hq : (right - left) / lanes < U ∨ 2 * U ≤ (right - left) / lanes) :
    ∃ arr' p s' b',
      unrolledPre lanes U arr left right P sA bA = some (arr', p, s', b') ∧
      arr'.length = arr.length ∧
      left ≤ p ∧ p ≤ right ∧
      (∀ j x, left ≤ j → j < p → arr'[j]? = some x → x < P) ∧
      (∀ j x, p ≤ j → j < right → arr'[j]? = some x → P ≤ x) ∧
      (∀ j, j < left ∨ right ≤ j → arr'[j]? = arr[j]?) ∧
      (↑(seg arr' left right) : Multiset α) = ↑(seg arr left right) ∧
      s' ≤ sA ∧ bA ≤ b' ∧
      (∀ x ∈ seg arr left right, s' ≤ x ∧ x ≤ b') ∧
      (s' = sA ∨ s' ∈ seg arr left right) ∧
      (b' = bA ∨ b' ∈ seg arr left right) := by
  obtain ⟨q, hq'⟩ := hdvd
  have hqq : (right - left) / lanes = q := by
    rw [hq']
    exact Nat.mul_div_cancel_left q hl
  rw [hqq] at hq
  have hU0 : 0 < U := hU
  have hmodU : q % U < U := Nat.mod_lt q hU0
  obtain ⟨a, hA2⟩ : ∃ a, q = U * a + q % U := ⟨q / U, (Nat.div_add_mod q U).symm⟩
  have hE1 : lanes * q = (q % U) * lanes + (U * a) * lanes := by
    calc lanes * q = lanes * (U * a + q % U) := by rw [← hA2]
      _ = (q % U) * lanes + (U * a) * lanes := by ring
  have hvle : (q % U) * lanes ≤ right - left := by
    have h1 : q % U ≤ q := Nat.mod_le q U
    have h2 : (q % U) * lanes ≤ q * lanes := Nat.mul_le_mul h1 (le_refl lanes)
    have h3 : q * lanes = lanes * q := by ring
    omega
  obtain ⟨arrP, lsP, bufP, mnP, mxP, hrunP, hlenP, hlsleP, hlsbufP, hframeP, hltP,
    hbufP, hmsetP, mmP⟩ :=
    preambleLoop_spec (q % U) arr [] (List.replicate lanes sA)
      (List.replicate lanes bA) left left 0 (by simp) (by omega) hl (by simp)
      (MinMaxInv_init hl sA bA)
  have hmsetP' : (↑(seg arrP left lsP) : Multiset α) + ↑bufP
      = ↑(seg arr left (left + (q % U) * lanes)) := by
    have h := hmsetP
    have hz : (↑([] : List α) : Multiset α) = 0 := rfl
    rw [hz, zero_add] at h
    exact h
  have mmP' : MinMaxInv lanes sA bA
      (↑(seg arr left (left + (q % U) * lanes))) mnP mxP := by
    have h := mmP
    rw [zero_add] at h
    exact h
  obtain ⟨s1, hs1red, hs1le, hs1bnd, hs1att⟩ := mmP'.hmn
  obtain ⟨b1, hb1red, hb1le, hb1bnd, hb1att⟩ := mmP'.hmx
  have hbs : lsP + bufP.length = left + (q % U) * lanes := hlsbufP
  have hreadMT : readSeg arrP (right - bufP.length) bufP.length
      = some (seg arrP (right - bufP.length) right) := by
    have h := readSeg_eq_some (l := arrP)
      (i := right - bufP.length) (n := bufP.length) (by rw [hlenP]; omega)
    rw [show right - bufP.length + bufP.length = right from by omega] at h
    exact h
  have hmtlen : (seg arrP (right - bufP.length) right).length = bufP.length := by
    rw [seg_length (by rw [hlenP]; omega)]
    omega
  obtain ⟨arr1, hw1⟩ : ∃ b, writeSeg arrP lsP (seg arrP (right - bufP.length) right)
      = some b :=
    ⟨_, writeSeg_eq_some (by rw [hmtlen, hlenP]; omega)⟩
  have hlen1 : arr1.length = arrP.length := writeSeg_length hw1
  obtain ⟨arr2, hw2⟩ : ∃ b, writeSeg arr1 (right - bufP.length) bufP = some b :=
    ⟨_, writeSeg_eq_some (by rw [hlen1, hlenP]; omega)⟩
  have hlen2 : arr2.length = arr.length := by
    rw [writeSeg_length hw2, hlen1, hlenP]
  have hsegBuf : seg arr2 (right - bufP.length) right = bufP := by
    have h := writeSeg_seg_self hw2
    rw [show right - bufP.length + bufP.length = right from by omega] at h
    exact h
  by_cases hcq : q < U
  · -- everything went through the scratch buffer: `left == right` afterwards
    have hmq : q % U = q := Nat.mod_eq_of_lt hcq
    have hfull : left + (q % U) * lanes = right := by
      rw [hmq]
      have he : q * lanes = lanes * q := by ring
      omega
    have hrbs : right - bufP.length = lsP := by omega
    have harr1 : ∀ j : Nat, arr1[j]? = arrP[j]? := by
      intro j
      rw [writeSeg_getElem? hw1]
      by_cases hj : lsP ≤ j ∧
          j < lsP + (seg arrP (right - bufP.length) right).length
      · rw [if_pos hj]
        rw [hmtlen] at hj
        rw [seg_getElem? (j - lsP) (by omega), hrbs]
        congr 1
        omega
      · rw [if_neg hj]
    have hout2 : ∀ j, j < lsP ∨ right ≤ j → arr2[j]? = arrP[j]? := by
      intro j hj
      rw [writeSeg_getElem? hw2]
      rw [if_neg (by omega)]
      exact harr1 j
    refine ⟨arr2, lsP, s1, b1, ?_, hlen2, hlsleP, by omega, ?_, ?_, ?_, ?_, hs1le,
      hb1le, ?_, ?_, ?_⟩
    · rw [unrolledPre]
      simp only [Option.bind_eq_bind]
      rw [hqq, hrunP]
      simp only [Option.some_bind]
      rw [hs1red]
      simp only [Option.some_bind]
      rw [hb1red]
      simp only [Option.some_bind]
      rw [hreadMT]
      simp only [Option.some_bind]
      rw [hw1]
      simp only [Option.some_bind]
      rw [hw2]
      simp only [Option.some_bind]
      rw [if_pos (show left + (q % U) * lanes - bufP.length
        = right - bufP.length from by omega)]
      rw [show left + (q % U) * lanes - bufP.length = lsP from by omega]
      rfl
    · intro j x hj1 hj2 hjx
      rw [hout2 j (Or.inl hj2)] at hjx
      exact hltP j x hj1 hj2 hjx
    · intro j x hj1 hj2 hjx
      have hjs := getElem?_of_seg_eq hsegBuf (by omega) hj2
      rw [hjs] at hjx
      exact hbufP x (List.getElem?_mem hjx)
    · intro j hj
      rw [hout2 j (by omega)]
      refine hframeP j ?_
      rcases hj with hj | hj
      · exact Or.inl hj
      · exact Or.inr (by omega)
    · have hsp : seg arr2 left right = seg arr2 left lsP ++ seg arr2 lsP right :=
        seg_split hlsleP (by omega) (by omega)
      have h1 : seg arr2 left lsP = seg arrP left lsP :=
        seg_congr (by rw [hlenP]; omega) (by omega)
          (fun j _ hj2 => hout2 j (Or.inl hj2))
      have h2 : seg arr2 lsP right = bufP := by
        rw [← hrbs]
        exact hsegBuf
      rw [hsp, h1, h2]
      have hco : (↑(seg arrP left lsP ++ bufP) : Multiset α)
          = ↑(seg arrP left lsP) + ↑bufP := rfl
      rw [hco, hmsetP', hfull]
    · intro x hx
      have hx' : x ∈ (↑(seg arr left (left + (q % U) * lanes)) : Multiset α) := by
        rw [hfull]
        exact Multiset.mem_coe.mpr hx
      exact ⟨hs1bnd x hx', hb1bnd x hx'⟩
    · rcases hs1att with h | h
      · exact Or.inl h
      · right
        rw [hfull] at h
        exact Multiset.mem_coe.mp h
    · rcases hb1att with h | h
      · exact Or.inl h
      · right
        rw [hfull] at h
        exact Multiset.mem_coe.mp h
  · -- the general case: at least two full groups remain for the main phase
    have h2U : 2 * U ≤ q := by
      rcases hq with h | h
      · exact absurd h hcq
      · exact h
    have ha1 : 1 ≤ a := by
      rcases Nat.eq_zero_or_pos a with rfl | ha
      · exfalso
        omega
      · exact ha
    have ha2 : 2 ≤ a := by
      by_contra hc
      have ha1' : a = 1 := by omega
      rw [ha1'] at hA2
      omega
    have hwinge : left + (q % U) * lanes + 2 * (U * lanes) ≤ right := by
      have hE2 : (U * a) * lanes = U * lanes * a := by ring
      have h2a : U * lanes * 2 ≤ U * lanes * a := Nat.mul_le_mul (le_refl _) ha2
      have h2b : U * lanes * 2 = 2 * (U * lanes) := by ring
      omega
    have hbsv : bufP.length ≤ (q % U) * lanes := by omega
    have hfU : (q % U) * lanes ≤ U * lanes :=
      Nat.mul_le_mul (le_of_lt hmodU) (le_refl lanes)
    have hrbsge : left + (q % U) * lanes ≤ right - bufP.length := by omega
    have hmt : seg arrP (right - bufP.length) right
        = seg arr (right - bufP.length) right :=
      seg_congr hrlen (by rw [hlenP]; omega)
        (fun j hj1 _ => hframeP j (Or.inr (by omega)))
    have hseg1 : seg arr1 lsP (left + (q % U) * lanes)
        = seg arr (right - bufP.length) right := by
      have h := writeSeg_seg_self hw1
      rw [hmtlen] at h
      rw [show lsP + bufP.length = left + (q % U) * lanes from hbs] at h
      rw [h, hmt]
    have hmid2 : seg arr2 lsP (left + (q % U) * lanes)
        = seg arr (right - bufP.length) right := by
      rw [← hseg1]
      refine seg_congr (by rw [hlen1, hlenP]; omega)
        (by rw [writeSeg_length hw2, hlen1]; omega) ?_
      intro j _ hj2
      exact writeSeg_getElem?_of_lt hw2 (by omega)
    have hunread2 : seg arr2 (left + (q % U) * lanes) (right - bufP.length)
        = seg arr (left + (q % U) * lanes) (right - bufP.length) := by
      refine seg_congr (by omega) (by rw [hlen2]; omega) ?_
      intro j hj1 hj2
      have e1 : arr2[j]? = arr1[j]? := writeSeg_getElem?_of_lt hw2 (by omega)
      have e2 : arr1[j]? = arrP[j]? := by
        refine writeSeg_getElem?_of_ge hw1 ?_
        rw [hmtlen]
        omega
      rw [e1, e2]
      exact hframeP j (Or.inr (by omega))
    have hwinmset : (↑(seg arr2 lsP (right - bufP.length)) : Multiset α)
        = ↑(seg arr (left + (q % U) * lanes) right) := by
      have hsp2 : seg arr2 lsP (right - bufP.length)
          = seg arr2 lsP (left + (q % U) * lanes)
            ++ seg arr2 (left + (q % U) * lanes) (right - bufP.length) :=
        seg_split (by omega) (by omega) (by rw [hlen2]; omega)
      have hspA : seg arr (left + (q % U) * lanes) right
          = seg arr (left + (q % U) * lanes) (right - bufP.length)
            ++ seg arr (right - bufP.length) right :=
        seg_split (by omega) (by omega) hrlen
      rw [hsp2, hmid2, hunread2, hspA]
      have hco1 : (↑(seg arr (right - bufP.length) right
            ++ seg arr (left + (q % U) * lanes) (right - bufP.length)) : Multiset α)
          = ↑(seg arr (right - bufP.length) right)
            + ↑(seg arr (left + (q % U) * lanes) (right - bufP.length)) := rfl
      have hco2 : (↑(seg arr (left + (q % U) * lanes) (right - bufP.length)
            ++ seg arr (right - bufP.length) right) : Multiset α)
          = ↑(seg arr (left + (q % U) * lanes) (right - bufP.length))
            + ↑(seg arr (right - bufP.length) right) := rfl
      rw [hco1, hco2]
      abel
    have hdvdw : lanes ∣ (right - bufP.length) - lsP := by
      rw [show (right - bufP.length) - lsP
        = (right - left) - (q % U) * lanes from by omega]
      exact Nat.dvd_sub' ⟨q, hq'⟩ (dvd_mul_left lanes (q % U))
    have hdvdUw : U * lanes ∣ (right - bufP.length) - lsP := by
      refine ⟨a, ?_⟩
      have he : U * lanes * a = (U * a) * lanes := by ring
      omega
    obtain ⟨arrM, p, sM, bM, hrunM, hlenM, hpl, hpu, hltM, hgeM, hframeM, hmsetM,
      hsMle, hbMle, hbndM, hsattM, hbattM⟩ :=
      unrolledMain_spec (U := U) arr2 lsP (right - bufP.length) mnP mxP s1 b1 hl hU
        mmP'.mnlen mmP'.mxlen hs1red hb1red hdvdw hdvdUw (by omega)
        (by rw [hlen2]; omega) (by omega)
    have hmem_win : ∀ x, x ∈ seg arr2 lsP (right - bufP.length) →
        x ∈ seg arr (left + (q % U) * lanes) right := by
      intro x hx
      have hx' : x ∈ (↑(seg arr (left + (q % U) * lanes) right) : Multiset α) := by
        rw [← hwinmset]
        exact Multiset.mem_coe.mpr hx
      exact Multiset.mem_coe.mp hx'
    have hmem_win' : ∀ x, x ∈ seg arr (left + (q % U) * lanes) right →
        x ∈ seg arr2 lsP (right - bufP.length) := by
      intro x hx
      have hx' : x ∈ (↑(seg arr2 lsP (right - bufP.length)) : Multiset α) := by
        rw [hwinmset]
        exact Multiset.mem_coe.mpr hx
      exact Multiset.mem_coe.mp hx'
    have hsplitE : seg arr left right
        = seg arr left (left + (q % U) * lanes)
          ++ seg arr (left + (q % U) * lanes) right :=
      seg_split (by omega) (by omega) hrlen
    have hout2low : ∀ j, j < lsP → arrM[j]? = arrP[j]? := by
      intro j hj
      rw [hframeM j (Or.inl hj)]
      rw [writeSeg_getElem?_of_lt hw2 (by omega)]
      exact writeSeg_getElem?_of_lt hw1 hj
    have hout2high : ∀ j, right ≤ j → arrM[j]? = arrP[j]? := by
      intro j hj
      rw [hframeM j (Or.inr (by omega))]
      rw [writeSeg_getElem? hw2, if_neg (by omega)]
      refine writeSeg_getElem?_of_ge hw1 ?_
      rw [hmtlen]
      omega
    refine ⟨arrM, p, sM, bM, ?_, by rw [hlenM, hlen2], by omega, by omega,
      ?_, ?_, ?_, ?_, le_trans hsMle hs1le, le_trans hb1le hbMle, ?_, ?_, ?_⟩
    · rw [unrolledPre]
      simp only [Option.bind_eq_bind]
      rw [hqq, hrunP]
      simp only [Option.some_bind]
      rw [hs1red]
      simp only [Option.some_bind]
      rw [hb1red]
      simp only [Option.some_bind]
      rw [hreadMT]
      simp only [Option.some_bind]
      rw [hw1]
      simp only [Option.some_bind]
      rw [hw2]
      simp only [Option.some_bind]
      rw [if_neg (show ¬ left + (q % U) * lanes - bufP.length
        = right - bufP.length from by
          intro h
          have hUa1 : 1 ≤ U * a := Nat.mul_pos hU0 ha1
          have hUalanes : 1 * lanes ≤ (U * a) * lanes :=
            Nat.mul_le_mul hUa1 (le_refl lanes)
          omega)]
      rw [show left + (q % U) * lanes - bufP.length = lsP from by omega]
      exact hrunM
    · intro j x hj1 hj2 hjx
      rcases lt_or_le j lsP with hj | hj
      · rw [hout2low j hj] at hjx
        exact hltP j x hj1 hj hjx
      · exact hltM j x hj hj2 hjx
    · intro j x hj1 hj2 hjx
      rcases lt_or_le j (right - bufP.length) with hj | hj
      · exact hgeM j x hj1 hj hjx
      · have e1 : arrM[j]? = arr2[j]? := hframeM j (Or.inr hj)
        rw [e1] at hjx
        have hjs := getElem?_of_seg_eq hsegBuf hj hj2
        rw [hjs] at hjx
        exact hbufP x (List.getElem?_mem hjx)
    · intro j hj
      rcases hj with hj | hj
      · rw [hout2low j (by omega)]
        exact hframeP j (Or.inl hj)
      · rw [hout2high j hj]
        exact hframeP j (Or.inr (by omega))
    · have hsp : seg arrM left right
          = seg arrM left lsP ++ (seg arrM lsP (right - bufP.length)
            ++ seg arrM (right - bufP.length) right) := by
        rw [seg_split (l := arrM) (a := left) (b := lsP) (c := right)
            (by omega) (by omega) (by rw [hlenM, hlen2]; omega),
          seg_split (l := arrM) (a := lsP) (b := right - bufP.length) (c := right)
            (by omega) (by omega) (by rw [hlenM, hlen2]; omega)]
      have h1 : seg arrM left lsP = seg arrP left lsP :=
        seg_congr (by rw [hlenP]; omega) (by rw [hlenM, hlen2]; omega)
          (fun j _ hj2 => hout2low j hj2)
      have h3 : seg arrM (right - bufP.length) right = bufP := by
        have h3x : seg arrM (right - bufP.length) right
            = seg arr2 (right - bufP.length) right :=
          seg_congr (by rw [hlen2]; omega) (by rw [hlenM, hlen2]; omega)
            (fun j hj1 _ => hframeM j (Or.inr hj1))
        rw [h3x, hsegBuf]
      rw [hsp, h1, h3, hsplitE]
      have hco1 : (↑(seg arrP left lsP ++ (seg arrM lsP (right - bufP.length)
            ++ bufP)) : Multiset α)
          = ↑(seg arrP left lsP)
            + (↑(seg arrM lsP (right - bufP.length)) + ↑bufP) := by
        simp [Multiset.coe_add]
      have hco2 : (↑(seg arr left (left + (q % U) * lanes)
            ++ seg arr (left + (q % U) * lanes) right) : Multiset α)
          = ↑(seg arr left (left + (q % U) * lanes))
            + ↑(seg arr (left + (q % U) * lanes) right) := rfl
      rw [hco1, hco2]
      rw [hwinmset] at hmsetM
      calc (↑(seg arrP left lsP) : Multiset α)
            + (↑(seg arrM lsP (right - bufP.length)) + ↑bufP)
          = ↑(seg arrP left lsP) + ↑bufP
            + ↑(seg arrM lsP (right - bufP.length)) := by abel
        _ = ↑(seg arr left (left + (q % U) * lanes))
            + ↑(seg arr (left + (q % U) * lanes) right) := by
            rw [hmsetP', hmsetM]
    · intro x hx
      rw [hsplitE] at hx
      rcases List.mem_append.mp hx with hx | hx
      · have hx' : x ∈ (↑(seg arr left (left + (q % U) * lanes)) : Multiset α) :=
          Multiset.mem_coe.mpr hx
        exact ⟨le_trans hsMle (hs1bnd x hx'), le_trans (hb1bnd x hx') hbMle⟩
      · exact hbndM x (hmem_win' x hx)
    · rcases hsattM with h | h
      · rcases hs1att with h' | h'
        · exact Or.inl (h.trans h')
        · right
          rw [hsplitE]
          refine List.mem_append.mpr (Or.inl ?_)
          rw [h]
          exact Multiset.mem_coe.mp h'
      · right
        rw [hsplitE]
        exact List.mem_append.mpr (Or.inr (hmem_win _ h))
    · rcases hbattM with h | h
      · rcases hb1att with h' | h'
        · exact Or.inl (h.trans h')
        · right
          rw [hsplitE]
          refine List.mem_append.mpr (Or.inl ?_)
          rw [h]
          exact Multiset.mem_coe.mp h'
      · right
        rw [hsplitE]
        exact List.mem_append.mpr (Or.inr (hmem_win _ h))

/-- `partition_avx512_unrolled` with `U ≥ 1` on any nonempty subrange whose
post-alignment register count `q` avoids the band `U ≤ q < 2U`: establishes the
full partition contract with true extremes (the `U ≥ 1` paths always reduce the
extreme vectors). -/
lemma partition_avx512_unrolled_specU {lanes U : Nat} (P : α) (arr : List α)
    (left right : Nat) (s0 b0 : α) (hl : 1 ≤ lanes) (hU : 1 ≤ U)
    (hlr : left < right) (hrlen : right ≤ arr.length)
    (hq : (right - left) / lanes < U ∨ 2 * U ≤ (right - left) / lanes) :
    ∃ arr' p s' b',
      partition_avx512_unrolled lanes U arr left right P s0 b0
        = some (arr', p, s', b') ∧
      arr'.length = arr.length ∧
      left ≤ p ∧ p ≤ right ∧
      (∀ j x, left ≤ j → j < p → arr'[j]? = some x → x < P) ∧
      (∀ j x, p ≤ j → j < right → arr'[j]? = some x → P ≤ x) ∧
      (∀ j, j < left ∨ right ≤ j → arr'[j]? = arr[j]?) ∧
      (↑(seg arr' left right) : Multiset α) = ↑(seg arr left right) ∧
      s' ≤ s0 ∧ b0 ≤ b' ∧
      (∀ x ∈ seg arr left right, s' ≤ x ∧ x ≤ b') ∧
      (s' = s0 ∨ s' ∈ seg arr left right) ∧
      (b' = b0 ∨ b' ∈ seg arr left right) := by
  have hlanes0 : 0 < lanes := hl
  have hmod : (right - left) % lanes < lanes := Nat.mod_lt _ hlanes0
  have hmodle : (right - left) % lanes ≤ right - left := Nat.mod_le _ _
  obtain ⟨arrA, lA, rA, sA, bA, hrunA, hlenA, h1A, h2A, h3A, hprogA, hframeA, hpermA,
    hltA, hgeA, hsA, hbA, hbndA, hsattA, hbattA⟩ :=
    alignLoop_spec ((right - left) % lanes) arr left right s0 b0 hmodle hrlen
      (le_of_lt hlr)
  have hqm := Nat.div_add_mod (right - left) lanes
  have hwA : rA - lA = lanes * ((right - left) / lanes) := by omega
  have hrAlen : rA ≤ arrA.length := by omega
  have hsplitA : seg arrA left right
      = seg arrA left lA ++ (seg arrA lA rA ++ seg arrA rA right) := by
    rw [seg_split (l := arrA) h1A (le_trans h2A h3A) (by omega),
      seg_split (l := arrA) h2A h3A (by omega)]
  have hmem_entry : ∀ x, x ∈ seg arrA left right → x ∈ seg arr left right := by
    intro x hx
    have hx' : x ∈ (↑(seg arr left right) : Multiset α) := by
      rw [← hpermA]
      exact Multiset.mem_coe.mpr hx
    exact Multiset.mem_coe.mp hx'
  have hmem_entry' : ∀ x, x ∈ seg arr left right → x ∈ seg arrA left right := by
    intro x hx
    have hx' : x ∈ (↑(seg arrA left right) : Multiset α) := by
      rw [hpermA]
      exact Multiset.mem_coe.mpr hx
    exact Multiset.mem_coe.mp hx'
  have hU0 : ¬ U = 0 := by omega
  by_cases hpr : lA = rA
  · -- the alignment loop consumed the whole window
    refine ⟨arrA, lA, sA, bA, ?_, hlenA, h1A, by omega, hltA, ?_, hframeA, hpermA,
      hsA, hbA, ?_, ?_, ?_⟩
    · rw [partition_avx512_unrolled, if_neg hU0]
      simp only [Option.bind_eq_bind]
      rw [hrunA]
      simp only [Option.some_bind]
      rw [if_pos hpr]
      rfl
    · intro j x hj1 hj2 hjx
      exact hgeA j x (by omega) hj2 hjx
    · intro x hx
      have hmidnil : seg arrA lA rA = [] := seg_nil (le_of_eq hpr.symm)
      have hx' := hmem_entry' x hx
      rw [hsplitA] at hx'
      rcases List.mem_append.mp hx' with hx1 | hx23
      · exact hbndA x (Multiset.mem_add.mpr (Or.inl (Multiset.mem_coe.mpr hx1)))
      · rcases List.mem_append.mp hx23 with hx2 | hx3
        · rw [hmidnil] at hx2
          simp at hx2
        · exact hbndA x (Multiset.mem_add.mpr (Or.inr (Multiset.mem_coe.mpr hx3)))
    · rcases hsattA with h | h
      · exact Or.inl h
      · refine Or.inr (hmem_entry _ ?_)
        rw [hsplitA]
        rcases Multiset.mem_add.mp h with h | h
        · exact List.mem_append.mpr (Or.inl (Multiset.mem_coe.mp h))
        · exact List.mem_append.mpr (Or.inr (List.mem_append.mpr
            (Or.inr (Multiset.mem_coe.mp h))))
    · rcases hbattA with h | h
      · exact Or.inl h
      · refine Or.inr (hmem_entry _ ?_)
        rw [hsplitA]
        rcases Multiset.mem_add.mp h with h | h
        · exact List.mem_append.mpr (Or.inl (Multiset.mem_coe.mp h))
        · exact List.mem_append.mpr (Or.inr (List.mem_append.mpr
            (Or.inr (Multiset.mem_coe.mp h))))
  · -- hand the aligned window to the preamble-and-main phase
    have hdvdA : lanes ∣ rA - lA := ⟨_, hwA⟩
    have hqA : (rA - lA) / lanes = (right - left) / lanes := by
      rw [hwA]
      exact Nat.mul_div_cancel_left _ hl
    obtain ⟨arrM, p, sM, bM, hrunM, hlenM, hpl, hpu, hltM, hgeM, hframeM, hmsetM,
      hsMle, hbMle, hbndM, hsattM, hbattM⟩ :=
      unrolledPre_spec (U := U) arrA lA rA sA bA hl hU (by omega) hrAlen hdvdA
        (by rw [hqA]; exact hq)
    refine ⟨arrM, p, sM, bM, ?_, by rw [hlenM, hlenA], by omega, by omega,
      ?_, ?_, ?_, ?_, le_trans hsMle hsA, le_trans hbA hbMle, ?_, ?_, ?_⟩
    · rw [partition_avx512_unrolled, if_neg hU0]
      simp only [Option.bind_eq_bind]
      rw [hrunA]
      simp only [Option.some_bind]
      rw [if_neg hpr]
      exact hrunM
    · intro j x hj1 hj2 hjx
      rcases lt_or_le j lA with hj | hj
      · exact hltA j x hj1 hj (by rw [← hframeM j (Or.inl hj)]; exact hjx)
      · exact hltM j x hj hj2 hjx
    · intro j x hj1 hj2 hjx
      rcases lt_or_le j rA with hj | hj
      · exact hgeM j x hj1 hj hjx
      · exact hgeA j x hj hj2 (by rw [← hframeM j (Or.inr hj)]; exact hjx)
    · intro j hj
      rw [hframeM j (by omega)]
      exact hframeA j hj
    · have hmg := seg_mset_congr_mid h1A h2A h3A (by omega) (by rw [hlenM]; omega)
        (fun j hj => hframeM j hj) hmsetM
      rw [hmg, hpermA]
    · intro x hx
      have hx' := hmem_entry' x hx
      rw [hsplitA] at hx'
      rcases List.mem_append.mp hx' with hx1 | hx23
      · have hb := hbndA x (Multiset.mem_add.mpr (Or.inl (Multiset.mem_coe.mpr hx1)))
        exact ⟨le_trans hsMle hb.1, le_trans hb.2 hbMle⟩
      · rcases List.mem_append.mp hx23 with hx2 | hx3
        · exact hbndM x hx2
        · have hb := hbndA x (Multiset.mem_add.mpr (Or.inr (Multiset.mem_coe.mpr hx3)))
          exact ⟨le_trans hsMle hb.1, le_trans hb.2 hbMle⟩
    · rcases hsattM with h | h
      · rcases hsattA with h' | h'
        · exact Or.inl (h.trans h')
        · refine Or.inr (hmem_entry _ ?_)
          rw [hsplitA]
          rcases Multiset.mem_add.mp h' with h'' | h''
          · exact List.mem_append.mpr (Or.inl (by rw [h]; exact Multiset.mem_coe.mp h''))
          · exact List.mem_append.mpr (Or.inr (List.mem_append.mpr
              (Or.inr (by rw [h]; exact Multiset.mem_coe.mp h''))))
      · refine Or.inr (hmem_entry _ ?_)
        rw [hsplitA]
        exact List.mem_append.mpr (Or.inr (List.mem_append.mpr (Or.inl h)))
    · rcases hbattM with h | h
      · rcases hbattA with h' | h'
        · exact Or.inl (h.trans h')
        · refine Or.inr (hmem_entry _ ?_)
          rw [hsplitA]
          rcases Multiset.mem_add.mp h' with h'' | h''
          · exact List.mem_append.mpr (Or.inl (by rw [h]; exact Multiset.mem_coe.mp h''))
          · exact List.mem_append.mpr (Or.inr (List.mem_append.mpr
              (Or.inr (by rw [h]; exact Multiset.mem_coe.mp h''))))
      · refine Or.inr (hmem_entry _ ?_)
        rw [hsplitA]
        exact List.mem_append.mpr (Or.inr (List.mem_append.mpr (Or.inl h)))

/-- The partition call exactly as the drivers make it: any `U`, subrange of at
least `2·max(U,1)·lanes` elements.  Both the `U = 0` delegation and the
`U ≥ 1` kernel land in cases with the full contract and true extremes. -/
lemma partition_unrolled_driver_spec {lanes U : Nat} (P : α) (arr : List α)
    (left right : Nat) (s0 b0 : α) (hl : 1 ≤ lanes) (hlr : left < right)
    (hrlen : right ≤ arr.length)
    (hbig : 2 * Nat.max U 1 * lanes ≤ right - left) :
    ∃ arr' p s' b',
      partition_avx512_unrolled lanes U arr left right P s0 b0
        = some (arr', p, s', b') ∧
      arr'.length = arr.length ∧
      left ≤ p ∧ p ≤ right ∧
      (∀ j x, left ≤ j → j < p → arr'[j]? = some x → x < P) ∧
      (∀ j x, p ≤ j → j < right → arr'[j]? = some x → P ≤ x) ∧
      (∀ j, j < left ∨ right ≤ j → arr'[j]? = arr[j]?) ∧
      (↑(seg arr' left right) : Multiset α) = ↑(seg arr left right) ∧
      s' ≤ s0 ∧ b0 ≤ b' ∧
      (∀ x ∈ seg arr left right, s' ≤ x ∧ x ≤ b') ∧
      (s' = s0 ∨ s' ∈ seg arr left right) ∧
      (b' = b0 ∨ b' ∈ seg arr left right) := by
  rcases Nat.eq_zero_or_pos U with rfl | hU
  · have hmax : Nat.max 0 1 = 1 := rfl
    rw [hmax] at hbig
    obtain ⟨arr', p, s', b', hrun, hlen, h1, h2, h3, h4, h5, h6, hext⟩ :=
      partition_avx512_spec P arr left right s0 b0 hl hlr hrlen
    obtain ⟨e1, e2, e3, e4, e5⟩ := hext (Or.inr (by omega))
    refine ⟨arr', p, s', b', ?_, hlen, h1, h2, h3, h4, h5, h6, e1, e2, e3, e4, e5⟩
    rw [partition_avx512_unrolled, if_pos rfl]
    exact hrun
  · have hmax : Nat.max U 1 = U := Nat.max_eq_left hU
    rw [hmax] at hbig
    refine partition_avx512_unrolled_specU P arr left right s0 b0 hl hU hlr hrlen ?_
    right
    rw [Nat.le_div_iff_mul_le hl]
    exact hbig

/-- **C8 counterexample.** With `lanes = 2` and unroll factor `U = 1`, on the
3-element array `[3, 1, 2]` (whose length exceeds a network-sort threshold of
2, so a driver would invoke the partition) `partition_avx512` partitions
correctly while `partition_avx512_unrolled` fails: after alignment one
register remains (`U ≤ q < 2U`), the two `U`-register edge loads overlap it
and the cursor arithmetic wraps, so the model aborts where the C code reads
out of bounds.  The contracts are not identical. -/
theorem claim_C8_counterexample :
    partition_avx512_unrolled 2 1 [(3 : Int), 1, 2] 0 3 2 100 (-100) = none ∧
    partition_avx512 2 [(3 : Int), 1, 2] 0 3 2 100 (-100)
      = some ([(1 : Int), 2, 3], 1, 3, 3) :=
  ⟨by decide, by decide⟩

/-- **C8 (amended).** `partition_avx512_unrolled<vtype, U>` with `U ≥ 1` does
satisfy the single-array kernel's full contract — partition point, strict-less
and greater-or-equal regions, subrange permuted, frame, and true extremes
reported — provided the subrange's register count `q = ⌊(right-left)/lanes⌋`
is not in the band `U ≤ q < 2U` (in particular whenever the subrange exceeds
`2·U·lanes` elements, which covers every driver call site with a sane
threshold). -/
theorem claim_C8_unrolled_contract {lanes U : Nat} (P : α) (arr : List α)
    (left right : Nat) (s0 b0 : α) (hl : 1 ≤ lanes) (hU : 1 ≤ U)
    (hlr : left < right) (hrlen : right ≤ arr.length)
    (hq : (right - left) / lanes < U ∨ 2 * U ≤ (right - left) / lanes)
    (hs0 : ∀ x ∈ seg arr left right, x ≤ s0)
    (hb0 : ∀ x ∈ seg arr left right, b0 ≤ x) :
    ∃ arr' p s' b',
      partition_avx512_unrolled lanes U arr left right P s0 b0
        = some (arr', p, s', b') ∧
      left ≤ p ∧ p ≤ right ∧
      (∀ j x, left ≤ j → j < p → arr'[j]? = some x → x < P) ∧
      (∀ j x, p ≤ j → j < right → arr'[j]? = some x → P ≤ x) ∧
      (∀ j, j < left ∨ right ≤ j → arr'[j]? = arr[j]?) ∧
      (↑(seg arr' left right) : Multiset α) = ↑(seg arr left right) ∧
      s' ∈ seg arr left right ∧ (∀ x ∈ seg arr left right, s' ≤ x) ∧
      b' ∈ seg arr left right ∧ (∀ x ∈ seg arr left right, x ≤ b') := by
  obtain ⟨arr', p, s', b', hrun, hlen, h1, h2, h3, h4, h5, h6, hss0, hbb0, hbnd,
    hsatt, hbatt⟩ :=
    partition_avx512_unrolled_specU P arr left right s0 b0 hl hU hlr hrlen hq
  have hslen : (seg arr left right).length = right - left := seg_length hrlen
  have hne : seg arr left right ≠ [] := by
    intro h
    rw [h] at hslen
    simp at hslen
    omega
  refine ⟨arr', p, s', b', hrun, h1, h2, h3, h4, h5, h6, ?_,
    fun x hx => (hbnd x hx).1, ?_, fun x hx => (hbnd x hx).2⟩
  · rcases hsatt with h | h
    · obtain ⟨y, hy⟩ := List.exists_mem_of_ne_nil _ hne
      have hy1 := (hbnd y hy).1
      have hy2 := hs0 y hy
      have hey : y = s' := le_antisymm (by rw [h]; exact hy2) hy1
      rw [← hey]
      exact hy
    · exact h
  · rcases hbatt with h | h
    · obtain ⟨y, hy⟩ := List.exists_mem_of_ne_nil _ hne
      have hy1 := (hbnd y hy).2
      have hy2 := hb0 y hy
      have hey : y = b' := le_antisymm hy1 (by rw [h]; exact hy2)
      rw [← hey]
      exact hy
    · exact h

theorem claim_C8_witness :
    1 ≤ 2 ∧ 1 ≤ 1 ∧ 0 < 8 ∧ 8 ≤ [(3 : Int), 1, 2, 5, 4, 0, 7, 6].length ∧
    ((8 - 0) / 2 < 1 ∨ 2 * 1 ≤ (8 - 0) / 2) ∧
    (∀ x ∈ seg [(3 : Int), 1, 2, 5, 4, 0, 7, 6] 0 8, x ≤ 100) ∧
    (∀ x ∈ seg [(3 : Int), 1, 2, 5, 4, 0, 7, 6] 0 8, -100 ≤ x) ∧
    (∃ arr' p s' b',
      partition_avx512_unrolled 2 1 [(3 : Int), 1, 2, 5, 4, 0, 7, 6] 0 8 3 100 (-100)
        = some (arr', p, s', b') ∧
      0 ≤ p ∧ p ≤ 8 ∧
      (∀ j x, 0 ≤ j → j < p → arr'[j]? = some x → x < 3) ∧
      (∀ j x, p ≤ j → j < 8 → arr'[j]? = some x → (3 : Int) ≤ x) ∧
      (∀ j, j < 0 ∨ 8 ≤ j → arr'[j]? = [(3 : Int), 1, 2, 5, 4, 0, 7, 6][j]?) ∧
      (↑(seg arr' 0 8) : Multiset Int) = ↑(seg [(3 : Int), 1, 2, 5, 4, 0, 7, 6] 0 8) ∧
      s' ∈ seg [(3 : Int), 1, 2, 5, 4, 0, 7, 6] 0 8 ∧
      (∀ x ∈ seg [(3 : Int), 1, 2, 5, 4, 0, 7, 6] 0 8, s' ≤ x) ∧
      b' ∈ seg [(3 : Int), 1, 2, 5, 4, 0, 7, 6] 0 8 ∧
      (∀ x ∈ seg [(3 : Int), 1, 2, 5, 4, 0, 7, 6] 0 8, x ≤ b')) :=
  ⟨by decide, by decide, by decide, by decide, by decide, by decide, by decide,
    claim_C8_unrolled_contract 3 [(3 : Int), 1, 2, 5, 4, 0, 7, 6] 0 8 100 (-100)
      (by decide) (by decide) (by decide) (by decide) (by decide) (by decide)
      (by decide)⟩

/-! ## Zip toolbox for the key-value development

The kv kernel moves `keys` and `indexes` by the same permutation; the pair
bookkeeping lives on `keys.zip indexes`. -/

lemma zip_getElem? (x : List β) (y : List γ) (i : Nat) :
    (x.zip y)[i]? = (x[i]?).bind fun a => (y[i]?).map fun b => (a, b) := by
  induction x generalizing y i with
  | nil => simp
  | cons a xs ih =>
      cases y with
      | nil =>
          cases h : (a :: xs)[i]? <;> simp [h]
      | cons b ys =>
          cases i with
          | zero => simp [List.zip_cons_cons]
          | succ m => simp [List.zip_cons_cons, ih ys m]

lemma zip_length_eq {x : List β} {y : List γ} (h : x.length = y.length) :
    (x.zip y).length = x.length := by
  rw [List.length_zip]
  omega

lemma seg_zip {x : List β} {y : List γ} (h : x.length = y.length) (a b : Nat) :
    (seg x a b).zip (seg y a b) = seg (x.zip y) a b := by
  apply List.ext_getElem?
  intro i
  rw [zip_getElem?]
  rcases lt_or_le i (b - a) with hi | hi
  · rw [seg_getElem? i hi, seg_getElem? i hi, seg_getElem? i hi, zip_getElem?]
  · rw [seg_getElem?_of_ge hi, seg_getElem?_of_ge hi, seg_getElem?_of_ge hi]
    rfl

lemma zip_writeSeg {x x' : List β} {y y' : List γ} {s : List β} {t : List γ}
    {i : Nat} (hst : s.length = t.length)
    (hx : writeSeg x i s = some x') (hy : writeSeg y i t = some y') :
    writeSeg (x.zip y) i (s.zip t) = some (x'.zip y') := by
  have hbx := writeSeg_bound hx
  have hby := writeSeg_bound hy
  have hzlen := List.length_zip x y
  have hstz : (s.zip t).length = s.length := zip_length_eq hst
  have hb : i + (s.zip t).length ≤ (x.zip y).length := by
    rw [hstz, hzlen]
    omega
  obtain ⟨z', hz⟩ : ∃ z, writeSeg (x.zip y) i (s.zip t) = some z :=
    ⟨_, writeSeg_eq_some hb⟩
  rw [hz]
  congr 1
  apply List.ext_getElem?
  intro j
  rw [writeSeg_getElem? hz j, zip_getElem? x' y' j, writeSeg_getElem? hx j,
    writeSeg_getElem? hy j]
  by_cases hj : i ≤ j ∧ j < i + s.length
  · rw [if_pos (show i ≤ j ∧ j < i + (s.zip t).length by rw [hstz]; exact hj),
      if_pos hj, if_pos (show i ≤ j ∧ j < i + t.length by omega)]
    exact zip_getElem? s t (j - i)
  · rw [if_neg (show ¬(i ≤ j ∧ j < i + (s.zip t).length) by rw [hstz]; exact hj),
      if_neg hj, if_neg (show ¬(i ≤ j ∧ j < i + t.length) by omega)]
    exact zip_getElem? x y j

lemma filter_zip_fst_len (q : α → Bool) :
    ∀ (u : List α) (v : List γ), u.length = v.length →
      ((u.zip v).filter (fun kv => q kv.1)).length = (u.filter q).length := by
  intro u
  induction u with
  | nil =>
      intro v h
      simp
  | cons a us ih =>
      intro v h
      cases v with
      | nil => simp at h
      | cons b vs =>
          have hlen : us.length = vs.length := by simpa using h
          by_cases hq : q a
          · simp [List.zip_cons_cons, List.filter_cons, hq, ih vs hlen]
          · simp [List.zip_cons_cons, List.filter_cons, hq, ih vs hlen]

lemma filter_zip_eq (q : α → Bool) :
    ∀ (u : List α) (v : List γ), u.length = v.length →
      (u.filter q).zip (((u.zip v).filter (fun kv => q kv.1)).map Prod.snd)
        = (u.zip v).filter (fun kv => q kv.1) := by
  intro u
  induction u with
  | nil =>
      intro v h
      simp
  | cons a us ih =>
      intro v h
      cases v with
      | nil => simp at h
      | cons b vs =>
          have hlen : us.length = vs.length := by simpa using h
          by_cases hq : q a
          · simp [List.zip_cons_cons, List.filter_cons, hq, ih vs hlen]
          · simp [List.zip_cons_cons, List.filter_cons, hq, ih vs hlen]

lemma filter_zip_lt_len (P : α) (u : List α) (v : List γ) (h : u.length = v.length) :
    ((u.zip v).filter (fun kv => decide (kv.1 < P))).length
      = (u.filter (fun x => decide (x < P))).length := by
  have := filter_zip_fst_len (fun x => decide (x < P)) u v h
  simpa only [] using this

lemma filter_zip_ge_len (P : α) (u : List α) (v : List γ) (h : u.length = v.length) :
    ((u.zip v).filter (fun kv => decide (P ≤ kv.1))).length
      = (u.filter (fun x => decide (P ≤ x))).length := by
  have := filter_zip_fst_len (fun x => decide (P ≤ x)) u v h
  simpa only [] using this

lemma filter_zip_eq_lt (P : α) (u : List α) (v : List γ) (h : u.length = v.length) :
    (u.filter (fun x => decide (x < P))).zip
        (((u.zip v).filter (fun kv => decide (kv.1 < P))).map Prod.snd)
      = (u.zip v).filter (fun kv => decide (kv.1 < P)) := by
  have := filter_zip_eq (fun x => decide (x < P)) u v h
  simpa only [] using this

lemma filter_zip_eq_ge (P : α) (u : List α) (v : List γ) (h : u.length = v.length) :
    (u.filter (fun x => decide (P ≤ x))).zip
        (((u.zip v).filter (fun kv => decide (P ≤ kv.1))).map Prod.snd)
      = (u.zip v).filter (fun kv => decide (P ≤ kv.1)) := by
  have := filter_zip_eq (fun x => decide (P ≤ x)) u v h
  simpa only [] using this

lemma filter_mset_compl (p : β → Bool) (l : List β) :
    (↑(l.filter p) : Multiset β) + ↑(l.filter fun x => !p x) = ↑l := by
  have h := List.filter_append_perm p l
  calc (↑(l.filter p) : Multiset β) + ↑(l.filter fun x => !p x)
      = ↑(l.filter p ++ l.filter fun x => !p x) := rfl
    _ = ↑l := Multiset.coe_eq_coe.mpr h

lemma filter_zip_ge_lt_mset (P : α) (z : List (α × γ)) :
    (↑(z.filter fun kv => decide (P ≤ kv.1)) : Multiset (α × γ))
      + ↑(z.filter fun kv => decide (kv.1 < P)) = ↑z := by
  have he : (fun kv : α × γ => decide (kv.1 < P))
      = fun kv => !decide (P ≤ kv.1) := by
    funext kv
    rcases lt_or_le kv.1 P with h | h
    · simp [h, not_le.mpr h]
    · simp [not_lt.mpr h, h]
  rw [he]
  exact filter_mset_compl _ z

lemma zip_swapAt {keys keys' : List β} {idx idx' : List γ} {i j : Nat}
    (hlen : keys.length = idx.length)
    (hk : swapAt keys i j = some keys') (hx : swapAt idx i j = some idx') :
    swapAt (keys.zip idx) i j = some (keys'.zip idx') := by
  obtain ⟨hik, hjk⟩ := swapAt_some_bounds hk
  obtain ⟨hii, hji⟩ := swapAt_some_bounds hx
  have hzlen : (keys.zip idx).length = keys.length := zip_length_eq hlen
  have hiz : i < (keys.zip idx).length := by omega
  have hjz : j < (keys.zip idx).length := by omega
  obtain ⟨z', hz⟩ : ∃ z, swapAt (keys.zip idx) i j = some z :=
    ⟨_, swapAt_eq_some hiz hjz⟩
  rw [hz]
  congr 1
  apply List.ext_getElem?
  intro m
  rw [swapAt_getElem? hiz hjz hz m, zip_getElem? keys' idx' m,
    swapAt_getElem? hik hjk hk m, swapAt_getElem? hii hji hx m]
  rcases eq_or_ne m i with rfl | hmi
  · rw [if_pos rfl, if_pos rfl, if_pos rfl]
    exact zip_getElem? keys idx j
  · rw [if_neg hmi, if_neg hmi, if_neg hmi]
    rcases eq_or_ne m j with rfl | hmj
    · rw [if_pos rfl, if_pos rfl, if_pos rfl]
      exact zip_getElem? keys idx i
    · rw [if_neg hmj, if_neg hmj, if_neg hmj]
      exact zip_getElem? keys idx m

/-- The key-value `partition_vec` (lines 562-586): both compressed stores use
the key-derived `ge` mask, so the `< P` pairs land at `[l, l + (lanes - k))`
and the `≥ P` pairs at `[r - k, r)` in both arrays, in lane order. -/
lemma partition_vec_kv_spec (lanes : Nat) (P : α) (keys : List α) (idx : List γ)
    (u : List α) (v : List γ) (mn mx : List α) (l r : Nat)
    (hki : keys.length = idx.length) (hu : u.length = lanes) (hv : v.length = lanes)
    (hlr : l + lanes ≤ r) (hr : r ≤ keys.length) :
    ∃ keys' idx',
      partition_vec_kv lanes keys idx l r u v P mn mx
        = some ((u.filter (fun x => decide (P ≤ x))).length, keys', idx',
            List.zipWith min u mn, List.zipWith max u mx) ∧
      keys'.length = keys.length ∧ idx'.length = idx.length ∧
      (∀ j, j < l → keys'[j]? = keys[j]? ∧ idx'[j]? = idx[j]?) ∧
      (∀ j, l + (lanes - (u.filter (fun x => decide (P ≤ x))).length) ≤ j →
        j < r - (u.filter (fun x => decide (P ≤ x))).length →
        keys'[j]? = keys[j]? ∧ idx'[j]? = idx[j]?) ∧
      (∀ j, r ≤ j → keys'[j]? = keys[j]? ∧ idx'[j]? = idx[j]?) ∧
      seg keys' l (l + (lanes - (u.filter (fun x => decide (P ≤ x))).length))
        = u.filter (fun x => decide (x < P)) ∧
      seg keys' (r - (u.filter (fun x => decide (P ≤ x))).length) r
        = u.filter (fun x => decide (P ≤ x)) ∧
      (seg keys' l (l + (lanes - (u.filter (fun x => decide (P ≤ x))).length))).zip
          (seg idx' l (l + (lanes - (u.filter (fun x => decide (P ≤ x))).length)))
        = (u.zip v).filter (fun kv => decide (kv.1 < P)) ∧
      (seg keys' (r - (u.filter (fun x => decide (P ≤ x))).length) r).zip
          (seg idx' (r - (u.filter (fun x => decide (P ≤ x))).length) r)
        = (u.zip v).filter (fun kv => decide (P ≤ kv.1)) := by
  set k := (u.filter (fun x => decide (P ≤ x))).length with hk
  have hsum := filter_ge_add_filter_lt P u
  rw [hu] at hsum
  have hkle : k ≤ lanes := by omega
  have hlf : (u.filter (fun x => decide (x < P))).length = lanes - k := by omega
  have hzlt : (((u.zip v).filter (fun kv => decide (kv.1 < P))).map Prod.snd).length
      = lanes - k := by
    rw [List.length_map, filter_zip_lt_len P u v (by omega), hlf]
  have hzge : (((u.zip v).filter (fun kv => decide (P ≤ kv.1))).map Prod.snd).length
      = k := by
    rw [List.length_map, filter_zip_ge_len P u v (by omega), ← hk]
  obtain ⟨keys1, ha1⟩ : ∃ a, writeSeg keys l
      (u.filter (fun x => decide (x < P))) = some a :=
    ⟨_, writeSeg_eq_some (by rw [hlf]; omega)⟩
  have hlen1 := writeSeg_length ha1
  obtain ⟨keys2, ha2⟩ : ∃ a, writeSeg keys1 (r - k)
      (u.filter (fun x => decide (P ≤ x))) = some a :=
    ⟨_, writeSeg_eq_some (by rw [hlen1, ← hk]; omega)⟩
  have hlen2 := writeSeg_length ha2
  obtain ⟨idx1, hb1⟩ : ∃ a, writeSeg idx l
      (((u.zip v).filter (fun kv => decide (kv.1 < P))).map Prod.snd) = some a :=
    ⟨_, writeSeg_eq_some (by rw [hzlt]; omega)⟩
  have hlen3 := writeSeg_length hb1
  obtain ⟨idx2, hb2⟩ : ∃ a, writeSeg idx1 (r - k)
      (((u.zip v).filter (fun kv => decide (P ≤ kv.1))).map Prod.snd) = some a :=
    ⟨_, writeSeg_eq_some (by rw [hlen3, hzge]; omega)⟩
  have hlen4 := writeSeg_length hb2
  have hrun : partition_vec_kv lanes keys idx l r u v P mn mx
      = some (k, keys2, idx2, List.zipWith min u mn, List.zipWith max u mx) := by
    rw [partition_vec_kv, ← hk, ha1]
    simp only [Option.bind_eq_bind, Option.some_bind]
    rw [ha2]
    simp only [Option.some_bind]
    rw [hb1]
    simp only [Option.some_bind]
    rw [hb2]
    rfl
  have hKlow : ∀ j, j < l → keys2[j]? = keys[j]? := fun j hj => by
    rw [writeSeg_getElem?_of_lt ha2 (by omega), writeSeg_getElem?_of_lt ha1 hj]
  have hKmid : ∀ j, l + (lanes - k) ≤ j → j < r - k → keys2[j]? = keys[j]? :=
    fun j hj1 hj2 => by
      rw [writeSeg_getElem?_of_lt ha2 hj2, writeSeg_getElem?_of_ge ha1 (by rw [hlf]; omega)]
  have hKhigh : ∀ j, r ≤ j → keys2[j]? = keys[j]? := fun j hj => by
    rw [writeSeg_getElem?_of_ge ha2 (by rw [← hk]; omega),
      writeSeg_getElem?_of_ge ha1 (by rw [hlf]; omega)]
  have hIlow : ∀ j, j < l → idx2[j]? = idx[j]? := fun j hj => by
    rw [writeSeg_getElem?_of_lt hb2 (by omega), writeSeg_getElem?_of_lt hb1 hj]
  have hImid : ∀ j, l + (lanes - k) ≤ j → j < r - k → idx2[j]? = idx[j]? :=
    fun j hj1 hj2 => by
      rw [writeSeg_getElem?_of_lt hb2 hj2, writeSeg_getElem?_of_ge hb1 (by rw [hzlt]; omega)]
  have hIhigh : ∀ j, r ≤ j → idx2[j]? = idx[j]? := fun j hj => by
    rw [writeSeg_getElem?_of_ge hb2 (by rw [hzge]; omega),
      writeSeg_getElem?_of_ge hb1 (by rw [hzlt]; omega)]
  have hKsegL : seg keys2 l (l + (lanes - k)) = u.filter (fun x => decide (x < P)) := by
    have e1 := writeSeg_seg_self ha1
    rw [hlf] at e1
    rw [← e1]
    apply seg_congr (by omega) (by omega)
    intro j _ hj2
    exact writeSeg_getElem?_of_lt ha2 (by omega)
  have hKsegR : seg keys2 (r - k) r = u.filter (fun x => decide (P ≤ x)) := by
    have e2 := writeSeg_seg_self ha2
    rw [← hk] at e2
    have he : r - k + k = r := by omega
    rw [he] at e2
    exact e2
  have hIsegL : seg idx2 l (l + (lanes - k))
      = ((u.zip v).filter (fun kv => decide (kv.1 < P))).map Prod.snd := by
    have e1 := writeSeg_seg_self hb1
    rw [hzlt] at e1
    rw [← e1]
    apply seg_congr (by omega) (by omega)
    intro j _ hj2
    exact writeSeg_getElem?_of_lt hb2 (by omega)
  have hIsegR : seg idx2 (r - k) r
      = ((u.zip v).filter (fun kv => decide (P ≤ kv.1))).map Prod.snd := by
    have e2 := writeSeg_seg_self hb2
    rw [hzge] at e2
    have he : r - k + k = r := by omega
    rw [he] at e2
    exact e2
  refine ⟨keys2, idx2, hrun, by omega, by omega,
    fun j hj => ⟨hKlow j hj, hIlow j hj⟩,
    fun j hj1 hj2 => ⟨hKmid j hj1 hj2, hImid j hj1 hj2⟩,
    fun j hj => ⟨hKhigh j hj, hIhigh j hj⟩, hKsegL, hKsegR, ?_, ?_⟩
  · rw [hKsegL, hIsegL]
    exact filter_zip_eq_lt P u v (by omega)
  · rw [hKsegR, hIsegR]
    exact filter_zip_eq_ge P u v (by omega)

lemma zip_swapAt_seg_mset {keys keys' : List β} {idx idx' : List γ}
    {i j lo hi : Nat} (hlen : keys.length = idx.length)
    (hk : swapAt keys i j = some keys') (hx : swapAt idx i j = some idx')
    (hloi : lo ≤ i) (hij : i ≤ j) (hjhi : j < hi) (hhi : hi ≤ keys.length) :
    (↑((seg keys' lo hi).zip (seg idx' lo hi)) : Multiset (β × γ))
      = ↑((seg keys lo hi).zip (seg idx lo hi)) := by
  have hz := zip_swapAt hlen hk hx
  have hk' : keys'.length = keys.length := swapAt_length hk
  have hi' : idx'.length = idx.length := swapAt_length hx
  rw [seg_zip (show keys'.length = idx'.length by omega),
    seg_zip (show keys.length = idx.length from hlen)]
  exact swapAt_seg_mset hz hloi hij hjhi (by rw [zip_length_eq hlen]; omega)

/-- Loading a register pair from the left edge of the kv window moves its
zipped lanes from the window into the in-flight pair multiset. -/
lemma KVInv_load_left {lanes : Nat} {P : α} {okeys keys : List α}
    {oidx idx : List γ} {L0 R0 left right lst rst : Nat}
    {extra : Multiset (α × γ)}
    (inv : KVInv lanes P okeys oidx L0 R0 extra keys idx left right lst rst)
    (hwin : left + lanes ≤ right) :
    readSeg keys left lanes = some (seg keys left (left + lanes)) ∧
    readSeg idx left lanes = some (seg idx left (left + lanes)) ∧
    (seg keys left (left + lanes)).length = lanes ∧
    (seg idx left (left + lanes)).length = lanes ∧
    KVInv lanes P okeys oidx L0 R0
      (↑((seg keys left (left + lanes)).zip (seg idx left (left + lanes))) + extra)
      keys idx (left + lanes) right lst rst := by
  have hklen := inv.klen
  have hilen := inv.ilen
  have holen := inv.olen
  have hrst := inv.hrst
  have hR0 := inv.hR0
  have hR0len := inv.hR0len
  have h1 : left + lanes ≤ keys.length := by omega
  have h2 : left + lanes ≤ idx.length := by omega
  have hreadK : readSeg keys left lanes = some (seg keys left (left + lanes)) := by
    simp [readSeg, h1]
  have hreadI : readSeg idx left lanes = some (seg idx left (left + lanes)) := by
    simp [readSeg, h2]
  have hslenK : (seg keys left (left + lanes)).length = lanes := by
    rw [seg_length h1]
    omega
  have hslenI : (seg idx left (left + lanes)).length = lanes := by
    rw [seg_length h2]
    omega
  refine ⟨hreadK, hreadI, hslenK, hslenI, ?_⟩
  have hsplitK : seg keys left right
      = seg keys left (left + lanes) ++ seg keys (left + lanes) right :=
    seg_split (by omega) hwin (by omega)
  have hsplitI : seg idx left right
      = seg idx left (left + lanes) ++ seg idx (left + lanes) right :=
    seg_split (by omega) hwin (by omega)
  have hzipsplit : (seg keys left right).zip (seg idx left right)
      = (seg keys left (left + lanes)).zip (seg idx left (left + lanes))
        ++ (seg keys (left + lanes) right).zip (seg idx (left + lanes) right) := by
    rw [hsplitK, hsplitI, List.zip_append (by rw [hslenK, hslenI])]
  refine ⟨inv.klen, inv.ilen, inv.olen, inv.hL0, by have := inv.hlst; omega, hwin,
    inv.hrst, inv.hR0, inv.hR0len, ?_, ?_, inv.hlt, inv.hge, inv.hframeK,
    inv.hframeI, ?_⟩
  · have hd := inv.hdvd
    have he : right - (left + lanes) = (right - left) - lanes := by omega
    rw [he]
    exact Nat.dvd_sub' hd (dvd_refl lanes)
  · have hu := inv.hcnt
    have hc : Multiset.card
          ((↑((seg keys left (left + lanes)).zip (seg idx left (left + lanes)))
            : Multiset (α × γ)) + extra)
        = lanes + Multiset.card extra := by
      rw [Multiset.card_add, Multiset.coe_card, zip_length_eq (by rw [hslenK, hslenI]),
        hslenK]
    rw [hc]
    have hlr := inv.hlr
    omega
  · have hold := inv.hperm
    rw [hzipsplit] at hold
    have hco : (↑((seg keys left (left + lanes)).zip (seg idx left (left + lanes))
          ++ (seg keys (left + lanes) right).zip (seg idx (left + lanes) right))
          : Multiset (α × γ))
        = ↑((seg keys left (left + lanes)).zip (seg idx left (left + lanes)))
          + ↑((seg keys (left + lanes) right).zip (seg idx (left + lanes) right)) := rfl
    rw [hco] at hold
    calc (↑((seg keys L0 lst).zip (seg idx L0 lst)) : Multiset (α × γ))
          + ↑((seg keys (left + lanes) right).zip (seg idx (left + lanes) right))
          + ↑((seg keys (rst + lanes) R0).zip (seg idx (rst + lanes) R0))
          + (↑((seg keys left (left + lanes)).zip (seg idx left (left + lanes))) + extra)
        = ↑((seg keys L0 lst).zip (seg idx L0 lst))
          + (↑((seg keys left (left + lanes)).zip (seg idx left (left + lanes)))
            + ↑((seg keys (left + lanes) right).zip (seg idx (left + lanes) right)))
          + ↑((seg keys (rst + lanes) R0).zip (seg idx (rst + lanes) R0))
          + extra := by abel
      _ = ↑((seg okeys L0 R0).zip (seg oidx L0 R0)) := hold

/-- Loading a register pair from the right edge of the kv window. -/
lemma KVInv_load_right {lanes : Nat} {P : α} {okeys keys : List α}
    {oidx idx : List γ} {L0 R0 left right lst rst : Nat}
    {extra : Multiset (α × γ)}
    (inv : KVInv lanes P okeys oidx L0 R0 extra keys idx left right lst rst)
    (hwin : left + lanes ≤ right) :
    readSeg keys (right - lanes) lanes = some (seg keys (right - lanes) right) ∧
    readSeg idx (right - lanes) lanes = some (seg idx (right - lanes) right) ∧
    (seg keys (right - lanes) right).length = lanes ∧
    (seg idx (right - lanes) right).length = lanes ∧
    KVInv lanes P okeys oidx L0 R0
      (↑((seg keys (right - lanes) right).zip (seg idx (right - lanes) right)) + extra)
      keys idx left (right - lanes) lst rst := by
  have hklen := inv.klen
  have hilen := inv.ilen
  have holen := inv.olen
  have hrst := inv.hrst
  have hR0 := inv.hR0
  have hR0len := inv.hR0len
  have h1 : right ≤ keys.length := by omega
  have h2 : right ≤ idx.length := by omega
  have he : right - lanes + lanes = right := by omega
  have hreadK : readSeg keys (right - lanes) lanes
      = some (seg keys (right - lanes) right) := by
    unfold readSeg
    rw [if_pos (by omega : right - lanes + lanes ≤ keys.length), he]
  have hreadI : readSeg idx (right - lanes) lanes
      = some (seg idx (right - lanes) right) := by
    unfold readSeg
    rw [if_pos (by omega : right - lanes + lanes ≤ idx.length), he]
  have hslenK : (seg keys (right - lanes) right).length = lanes := by
    rw [seg_length h1]
    omega
  have hslenI : (seg idx (right - lanes) right).length = lanes := by
    rw [seg_length h2]
    omega
  refine ⟨hreadK, hreadI, hslenK, hslenI, ?_⟩
  have hsplitK : seg keys left right
      = seg keys left (right - lanes) ++ seg keys (right - lanes) right :=
    seg_split (by omega) (by omega) (by omega)
  have hsplitI : seg idx left right
      = seg idx left (right - lanes) ++ seg idx (right - lanes) right :=
    seg_split (by omega) (by omega) (by omega)
  have hsl1 : (seg keys left (right - lanes)).length = right - lanes - left := by
    rw [seg_length (by omega)]
  have hsl2 : (seg idx left (right - lanes)).length = right - lanes - left := by
    rw [seg_length (by omega)]
  have hzipsplit : (seg keys left right).zip (seg idx left right)
      = (seg keys left (right - lanes)).zip (seg idx left (right - lanes))
        ++ (seg keys (right - lanes) right).zip (seg idx (right - lanes) right) := by
    rw [hsplitK, hsplitI, List.zip_append (by rw [hsl1, hsl2])]
  refine ⟨inv.klen, inv.ilen, inv.olen, inv.hL0, inv.hlst, by omega, by omega,
    inv.hR0, inv.hR0len, ?_, ?_, inv.hlt, inv.hge, inv.hframeK, inv.hframeI, ?_⟩
  · have hd := inv.hdvd
    have he2 : right - lanes - left = (right - left) - lanes := by omega
    rw [he2]
    exact Nat.dvd_sub' hd (dvd_refl lanes)
  · have hu := inv.hcnt
    have hc : Multiset.card
          ((↑((seg keys (right - lanes) right).zip (seg idx (right - lanes) right))
            : Multiset (α × γ)) + extra)
        = lanes + Multiset.card extra := by
      rw [Multiset.card_add, Multiset.coe_card, zip_length_eq (by rw [hslenK, hslenI]),
        hslenK]
    rw [hc]
    have hlr := inv.hlr
    omega
  · have hold := inv.hperm
    rw [hzipsplit] at hold
    have hco : (↑((seg keys left (right - lanes)).zip (seg idx left (right - lanes))
          ++ (seg keys (right - lanes) right).zip (seg idx (right - lanes) right))
          : Multiset (α × γ))
        = ↑((seg keys left (right - lanes)).zip (seg idx left (right - lanes)))
          + ↑((seg keys (right - lanes) right).zip (seg idx (right - lanes) right)) := rfl
    rw [hco] at hold
    calc (↑((seg keys L0 lst).zip (seg idx L0 lst)) : Multiset (α × γ))
          + ↑((seg keys left (right - lanes)).zip (seg idx left (right - lanes)))
          + ↑((seg keys (rst + lanes) R0).zip (seg idx (rst + lanes) R0))
          + (↑((seg keys (right - lanes) right).zip (seg idx (right - lanes) right))
            + extra)
        = ↑((seg keys L0 lst).zip (seg idx L0 lst))
          + (↑((seg keys left (right - lanes)).zip (seg idx left (right - lanes)))
            + ↑((seg keys (right - lanes) right).zip (seg idx (right - lanes) right)))
          + ↑((seg keys (rst + lanes) R0).zip (seg idx (rst + lanes) R0))
          + extra := by abel
      _ = ↑((seg okeys L0 R0).zip (seg oidx L0 R0)) := hold

/-- A kv `partition_vec` step with a protected window: the in-flight pair
register `(u, v)` is flushed to both store edges, the invariant advances. -/
lemma KVInv_step_window {lanes : Nat} {P : α} {okeys keys u mn mx : List α}
    {oidx idx : List γ} {v : List γ}
    {L0 R0 left right lst rst : Nat} {extra' : Multiset (α × γ)}
    (inv : KVInv lanes P okeys oidx L0 R0 (↑(u.zip v) + extra') keys idx
      left right lst rst)
    (hl : 1 ≤ lanes) (hu : u.length = lanes) (hv : v.length = lanes)
    (hgl : lst + lanes ≤ left) (hgr : right ≤ rst) :
    ∃ keys' idx',
      partition_vec_kv lanes keys idx lst (rst + lanes) u v P mn mx
        = some ((u.filter (fun x => decide (P ≤ x))).length, keys', idx',
            List.zipWith min u mn, List.zipWith max u mx) ∧
      KVInv lanes P okeys oidx L0 R0 extra' keys' idx' left right
        (lst + (lanes - (u.filter (fun x => decide (P ≤ x))).length))
        (rst - (u.filter (fun x => decide (P ≤ x))).length) ∧
      (∀ j, left ≤ j → j < right → keys'[j]? = keys[j]? ∧ idx'[j]? = idx[j]?) := by
  have hsum := filter_ge_add_filter_lt P u
  rw [hu] at hsum
  set k := (u.filter (fun x => decide (P ≤ x))).length with hk
  have hkle : k ≤ lanes := by omega
  have hcard : Multiset.card ((↑(u.zip v) : Multiset (α × γ)) + extra')
      = lanes + Multiset.card extra' := by
    rw [Multiset.card_add, Multiset.coe_card, zip_length_eq (by omega), hu]
  have hcnt0 := inv.hcnt
  rw [hcard] at hcnt0
  have hklen := inv.klen
  have hilen := inv.ilen
  have holen := inv.olen
  have hL0 := inv.hL0
  have hlst := inv.hlst
  have hlr := inv.hlr
  have hrstw := inv.hrst
  have hR0 := inv.hR0
  have hR0len := inv.hR0len
  have hrstk : k ≤ rst := by omega
  obtain ⟨keys', idx', hrun, hklen', hilen', hlow, hmid, hhigh, hKsegL, hKsegR,
    hZsegL, hZsegR⟩ :=
    partition_vec_kv_spec lanes P keys idx u v mn mx lst (rst + lanes)
      (by omega) hu hv (by omega) (by omega)
  rw [← hk] at hrun hmid hKsegL hKsegR hZsegL hZsegR
  have hwinf : ∀ j, left ≤ j → j < right → keys'[j]? = keys[j]? ∧ idx'[j]? = idx[j]? :=
    fun j hj1 hj2 => hmid j (by omega) (by omega)
  refine ⟨keys', idx', hrun, ?_, hwinf⟩
  have hZLg : (seg keys' L0 (lst + (lanes - k))).zip (seg idx' L0 (lst + (lanes - k)))
      = (seg keys L0 lst).zip (seg idx L0 lst)
        ++ (u.zip v).filter (fun kv => decide (kv.1 < P)) := by
    have hsk : seg keys' L0 (lst + (lanes - k))
        = seg keys' L0 lst ++ seg keys' lst (lst + (lanes - k)) :=
      seg_split (by omega) (by omega) (by omega)
    have hsi : seg idx' L0 (lst + (lanes - k))
        = seg idx' L0 lst ++ seg idx' lst (lst + (lanes - k)) :=
      seg_split (by omega) (by omega) (by omega)
    have hck : seg keys' L0 lst = seg keys L0 lst :=
      seg_congr (by omega) (by omega) (fun j _ hj2 => (hlow j hj2).1)
    have hci : seg idx' L0 lst = seg idx L0 lst :=
      seg_congr (by omega) (by omega) (fun j _ hj2 => (hlow j hj2).2)
    have hl1 : (seg keys' L0 lst).length = lst - L0 := seg_length (by omega)
    have hl2 : (seg idx' L0 lst).length = lst - L0 := seg_length (by omega)
    rw [hsk, hsi, List.zip_append (by rw [hl1, hl2]), hck, hci, ← hZsegL]
  have hZRg : (seg keys' (rst - k + lanes) R0).zip (seg idx' (rst - k + lanes) R0)
      = (u.zip v).filter (fun kv => decide (P ≤ kv.1))
        ++ (seg keys (rst + lanes) R0).zip (seg idx (rst + lanes) R0) := by
    have he : rst - k + lanes = rst + lanes - k := by omega
    have hsk : seg keys' (rst + lanes - k) R0
        = seg keys' (rst + lanes - k) (rst + lanes) ++ seg keys' (rst + lanes) R0 :=
      seg_split (by omega) (by omega) (by omega)
    have hsi : seg idx' (rst + lanes - k) R0
        = seg idx' (rst + lanes - k) (rst + lanes) ++ seg idx' (rst + lanes) R0 :=
      seg_split (by omega) (by omega) (by omega)
    have hck : seg keys' (rst + lanes) R0 = seg keys (rst + lanes) R0 :=
      seg_congr (by omega) (by omega) (fun j hj1 _ => (hhigh j hj1).1)
    have hci : seg idx' (rst + lanes) R0 = seg idx (rst + lanes) R0 :=
      seg_congr (by omega) (by omega) (fun j hj1 _ => (hhigh j hj1).2)
    have hl1 : (seg keys' (rst + lanes - k) (rst + lanes)).length = k :=
      by rw [seg_length (by omega)]; omega
    have hl2 : (seg idx' (rst + lanes - k) (rst + lanes)).length = k :=
      by rw [seg_length (by omega)]; omega
    rw [he, hsk, hsi, List.zip_append (by rw [hl1, hl2]), hck, hci]
    congr 1
  have hZwin : (seg keys' left right).zip (seg idx' left right)
      = (seg keys left right).zip (seg idx left right) := by
    have hck : seg keys' left right = seg keys left right :=
      seg_congr (by omega) (by omega) (fun j hj1 hj2 => (hwinf j hj1 hj2).1)
    have hci : seg idx' left right = seg idx left right :=
      seg_congr (by omega) (by omega) (fun j hj1 hj2 => (hwinf j hj1 hj2).2)
    rw [hck, hci]
  refine ⟨by omega, by omega, holen, by omega, by omega, hlr, by omega, by omega,
    hR0len, inv.hdvd, by omega, ?_, ?_, ?_, ?_, ?_⟩
  · intro j x hj1 hj2 hjx
    rcases lt_or_le j lst with hj | hj
    · exact inv.hlt j x hj1 hj (by rw [← (hlow j hj).1]; exact hjx)
    · have := getElem?_of_seg_eq hKsegL hj hj2
      rw [this] at hjx
      exact lt_of_mem_filter_lt (List.getElem?_mem hjx)
  · intro j x hj1 hj2 hjx
    have he : rst - k + lanes = rst + lanes - k := by omega
    rw [he] at hj1
    rcases lt_or_le j (rst + lanes) with hj | hj
    · have := getElem?_of_seg_eq hKsegR hj1 hj
      rw [this] at hjx
      exact ge_of_mem_filter_ge (List.getElem?_mem hjx)
    · exact inv.hge j x hj hj2 (by rw [← (hhigh j hj).1]; exact hjx)
  · intro j hj
    rcases hj with hj | hj
    · rw [(hlow j (by omega)).1]
      exact inv.hframeK j (Or.inl hj)
    · rw [(hhigh j (by omega)).1]
      exact inv.hframeK j (Or.inr hj)
  · intro j hj
    rcases hj with hj | hj
    · rw [(hlow j (by omega)).2]
      exact inv.hframeI j (Or.inl hj)
    · rw [(hhigh j (by omega)).2]
      exact inv.hframeI j (Or.inr hj)
  · rw [hZLg, hZRg, hZwin]
    have hflt := filter_zip_ge_lt_mset P (u.zip v)
    have hold := inv.hperm
    have hco1 : (↑((seg keys L0 lst).zip (seg idx L0 lst)
          ++ (u.zip v).filter (fun kv => decide (kv.1 < P))) : Multiset (α × γ))
        = ↑((seg keys L0 lst).zip (seg idx L0 lst))
          + ↑((u.zip v).filter (fun kv => decide (kv.1 < P))) := rfl
    have hco2 : (↑((u.zip v).filter (fun kv => decide (P ≤ kv.1))
          ++ (seg keys (rst + lanes) R0).zip (seg idx (rst + lanes) R0))
          : Multiset (α × γ))
        = ↑((u.zip v).filter (fun kv => decide (P ≤ kv.1)))
          + ↑((seg keys (rst + lanes) R0).zip (seg idx (rst + lanes) R0)) := rfl
    rw [hco1, hco2]
    calc (↑((seg keys L0 lst).zip (seg idx L0 lst)) : Multiset (α × γ))
          + ↑((u.zip v).filter (fun kv => decide (kv.1 < P)))
          + ↑((seg keys left right).zip (seg idx left right))
          + (↑((u.zip v).filter (fun kv => decide (P ≤ kv.1)))
            + ↑((seg keys (rst + lanes) R0).zip (seg idx (rst + lanes) R0)))
          + extra'
        = ↑((seg keys L0 lst).zip (seg idx L0 lst))
          + ↑((seg keys left right).zip (seg idx left right))
          + ↑((seg keys (rst + lanes) R0).zip (seg idx (rst + lanes) R0))
          + ((↑((u.zip v).filter (fun kv => decide (P ≤ kv.1)))
            + ↑((u.zip v).filter (fun kv => decide (kv.1 < P)))) + extra') := by
          abel
      _ = ↑((seg keys L0 lst).zip (seg idx L0 lst))
          + ↑((seg keys left right).zip (seg idx left right))
          + ↑((seg keys (rst + lanes) R0).zip (seg idx (rst + lanes) R0))
          + (↑(u.zip v) + extra') := by rw [hflt]
      _ = ↑((seg okeys L0 R0).zip (seg oidx L0 R0)) := hold

/-- A flushing kv `partition_vec` step: the window has closed and at least one
further register pair remains in flight. -/
lemma KVInv_step_flush {lanes : Nat} {P : α} {okeys keys u mn mx : List α}
    {oidx idx : List γ} {v : List γ}
    {L0 R0 w lst rst : Nat} {extra' : Multiset (α × γ)}
    (inv : KVInv lanes P okeys oidx L0 R0 (↑(u.zip v) + extra') keys idx w w lst rst)
    (hl : 1 ≤ lanes) (hu : u.length = lanes) (hv : v.length = lanes)
    (hrem : lanes ≤ Multiset.card extra') :
    ∃ keys' idx',
      partition_vec_kv lanes keys idx lst (rst + lanes) u v P mn mx
        = some ((u.filter (fun x => decide (P ≤ x))).length, keys', idx',
            List.zipWith min u mn, List.zipWith max u mx) ∧
      KVInv lanes P okeys oidx L0 R0 extra' keys' idx'
        (lst + (lanes - (u.filter (fun x => decide (P ≤ x))).length))
        (lst + (lanes - (u.filter (fun x => decide (P ≤ x))).length))
        (lst + (lanes - (u.filter (fun x => decide (P ≤ x))).length))
        (rst - (u.filter (fun x => decide (P ≤ x))).length) := by
  have hsum := filter_ge_add_filter_lt P u
  rw [hu] at hsum
  set k := (u.filter (fun x => decide (P ≤ x))).length with hk
  have hkle : k ≤ lanes := by omega
  have hcard : Multiset.card ((↑(u.zip v) : Multiset (α × γ)) + extra')
      = lanes + Multiset.card extra' := by
    rw [Multiset.card_add, Multiset.coe_card, zip_length_eq (by omega), hu]
  have hcnt0 := inv.hcnt
  rw [hcard] at hcnt0
  have hklen := inv.klen
  have hilen := inv.ilen
  have holen := inv.olen
  have hL0 := inv.hL0
  have hlst := inv.hlst
  have hlr := inv.hlr
  have hrstw := inv.hrst
  have hR0 := inv.hR0
  have hR0len := inv.hR0len
  have hlstrst : lst + lanes ≤ rst := by omega
  have hrstk : k ≤ rst := by omega
  obtain ⟨keys', idx', hrun, hklen', hilen', hlow, hmid, hhigh, hKsegL, hKsegR,
    hZsegL, hZsegR⟩ :=
    partition_vec_kv_spec lanes P keys idx u v mn mx lst (rst + lanes)
      (by omega) hu hv (by omega) (by omega)
  rw [← hk] at hrun hmid hKsegL hKsegR hZsegL hZsegR
  refine ⟨keys', idx', hrun, ?_⟩
  have hZLg : (seg keys' L0 (lst + (lanes - k))).zip (seg idx' L0 (lst + (lanes - k)))
      = (seg keys L0 lst).zip (seg idx L0 lst)
        ++ (u.zip v).filter (fun kv => decide (kv.1 < P)) := by
    have hsk : seg keys' L0 (lst + (lanes - k))
        = seg keys' L0 lst ++ seg keys' lst (lst + (lanes - k)) :=
      seg_split (by omega) (by omega) (by omega)
    have hsi : seg idx' L0 (lst + (lanes - k))
        = seg idx' L0 lst ++ seg idx' lst (lst + (lanes - k)) :=
      seg_split (by omega) (by omega) (by omega)
    have hck : seg keys' L0 lst = seg keys L0 lst :=
      seg_congr (by omega) (by omega) (fun j _ hj2 => (hlow j hj2).1)
    have hci : seg idx' L0 lst = seg idx L0 lst :=
      seg_congr (by omega) (by omega) (fun j _ hj2 => (hlow j hj2).2)
    have hl1 : (seg keys' L0 lst).length = lst - L0 := seg_length (by omega)
    have hl2 : (seg idx' L0 lst).length = lst - L0 := seg_length (by omega)
    rw [hsk, hsi, List.zip_append (by rw [hl1, hl2]), hck, hci, ← hZsegL]
  have hZRg : (seg keys' (rst - k + lanes) R0).zip (seg idx' (rst - k + lanes) R0)
      = (u.zip v).filter (fun kv => decide (P ≤ kv.1))
        ++ (seg keys (rst + lanes) R0).zip (seg idx (rst + lanes) R0) := by
    have he : rst - k + lanes = rst + lanes - k := by omega
    have hsk : seg keys' (rst + lanes - k) R0
        = seg keys' (rst + lanes - k) (rst + lanes) ++ seg keys' (rst + lanes) R0 :=
      seg_split (by omega) (by omega) (by omega)
    have hsi : seg idx' (rst + lanes - k) R0
        = seg idx' (rst + lanes - k) (rst + lanes) ++ seg idx' (rst + lanes) R0 :=
      seg_split (by omega) (by omega) (by omega)
    have hck : seg keys' (rst + lanes) R0 = seg keys (rst + lanes) R0 :=
      seg_congr (by omega) (by omega) (fun j hj1 _ => (hhigh j hj1).1)
    have hci : seg idx' (rst + lanes) R0 = seg idx (rst + lanes) R0 :=
      seg_congr (by omega) (by omega) (fun j hj1 _ => (hhigh j hj1).2)
    have hl1 : (seg keys' (rst + lanes - k) (rst + lanes)).length = k :=
      by rw [seg_length (by omega)]; omega
    have hl2 : (seg idx' (rst + lanes - k) (rst + lanes)).length = k :=
      by rw [seg_length (by omega)]; omega
    rw [he, hsk, hsi, List.zip_append (by rw [hl1, hl2]), hck, hci]
    congr 1
  refine ⟨by omega, by omega, holen, by omega, le_refl _, le_refl _, by omega,
    by omega, hR0len, by simp, by omega, ?_, ?_, ?_, ?_, ?_⟩
  · intro j x hj1 hj2 hjx
    rcases lt_or_le j lst with hj | hj
    · exact inv.hlt j x hj1 hj (by rw [← (hlow j hj).1]; exact hjx)
    · have := getElem?_of_seg_eq hKsegL hj hj2
      rw [this] at hjx
      exact lt_of_mem_filter_lt (List.getElem?_mem hjx)
  · intro j x hj1 hj2 hjx
    have he : rst - k + lanes = rst + lanes - k := by omega
    rw [he] at hj1
    rcases lt_or_le j (rst + lanes) with hj | hj
    · have := getElem?_of_seg_eq hKsegR hj1 hj
      rw [this] at hjx
      exact ge_of_mem_filter_ge (List.getElem?_mem hjx)
    · exact inv.hge j x hj hj2 (by rw [← (hhigh j hj).1]; exact hjx)
  · intro j hj
    rcases hj with hj | hj
    · rw [(hlow j (by omega)).1]
      exact inv.hframeK j (Or.inl hj)
    · rw [(hhigh j (by omega)).1]
      exact inv.hframeK j (Or.inr hj)
  · intro j hj
    rcases hj with hj | hj
    · rw [(hlow j (by omega)).2]
      exact inv.hframeI j (Or.inl hj)
    · rw [(hhigh j (by omega)).2]
      exact inv.hframeI j (Or.inr hj)
  · rw [hZLg, hZRg]
    have hmidnil : (seg keys' (lst + (lanes - k)) (lst + (lanes - k))).zip
        (seg idx' (lst + (lanes - k)) (lst + (lanes - k))) = ([] : List (α × γ)) := by
      rw [seg_nil (le_refl _), seg_nil (le_refl _)]
      rfl
    rw [hmidnil]
    have hold := inv.hperm
    have hwnil : (seg keys w w).zip (seg idx w w) = ([] : List (α × γ)) := by
      rw [seg_nil (le_refl _), seg_nil (le_refl _)]
      rfl
    rw [hwnil] at hold
    have hflt := filter_zip_ge_lt_mset P (u.zip v)
    have hco1 : (↑((seg keys L0 lst).zip (seg idx L0 lst)
          ++ (u.zip v).filter (fun kv => decide (kv.1 < P))) : Multiset (α × γ))
        = ↑((seg keys L0 lst).zip (seg idx L0 lst))
          + ↑((u.zip v).filter (fun kv => decide (kv.1 < P))) := rfl
    have hco2 : (↑((u.zip v).filter (fun kv => decide (P ≤ kv.1))
          ++ (seg keys (rst + lanes) R0).zip (seg idx (rst + lanes) R0))
          : Multiset (α × γ))
        = ↑((u.zip v).filter (fun kv => decide (P ≤ kv.1)))
          + ↑((seg keys (rst + lanes) R0).zip (seg idx (rst + lanes) R0)) := rfl
    rw [hco1, hco2]
    calc (↑((seg keys L0 lst).zip (seg idx L0 lst)) : Multiset (α × γ))
          + ↑((u.zip v).filter (fun kv => decide (kv.1 < P)))
          + ↑([] : List (α × γ))
          + (↑((u.zip v).filter (fun kv => decide (P ≤ kv.1)))
            + ↑((seg keys (rst + lanes) R0).zip (seg idx (rst + lanes) R0)))
          + extra'
        = ↑((seg keys L0 lst).zip (seg idx L0 lst))
          + ↑([] : List (α × γ))
          + ↑((seg keys (rst + lanes) R0).zip (seg idx (rst + lanes) R0))
          + ((↑((u.zip v).filter (fun kv => decide (P ≤ kv.1)))
            + ↑((u.zip v).filter (fun kv => decide (kv.1 < P)))) + extra') := by
          abel
      _ = ↑((seg keys L0 lst).zip (seg idx L0 lst))
          + ↑([] : List (α × γ))
          + ↑((seg keys (rst + lanes) R0).zip (seg idx (rst + lanes) R0))
          + (↑(u.zip v) + extra') := by rw [hflt]
      _ = ↑((seg okeys L0 R0).zip (seg oidx L0 R0)) := hold

/-- The very last kv `partition_vec` call: `(u, v)` is the final in-flight
pair register, so afterwards the whole range `[L0, R0)` is partitioned at
`lst + (lanes - k)`, with the pair multiset preserved. -/
lemma KVInv_step_final {lanes : Nat} {P : α} {okeys keys u mn mx : List α}
    {oidx idx : List γ} {v : List γ} {L0 R0 w lst rst : Nat}
    (inv : KVInv lanes P okeys oidx L0 R0 (↑(u.zip v)) keys idx w w lst rst)
    (hl : 1 ≤ lanes) (hu : u.length = lanes) (hv : v.length = lanes) :
    rst = lst ∧
    ∃ keys' idx',
      partition_vec_kv lanes keys idx lst (lst + lanes) u v P mn mx
        = some ((u.filter (fun x => decide (P ≤ x))).length, keys', idx',
            List.zipWith min u mn, List.zipWith max u mx) ∧
      keys'.length = okeys.length ∧ idx'.length = oidx.length ∧
      L0 ≤ lst + (lanes - (u.filter (fun x => decide (P ≤ x))).length) ∧
      lst + (lanes - (u.filter (fun x => decide (P ≤ x))).length) ≤ R0 ∧
      (∀ j x, L0 ≤ j → j < lst + (lanes - (u.filter (fun x => decide (P ≤ x))).length) →
        keys'[j]? = some x → x < P) ∧
      (∀ j x, lst + (lanes - (u.filter (fun x => decide (P ≤ x))).length) ≤ j →
        j < R0 → keys'[j]? = some x → P ≤ x) ∧
      (∀ j, j < L0 ∨ R0 ≤ j → keys'[j]? = okeys[j]? ∧ idx'[j]? = oidx[j]?) ∧
      (↑((seg keys' L0 R0).zip (seg idx' L0 R0)) : Multiset (α × γ))
        = ↑((seg okeys L0 R0).zip (seg oidx L0 R0)) := by
  have hsum := filter_ge_add_filter_lt P u
  rw [hu] at hsum
  set k := (u.filter (fun x => decide (P ≤ x))).length with hk
  have hkle : k ≤ lanes := by omega
  have hcard : Multiset.card ((↑(u.zip v) : Multiset (α × γ))) = lanes := by
    rw [Multiset.coe_card, zip_length_eq (by omega), hu]
  have hcnt0 := inv.hcnt
  rw [hcard] at hcnt0
  have hklen := inv.klen
  have hilen := inv.ilen
  have holen := inv.olen
  have hL0 := inv.hL0
  have hlst := inv.hlst
  have hlr := inv.hlr
  have hrstw := inv.hrst
  have hR0 := inv.hR0
  have hR0len := inv.hR0len
  have hrlst : rst = lst := by omega
  subst hrlst
  refine ⟨rfl, ?_⟩
  obtain ⟨keys', idx', hrun, hklen', hilen', hlow, hmid, hhigh, hKsegL, hKsegR,
    hZsegL, hZsegR⟩ :=
    partition_vec_kv_spec lanes P keys idx u v mn mx rst (rst + lanes)
      (by omega) hu hv (by omega) (by omega)
  rw [← hk] at hrun hmid hKsegL hKsegR hZsegL hZsegR
  have hKsegR' : seg keys' (rst + (lanes - k)) (rst + lanes)
      = u.filter (fun x => decide (P ≤ x)) := by
    have he : rst + (lanes - k) = rst + lanes - k := by omega
    rw [he]
    exact hKsegR
  have hhigh' : ∀ j, rst + lanes ≤ j → keys'[j]? = keys[j]? ∧ idx'[j]? = idx[j]? :=
    fun j hj => hhigh j (by omega)
  refine ⟨keys', idx', hrun, by omega, by omega, by omega, by omega, ?_, ?_, ?_, ?_⟩
  · intro j x hj1 hj2 hjx
    rcases lt_or_le j rst with hj | hj
    · exact inv.hlt j x hj1 hj (by rw [← (hlow j hj).1]; exact hjx)
    · have := getElem?_of_seg_eq hKsegL hj hj2
      rw [this] at hjx
      exact lt_of_mem_filter_lt (List.getElem?_mem hjx)
  · intro j x hj1 hj2 hjx
    rcases lt_or_le j (rst + lanes) with hj | hj
    · have := getElem?_of_seg_eq hKsegR' hj1 hj
      rw [this] at hjx
      exact ge_of_mem_filter_ge (List.getElem?_mem hjx)
    · exact inv.hge j x (by omega) hj2 (by rw [← (hhigh' j (by omega)).1]; exact hjx)
  · intro j hj
    rcases hj with hj | hj
    · exact ⟨by rw [(hlow j (by omega)).1]; exact inv.hframeK j (Or.inl hj),
        by rw [(hlow j (by omega)).2]; exact inv.hframeI j (Or.inl hj)⟩
    · exact ⟨by rw [(hhigh' j (by omega)).1]; exact inv.hframeK j (Or.inr hj),
        by rw [(hhigh' j (by omega)).2]; exact inv.hframeI j (Or.inr hj)⟩
  · have hZLg : (seg keys' L0 (rst + (lanes - k))).zip (seg idx' L0 (rst + (lanes - k)))
        = (seg keys L0 rst).zip (seg idx L0 rst)
          ++ (u.zip v).filter (fun kv => decide (kv.1 < P)) := by
      have hsk : seg keys' L0 (rst + (lanes - k))
          = seg keys' L0 rst ++ seg keys' rst (rst + (lanes - k)) :=
        seg_split (by omega) (by omega) (by omega)
      have hsi : seg idx' L0 (rst + (lanes - k))
          = seg idx' L0 rst ++ seg idx' rst (rst + (lanes - k)) :=
        seg_split (by omega) (by omega) (by omega)
      have hck : seg keys' L0 rst = seg keys L0 rst :=
        seg_congr (by omega) (by omega) (fun j _ hj2 => (hlow j hj2).1)
      have hci : seg idx' L0 rst = seg idx L0 rst :=
        seg_congr (by omega) (by omega) (fun j _ hj2 => (hlow j hj2).2)
      have hl1 : (seg keys' L0 rst).length = rst - L0 := seg_length (by omega)
      have hl2 : (seg idx' L0 rst).length = rst - L0 := seg_length (by omega)
      rw [hsk, hsi, List.zip_append (by rw [hl1, hl2]), hck, hci, ← hZsegL]
    have hZRg : (seg keys' (rst + (lanes - k)) R0).zip (seg idx' (rst + (lanes - k)) R0)
        = (u.zip v).filter (fun kv => decide (P ≤ kv.1))
          ++ (seg keys (rst + lanes) R0).zip (seg idx (rst + lanes) R0) := by
      have hsk : seg keys' (rst + (lanes - k)) R0
          = seg keys' (rst + (lanes - k)) (rst + lanes) ++ seg keys' (rst + lanes) R0 :=
        seg_split (by omega) (by omega) (by omega)
      have hsi : seg idx' (rst + (lanes - k)) R0
          = seg idx' (rst + (lanes - k)) (rst + lanes) ++ seg idx' (rst + lanes) R0 :=
        seg_split (by omega) (by omega) (by omega)
      have hck : seg keys' (rst + lanes) R0 = seg keys (rst + lanes) R0 :=
        seg_congr (by omega) (by omega) (fun j hj1 _ => (hhigh' j hj1).1)
      have hci : seg idx' (rst + lanes) R0 = seg idx (rst + lanes) R0 :=
        seg_congr (by omega) (by omega) (fun j hj1 _ => (hhigh' j hj1).2)
      have hl1 : (seg keys' (rst + (lanes - k)) (rst + lanes)).length = k :=
        by rw [seg_length (by omega)]; omega
      have hl2 : (seg idx' (rst + (lanes - k)) (rst + lanes)).length = k :=
        by rw [seg_length (by omega)]; omega
      rw [hsk, hsi, List.zip_append (by rw [hl1, hl2]), hck, hci]
      congr 1
      have he : rst + (lanes - k) = rst + lanes - k := by omega
      have := hZsegR
      rw [hKsegR] at this
      rw [he, hKsegR]
      exact this
    have hwhole : (seg keys' L0 R0).zip (seg idx' L0 R0)
        = (seg keys' L0 (rst + (lanes - k))).zip (seg idx' L0 (rst + (lanes - k)))
          ++ (seg keys' (rst + (lanes - k)) R0).zip (seg idx' (rst + (lanes - k)) R0) := by
      have hsk : seg keys' L0 R0
          = seg keys' L0 (rst + (lanes - k)) ++ seg keys' (rst + (lanes - k)) R0 :=
        seg_split (by omega) (by omega) (by omega)
      have hsi : seg idx' L0 R0
          = seg idx' L0 (rst + (lanes - k)) ++ seg idx' (rst + (lanes - k)) R0 :=
        seg_split (by omega) (by omega) (by omega)
      have hl1 : (seg keys' L0 (rst + (lanes - k))).length = rst + (lanes - k) - L0 :=
        seg_length (by omega)
      have hl2 : (seg idx' L0 (rst + (lanes - k))).length = rst + (lanes - k) - L0 :=
        seg_length (by omega)
      rw [hsk, hsi, List.zip_append (by rw [hl1, hl2])]
    rw [hwhole, hZLg, hZRg]
    have hold := inv.hperm
    have hwnil : (seg keys w w).zip (seg idx w w) = ([] : List (α × γ)) := by
      rw [seg_nil (le_refl _), seg_nil (le_refl _)]
      rfl
    rw [hwnil] at hold
    have hflt := filter_zip_ge_lt_mset P (u.zip v)
    have hco : (↑(((seg keys L0 rst).zip (seg idx L0 rst)
          ++ (u.zip v).filter (fun kv => decide (kv.1 < P)))
          ++ ((u.zip v).filter (fun kv => decide (P ≤ kv.1))
            ++ (seg keys (rst + lanes) R0).zip (seg idx (rst + lanes) R0)))
          : Multiset (α × γ))
        = ↑((seg keys L0 rst).zip (seg idx L0 rst))
          + ↑((u.zip v).filter (fun kv => decide (kv.1 < P)))
          + ↑((u.zip v).filter (fun kv => decide (P ≤ kv.1)))
          + ↑((seg keys (rst + lanes) R0).zip (seg idx (rst + lanes) R0)) := by
      simp [Multiset.coe_add]
    rw [hco]
    calc (↑((seg keys L0 rst).zip (seg idx L0 rst)) : Multiset (α × γ))
          + ↑((u.zip v).filter (fun kv => decide (kv.1 < P)))
          + ↑((u.zip v).filter (fun kv => decide (P ≤ kv.1)))
          + ↑((seg keys (rst + lanes) R0).zip (seg idx (rst + lanes) R0))
        = ↑((seg keys L0 rst).zip (seg idx L0 rst))
          + ↑([] : List (α × γ))
          + ↑((seg keys (rst + lanes) R0).zip (seg idx (rst + lanes) R0))
          + (↑((u.zip v).filter (fun kv => decide (P ≤ kv.1)))
            + ↑((u.zip v).filter (fun kv => decide (kv.1 < P)))) := by abel
      _ = ↑((seg keys L0 rst).zip (seg idx L0 rst))
          + ↑([] : List (α × γ))
          + ↑((seg keys (rst + lanes) R0).zip (seg idx (rst + lanes) R0))
          + ↑(u.zip v) := by rw [hflt]
      _ = ↑((seg okeys L0 R0).zip (seg oidx L0 R0)) := hold

/-- A zipped singleton segment from pointwise reads. -/
lemma zip_seg_singleton {keys : List α} {idx : List γ} {a : Nat} {x : α} {y : γ}
    (hak : a < keys.length) (hai : a < idx.length)
    (hx : keys[a]? = some x) (hy : idx[a]? = some y) :
    (seg keys a (a + 1)).zip (seg idx a (a + 1)) = [(x, y)] := by
  rw [seg_eq_singleton_of_getElem? hak hx, seg_eq_singleton_of_getElem? hai hy]
  rfl

/-- The scalar alignment loop of the kv `partition_avx512` (lines 606-617):
`i` iterations shrink the window by `i` cells in total, pairs move together
(the zipped window is a permutation), collected left elements are `≤ pivot`
(keys equal to the pivot stay left here) and collected right elements are
`> pivot`. -/
lemma alignLoopKV_spec {P : α} :
    ∀ (i : Nat) (keys : List α) (idx : List γ) (left right : Nat) (s b : α),
    i ≤ right - left → right ≤ keys.length → left ≤ right →
    keys.length = idx.length →
    ∃ keys' idx' left' right' s' b',
      alignLoopKV P i (keys, idx, left, right, s, b)
        = some (keys', idx', left', right', s', b') ∧
      keys'.length = keys.length ∧ idx'.length = idx.length ∧
      left ≤ left' ∧ left' ≤ right' ∧ right' ≤ right ∧
      (left' - left) + (right - right') = i ∧
      (∀ j, j < left ∨ right ≤ j → keys'[j]? = keys[j]? ∧ idx'[j]? = idx[j]?) ∧
      (↑((seg keys' left right).zip (seg idx' left right)) : Multiset (α × γ))
        = ↑((seg keys left right).zip (seg idx left right)) ∧
      (∀ j x, left ≤ j → j < left' → keys'[j]? = some x → x ≤ P) ∧
      (∀ j x, right' ≤ j → j < right → keys'[j]? = some x → P < x) := by
  intro i
  induction i with
  | zero =>
      intro keys idx left right s b hi hr hlr hki
      exact ⟨keys, idx, left, right, s, b, rfl, rfl, rfl, le_refl _, hlr, le_refl _,
        by omega, fun j _ => ⟨rfl, rfl⟩, rfl, by omega, by omega⟩
  | succ i ih =>
      intro keys idx left right s b hi hr hlr hki
      have hlt : left < right := by omega
      have hll : left < keys.length := by omega
      have hli : left < idx.length := by omega
      have hxl : keys[left]? = some (keys.get ⟨left, hll⟩) := by
        simp [List.getElem?_eq_getElem hll]
      have hyl : idx[left]? = some (idx.get ⟨left, hli⟩) := by
        simp [List.getElem?_eq_getElem hli]
      by_cases hc : P < keys.get ⟨left, hll⟩
      · -- `pivot < keys[left]`: swap the pair to the right edge, retreat `right`
        have hr1k : right - 1 < keys.length := by omega
        have hr1i : right - 1 < idx.length := by omega
        obtain ⟨keys1, hswK⟩ : ∃ a, swapAt keys left (right - 1) = some a :=
          ⟨_, swapAt_eq_some hll hr1k⟩
        obtain ⟨idx1, hswI⟩ : ∃ a, swapAt idx left (right - 1) = some a :=
          ⟨_, swapAt_eq_some hli hr1i⟩
        have hlen1k : keys1.length = keys.length := swapAt_length hswK
        have hlen1i : idx1.length = idx.length := swapAt_length hswI
        have hget1k := swapAt_getElem? hll hr1k hswK
        have hget1i := swapAt_getElem? hli hr1i hswI
        have hx1 : keys1[right - 1]? = some (keys.get ⟨left, hll⟩) := by
          rcases eq_or_ne (right - 1) left with he | hne
          · rw [hget1k (right - 1), if_pos he, he]
            exact hxl
          · rw [hget1k (right - 1), if_neg hne, if_pos rfl]
            exact hxl
        have hy1 : idx1[right - 1]? = some (idx.get ⟨left, hli⟩) := by
          rcases eq_or_ne (right - 1) left with he | hne
          · rw [hget1i (right - 1), if_pos he, he]
            exact hyl
          · rw [hget1i (right - 1), if_neg hne, if_pos rfl]
            exact hyl
        obtain ⟨keys', idx', left', right', s', b', hrun, hlenk, hleni, h1, h2, h3,
          hprog, hframe, hperm, hlereg, hgtreg⟩ :=
          ih keys1 idx1 left (right - 1) (min s (keys.get ⟨left, hll⟩))
            (max b (keys.get ⟨left, hll⟩)) (by omega) (by omega) (by omega)
            (by omega)
        have hfrk : keys'[right - 1]? = some (keys.get ⟨left, hll⟩) := by
          rw [(hframe (right - 1) (Or.inr (le_refl _))).1]
          exact hx1
        have hfri : idx'[right - 1]? = some (idx.get ⟨left, hli⟩) := by
          rw [(hframe (right - 1) (Or.inr (le_refl _))).2]
          exact hy1
        refine ⟨keys', idx', left', right', s', b', ?_, by omega, by omega, h1, h2,
          by omega, by omega, ?_, ?_, hlereg, ?_⟩
        · rw [alignLoopKV, readAt_eq_some hll]
          simp only [Option.bind_eq_bind, Option.some_bind]
          rw [if_pos hc, hswK]
          simp only [Option.some_bind]
          rw [hswI]
          simp only [Option.some_bind]
          exact hrun
        · intro j hj
          refine ⟨?_, ?_⟩
          · rw [(hframe j (by omega)).1, hget1k j, if_neg (by omega), if_neg (by omega)]
          · rw [(hframe j (by omega)).2, hget1i j, if_neg (by omega), if_neg (by omega)]
        · -- pair multiset of the window
          have hsng : (seg keys' (right - 1) right).zip (seg idx' (right - 1) right)
              = [(keys.get ⟨left, hll⟩, idx.get ⟨left, hli⟩)] := by
            have := zip_seg_singleton (a := right - 1) (by omega) (by omega) hfrk hfri
            rw [show right - 1 + 1 = right from by omega] at this
            exact this
          have hsng1 : (seg keys1 (right - 1) right).zip (seg idx1 (right - 1) right)
              = [(keys.get ⟨left, hll⟩, idx.get ⟨left, hli⟩)] := by
            have := zip_seg_singleton (a := right - 1) (by omega) (by omega) hx1 hy1
            rw [show right - 1 + 1 = right from by omega] at this
            exact this
          have hsplK : seg keys' left right
              = seg keys' left (right - 1) ++ seg keys' (right - 1) right :=
            seg_split (by omega) (by omega) (by omega)
          have hsplI : seg idx' left right
              = seg idx' left (right - 1) ++ seg idx' (right - 1) right :=
            seg_split (by omega) (by omega) (by omega)
          have hsplK1 : seg keys1 left right
              = seg keys1 left (right - 1) ++ seg keys1 (right - 1) right :=
            seg_split (by omega) (by omega) (by omega)
          have hsplI1 : seg idx1 left right
              = seg idx1 left (right - 1) ++ seg idx1 (right - 1) right :=
            seg_split (by omega) (by omega) (by omega)
          have hz : (seg keys' left right).zip (seg idx' left right)
              = (seg keys' left (right - 1)).zip (seg idx' left (right - 1))
                ++ (seg keys' (right - 1) right).zip (seg idx' (right - 1) right) := by
            rw [hsplK, hsplI, List.zip_append (by rw [seg_length (by omega),
              seg_length (by omega)])]
          have hz1 : (seg keys1 left right).zip (seg idx1 left right)
              = (seg keys1 left (right - 1)).zip (seg idx1 left (right - 1))
                ++ (seg keys1 (right - 1) right).zip (seg idx1 (right - 1) right) := by
            rw [hsplK1, hsplI1, List.zip_append (by rw [seg_length (by omega),
              seg_length (by omega)])]
          have hswm := zip_swapAt_seg_mset hki hswK hswI (le_refl left) (by omega)
            (by omega) hr
          calc (↑((seg keys' left right).zip (seg idx' left right)) : Multiset (α × γ))
              = ↑((seg keys' left (right - 1)).zip (seg idx' left (right - 1)))
                + ↑([(keys.get ⟨left, hll⟩, idx.get ⟨left, hli⟩)] : List (α × γ)) := by
                rw [hz, hsng]
                rfl
            _ = ↑((seg keys1 left (right - 1)).zip (seg idx1 left (right - 1)))
                + ↑([(keys.get ⟨left, hll⟩, idx.get ⟨left, hli⟩)] : List (α × γ)) := by
                rw [hperm]
            _ = ↑((seg keys1 left right).zip (seg idx1 left right)) := by
                rw [hz1, hsng1]
                rfl
            _ = ↑((seg keys left right).zip (seg idx left right)) := hswm
        · intro j x hj1 hj2 hjx
          rcases eq_or_ne j (right - 1) with rfl | hne
          · rw [hfrk] at hjx
            cases hjx
            exact hc
          · exact hgtreg j x hj1 (by omega) hjx
      · -- `keys[left] ≤ pivot`: the pair stays on the left, advance `left`
        obtain ⟨keys', idx', left', right', s', b', hrun, hlenk, hleni, h1, h2, h3,
          hprog, hframe, hperm, hlereg, hgtreg⟩ :=
          ih keys idx (left + 1) right (min s (keys.get ⟨left, hll⟩))
            (max b (keys.get ⟨left, hll⟩)) (by omega) hr (by omega) hki
        have hflk : keys'[left]? = some (keys.get ⟨left, hll⟩) := by
          rw [(hframe left (Or.inl (by omega))).1]
          exact hxl
        have hfli : idx'[left]? = some (idx.get ⟨left, hli⟩) := by
          rw [(hframe left (Or.inl (by omega))).2]
          exact hyl
        refine ⟨keys', idx', left', right', s', b', ?_, hlenk, hleni, by omega, h2,
          h3, by omega, ?_, ?_, ?_, hgtreg⟩
        · rw [alignLoopKV, readAt_eq_some hll]
          simp only [Option.bind_eq_bind, Option.some_bind]
          rw [if_neg hc]
          exact hrun
        · intro j hj
          exact hframe j (by omega)
        · have hsngP : (seg keys' left (left + 1)).zip (seg idx' left (left + 1))
              = [(keys.get ⟨left, hll⟩, idx.get ⟨left, hli⟩)] :=
            zip_seg_singleton (by omega) (by omega) hflk hfli
          have hsngO : (seg keys left (left + 1)).zip (seg idx left (left + 1))
              = [(keys.get ⟨left, hll⟩, idx.get ⟨left, hli⟩)] :=
            zip_seg_singleton (by omega) (by omega) hxl hyl
          have hz : (seg keys' left right).zip (seg idx' left right)
              = (seg keys' left (left + 1)).zip (seg idx' left (left + 1))
                ++ (seg keys' (left + 1) right).zip (seg idx' (left + 1) right) := by
            rw [seg_split (l := keys') (a := left) (b := left + 1) (c := right)
                (by omega) (by omega) (by omega),
              seg_split (l := idx') (a := left) (b := left + 1) (c := right)
                (by omega) (by omega) (by omega),
              List.zip_append (by rw [seg_length (by omega), seg_length (by omega)])]
          have hzO : (seg keys left right).zip (seg idx left right)
              = (seg keys left (left + 1)).zip (seg idx left (left + 1))
                ++ (seg keys (left + 1) right).zip (seg idx (left + 1) right) := by
            rw [seg_split (l := keys) (a := left) (b := left + 1) (c := right)
                (by omega) (by omega) (by omega),
              seg_split (l := idx) (a := left) (b := left + 1) (c := right)
                (by omega) (by omega) (by omega),
              List.zip_append (by rw [seg_length (by omega), seg_length (by omega)])]
          calc (↑((seg keys' left right).zip (seg idx' left right)) : Multiset (α × γ))
              = ↑([(keys.get ⟨left, hll⟩, idx.get ⟨left, hli⟩)] : List (α × γ))
                + ↑((seg keys' (left + 1) right).zip (seg idx' (left + 1) right)) := by
                rw [hz, hsngP]
                rfl
            _ = ↑([(keys.get ⟨left, hll⟩, idx.get ⟨left, hli⟩)] : List (α × γ))
                + ↑((seg keys (left + 1) right).zip (seg idx (left + 1) right)) := by
                rw [hperm]
            _ = ↑((seg keys left right).zip (seg idx left right)) := by
                rw [hzO, hsngO]
                rfl
        · intro j x hj1 hj2 hjx
          rcases eq_or_lt_of_le hj1 with rfl | hj1'
          · rw [hflk] at hjx
            cases hjx
            exact le_of_not_lt hc
          · exact hlereg j x (by omega) hj2 hjx

/-- The kv main loop (lines 660-693) preserves the pair invariant and runs the
window down to empty; the extreme registers keep their lane count. -/
lemma partLoopKV_spec {lanes : Nat} {P : α} {okeys : List α} {oidx : List γ}
    {L0 R0 : Nat} {extra : Multiset (α × γ)} :
    ∀ (f : Nat) (keys mn mx : List α) (idx : List γ) (left right lst rst : Nat),
    KVInv lanes P okeys oidx L0 R0 extra keys idx left right lst rst →
    1 ≤ lanes → mn.length = lanes → mx.length = lanes →
    Multiset.card extra = 2 * lanes →
    right - left < f * lanes →
    ∃ keys' idx' w lst' rst' mn' mx',
      partLoopKV lanes P f (keys, idx, left, right, lst, rst, mn, mx)
        = some (keys', idx', w, w, lst', rst', mn', mx') ∧
      KVInv lanes P okeys oidx L0 R0 extra keys' idx' w w lst' rst' ∧
      mn'.length = lanes ∧ mx'.length = lanes := by
  intro f
  induction f with
  | zero =>
      intro keys mn mx idx left right lst rst inv hl hml hxl hcard hf
      exact absurd hf (by omega)
  | succ f ih =>
      intro keys mn mx idx left right lst rst inv hl hml hxl hcard hf
      by_cases hrl : right = left
      · subst hrl
        refine ⟨keys, idx, right, lst, rst, mn, mx, ?_, inv, hml, hxl⟩
        rw [partLoopKV, if_pos rfl]
      · have hdvd := inv.hdvd
        have hlr := inv.hlr
        have hwpos : lanes ≤ right - left := Nat.le_of_dvd (by omega) hdvd
        have hlst := inv.hlst
        have hrstw := inv.hrst
        have hL0 := inv.hL0
        have hR0 := inv.hR0
        have hR0len := inv.hR0len
        have hklen := inv.klen
        have hilen := inv.ilen
        have holen := inv.olen
        have hcnt := inv.hcnt
        rw [hcard] at hcnt
        have hfe : (f + 1) * lanes = f * lanes + lanes := by ring
        by_cases hside : (rst + lanes) - right < left - lst
        · -- read the pair from the right edge
          have hwin : left + lanes ≤ right := by omega
          obtain ⟨hreadK, hreadI, hclenK, hclenI, inv2⟩ := KVInv_load_right inv hwin
          have hgl : lst + lanes ≤ left := by omega
          have hgr : right - lanes ≤ rst := by omega
          obtain ⟨keys2, idx2, hrun, inv3, hwinf⟩ :=
            KVInv_step_window inv2 hl hclenK hclenI hgl hgr
          have hksum := filter_ge_add_filter_lt P (seg keys (right - lanes) right)
          rw [hclenK] at hksum
          obtain ⟨keys3, idx3, w, lst3, rst3, mn3, mx3, hrun3, inv4, hml3, hxl3⟩ :=
            ih keys2 (List.zipWith min (seg keys (right - lanes) right) mn)
              (List.zipWith max (seg keys (right - lanes) right) mx)
              idx2 left (right - lanes)
              (lst + (lanes - ((seg keys (right - lanes) right).filter
                (fun x => decide (P ≤ x))).length))
              (rst - ((seg keys (right - lanes) right).filter
                (fun x => decide (P ≤ x))).length)
              inv3 hl (by rw [List.length_zipWith, hclenK, hml]; omega)
              (by rw [List.length_zipWith, hclenK, hxl]; omega) hcard (by omega)
          refine ⟨keys3, idx3, w, lst3, rst3, mn3, mx3, ?_, inv4, hml3, hxl3⟩
          rw [partLoopKV, if_neg hrl, if_pos hside]
          simp only [Option.bind_eq_bind]
          rw [hreadK]
          simp only [Option.some_bind]
          rw [hreadI]
          simp only [Option.some_bind]
          rw [hrun]
          simp only [Option.some_bind]
          exact hrun3
        · -- read the pair from the left edge
          have hwin : left + lanes ≤ right := by omega
          obtain ⟨hreadK, hreadI, hclenK, hclenI, inv2⟩ := KVInv_load_left inv hwin
          have hgl : lst + lanes ≤ left + lanes := by omega
          have hgr : right ≤ rst := by omega
          obtain ⟨keys2, idx2, hrun, inv3, hwinf⟩ :=
            KVInv_step_window inv2 hl hclenK hclenI hgl hgr
          have hksum := filter_ge_add_filter_lt P (seg keys left (left + lanes))
          rw [hclenK] at hksum
          obtain ⟨keys3, idx3, w, lst3, rst3, mn3, mx3, hrun3, inv4, hml3, hxl3⟩ :=
            ih keys2 (List.zipWith min (seg keys left (left + lanes)) mn)
              (List.zipWith max (seg keys left (left + lanes)) mx)
              idx2 (left + lanes) right
              (lst + (lanes - ((seg keys left (left + lanes)).filter
                (fun x => decide (P ≤ x))).length))
              (rst - ((seg keys left (left + lanes)).filter
                (fun x => decide (P ≤ x))).length)
              inv3 hl (by rw [List.length_zipWith, hclenK, hml]; omega)
              (by rw [List.length_zipWith, hclenK, hxl]; omega) hcard (by omega)
          refine ⟨keys3, idx3, w, lst3, rst3, mn3, mx3, ?_, inv4, hml3, hxl3⟩
          rw [partLoopKV, if_neg hrl, if_neg hside]
          simp only [Option.bind_eq_bind]
          rw [hreadK]
          simp only [Option.some_bind]
          rw [hreadI]
          simp only [Option.some_bind]
          rw [hrun]
          simp only [Option.some_bind]
          exact hrun3

/-- If two array pairs agree outside `[mid1, mid2)` and their zipped
`[mid1, mid2)` segments agree as multisets, the whole zipped `[left, right)`
segments agree as multisets. -/
lemma zip_seg_mset_congr_mid {keys keys2 : List α} {idx idx2 : List γ}
    {left mid1 mid2 right : Nat}
    (h1 : left ≤ mid1) (h2 : mid1 ≤ mid2) (h3 : mid2 ≤ right)
    (hrk : right ≤ keys.length) (hrk2 : right ≤ keys2.length)
    (hri : right ≤ idx.length) (hri2 : right ≤ idx2.length)
    (hout : ∀ j, j < mid1 ∨ mid2 ≤ j → keys2[j]? = keys[j]? ∧ idx2[j]? = idx[j]?)
    (hmid : (↑((seg keys2 mid1 mid2).zip (seg idx2 mid1 mid2)) : Multiset (α × γ))
      = ↑((seg keys mid1 mid2).zip (seg idx mid1 mid2))) :
    (↑((seg keys2 left right).zip (seg idx2 left right)) : Multiset (α × γ))
      = ↑((seg keys left right).zip (seg idx left right)) := by
  have hsplit : ∀ (ks : List α) (ix : List γ), right ≤ ks.length → right ≤ ix.length →
      (seg ks left right).zip (seg ix left right)
        = (seg ks left mid1).zip (seg ix left mid1)
          ++ ((seg ks mid1 mid2).zip (seg ix mid1 mid2)
            ++ (seg ks mid2 right).zip (seg ix mid2 right)) := by
    intro ks ix hks hix
    rw [seg_split (l := ks) h1 (le_trans h2 h3) hks,
      seg_split (l := ix) h1 (le_trans h2 h3) hix,
      List.zip_append (by rw [seg_length (by omega), seg_length (by omega)]),
      seg_split (l := ks) h2 h3 hks, seg_split (l := ix) h2 h3 hix,
      List.zip_append (by rw [seg_length (by omega), seg_length (by omega)])]
  rw [hsplit keys2 idx2 hrk2 hri2, hsplit keys idx hrk hri]
  have e1k : seg keys2 left mid1 = seg keys left mid1 :=
    seg_congr (by omega) (by omega) (fun j _ hj2 => (hout j (Or.inl hj2)).1)
  have e1i : seg idx2 left mid1 = seg idx left mid1 :=
    seg_congr (by omega) (by omega) (fun j _ hj2 => (hout j (Or.inl hj2)).2)
  have e2k : seg keys2 mid2 right = seg keys mid2 right :=
    seg_congr hrk hrk2 (fun j hj1 _ => (hout j (Or.inr hj1)).1)
  have e2i : seg idx2 mid2 right = seg idx mid2 right :=
    seg_congr hri hri2 (fun j hj1 _ => (hout j (Or.inr hj1)).2)
  rw [e1k, e1i, e2k, e2i]
  have hco1 : (↑((seg keys left mid1).zip (seg idx left mid1)
        ++ ((seg keys2 mid1 mid2).zip (seg idx2 mid1 mid2)
          ++ (seg keys mid2 right).zip (seg idx mid2 right))) : Multiset (α × γ))
      = ↑((seg keys left mid1).zip (seg idx left mid1))
        + (↑((seg keys2 mid1 mid2).zip (seg idx2 mid1 mid2))
          + ↑((seg keys mid2 right).zip (seg idx mid2 right))) := by
    simp [Multiset.coe_add]
  have hco2 : (↑((seg keys left mid1).zip (seg idx left mid1)
        ++ ((seg keys mid1 mid2).zip (seg idx mid1 mid2)
          ++ (seg keys mid2 right).zip (seg idx mid2 right))) : Multiset (α × γ))
      = ↑((seg keys left mid1).zip (seg idx left mid1))
        + (↑((seg keys mid1 mid2).zip (seg idx mid1 mid2))
          + ↑((seg keys mid2 right).zip (seg idx mid2 right))) := by
    simp [Multiset.coe_add]
  rw [hco1, hco2, hmid]

/-- The general path of the kv `partition_avx512` (lines 646-719): on an
aligned window of at least two registers it partitions the pairs of
`[left, right)` in place — strictly-less keys left of the cursor, `≥` keys
right of it, indexes carried along — and the zipped window is permuted. -/
lemma partitionMainKV_spec {lanes : Nat} {P : α} (keys : List α) (idx : List γ)
    (left right : Nat) (mn mx : List α) (hl : 1 ≤ lanes)
    (hdvd : lanes ∣ right - left) (h2 : 2 * lanes ≤ right - left)
    (hrlen : right ≤ keys.length) (hki : keys.length = idx.length)
    (hml : mn.length = lanes) (hxl : mx.length = lanes) :
    ∃ p keys' idx' s' b',
      partitionMainKV lanes keys idx left right P mn mx
        = some (p, keys', idx', s', b') ∧
      keys'.length = keys.length ∧ idx'.length = idx.length ∧
      left ≤ p ∧ p ≤ right ∧
      (∀ j x, left ≤ j → j < p → keys'[j]? = some x → x < P) ∧
      (∀ j x, p ≤ j → j < right → keys'[j]? = some x → P ≤ x) ∧
      (∀ j, j < left ∨ right ≤ j → keys'[j]? = keys[j]? ∧ idx'[j]? = idx[j]?) ∧
      (↑((seg keys' left right).zip (seg idx' left right)) : Multiset (α × γ))
        = ↑((seg keys left right).zip (seg idx left right)) := by
  have hvlK : readSeg keys left lanes = some (seg keys left (left + lanes)) := by
    unfold readSeg
    rw [if_pos (by omega)]
  have hvrK : readSeg keys (right - lanes) lanes
      = some (seg keys (right - lanes) right) := by
    unfold readSeg
    rw [if_pos (by omega), show right - lanes + lanes = right from by omega]
  have hvlI : readSeg idx left lanes = some (seg idx left (left + lanes)) := by
    unfold readSeg
    rw [if_pos (by omega)]
  have hvrI : readSeg idx (right - lanes) lanes
      = some (seg idx (right - lanes) right) := by
    unfold readSeg
    rw [if_pos (by omega), show right - lanes + lanes = right from by omega]
  have hvlKlen : (seg keys left (left + lanes)).length = lanes := by
    rw [seg_length (by omega)]
    omega
  have hvrKlen : (seg keys (right - lanes) right).length = lanes := by
    rw [seg_length hrlen]
    omega
  have hvlIlen : (seg idx left (left + lanes)).length = lanes := by
    rw [seg_length (by omega)]
    omega
  have hvrIlen : (seg idx (right - lanes) right).length = lanes := by
    rw [seg_length (by omega)]
    omega
  have hcard : Multiset.card
      ((↑((seg keys left (left + lanes)).zip (seg idx left (left + lanes)))
        : Multiset (α × γ))
      + (↑((seg keys (right - lanes) right).zip (seg idx (right - lanes) right))
        : Multiset (α × γ)))
      = 2 * lanes := by
    rw [Multiset.card_add, Multiset.coe_card, Multiset.coe_card,
      zip_length_eq (by rw [hvlKlen, hvlIlen]),
      zip_length_eq (by rw [hvrKlen, hvrIlen]), hvlKlen, hvrKlen]
    omega
  have inv0 : KVInv lanes P keys idx left right
      ((↑((seg keys left (left + lanes)).zip (seg idx left (left + lanes)))
        : Multiset (α × γ))
      + (↑((seg keys (right - lanes) right).zip (seg idx (right - lanes) right))
        : Multiset (α × γ)))
      keys idx (left + lanes) (right - lanes) left (right - lanes) := by
    refine ⟨rfl, rfl, hki, le_refl _, by omega, by omega, by omega, by omega, hrlen,
      ?_, ?_, fun j x hj1 hj2 _ => absurd hj2 (by omega),
      fun j x hj1 hj2 _ => absurd hj2 (by omega), fun j _ => rfl, fun j _ => rfl, ?_⟩
    · rw [show (right - lanes) - (left + lanes) = right - left - lanes - lanes
        from by omega]
      exact Nat.dvd_sub' (Nat.dvd_sub' hdvd (dvd_refl lanes)) (dvd_refl lanes)
    · rw [hcard]
      omega
    · rw [show right - lanes + lanes = right from by omega]
      rw [seg_nil (le_refl left), seg_nil (le_refl right),
        seg_nil (le_refl left), seg_nil (le_refl right)]
      have hzw : (seg keys left right).zip (seg idx left right)
          = (seg keys left (left + lanes)).zip (seg idx left (left + lanes))
            ++ ((seg keys (left + lanes) (right - lanes)).zip
                (seg idx (left + lanes) (right - lanes))
              ++ (seg keys (right - lanes) right).zip (seg idx (right - lanes) right)) := by
        rw [seg_split (l := keys) (a := left) (b := left + lanes) (c := right)
            (by omega) (by omega) hrlen,
          seg_split (l := idx) (a := left) (b := left + lanes) (c := right)
            (by omega) (by omega) (by omega),
          List.zip_append (by rw [seg_length (by omega), seg_length (by omega)]),
          seg_split (l := keys) (a := left + lanes) (b := right - lanes) (c := right)
            (by omega) (by omega) hrlen,
          seg_split (l := idx) (a := left + lanes) (b := right - lanes) (c := right)
            (by omega) (by omega) (by omega),
          List.zip_append (by rw [seg_length (by omega), seg_length (by omega)])]
      rw [hzw]
      have hco : (↑((seg keys left (left + lanes)).zip (seg idx left (left + lanes))
            ++ ((seg keys (left + lanes) (right - lanes)).zip
                (seg idx (left + lanes) (right - lanes))
              ++ (seg keys (right - lanes) right).zip (seg idx (right - lanes) right)))
            : Multiset (α × γ))
          = ↑((seg keys left (left + lanes)).zip (seg idx left (left + lanes)))
            + (↑((seg keys (left + lanes) (right - lanes)).zip
                (seg idx (left + lanes) (right - lanes)))
              + ↑((seg keys (right - lanes) right).zip
                (seg idx (right - lanes) right))) := by
        simp [Multiset.coe_add]
      rw [hco]
      have hnil1 : (([] : List α).zip ([] : List γ)) = ([] : List (α × γ)) := rfl
      rw [hnil1]
      have hnil : (↑([] : List (α × γ)) : Multiset (α × γ)) = 0 := rfl
      rw [hnil]
      abel
  obtain ⟨keysL, idxL, w, lst1, rst1, mn1, mx1, hrunL, invL, hml1, hxl1⟩ :=
    partLoopKV_spec (((right - lanes) - (left + lanes)) / lanes + 1) keys mn mx idx
      (left + lanes) (right - lanes) left (right - lanes) inv0 hl hml hxl hcard
      (by
        have hq := Nat.div_add_mod ((right - lanes) - (left + lanes)) lanes
        have hm : ((right - lanes) - (left + lanes)) % lanes < lanes :=
          Nat.mod_lt _ (by omega)
        have hfe : (((right - lanes) - (left + lanes)) / lanes + 1) * lanes
            = lanes * (((right - lanes) - (left + lanes)) / lanes) + lanes := by ring
        omega)
  obtain ⟨keys2, idx2, hrun2, inv2⟩ :=
    KVInv_step_flush invL hl hvlKlen hvlIlen
      (by rw [Multiset.coe_card, zip_length_eq (by rw [hvrKlen, hvrIlen]), hvrKlen])
  set k1 := ((seg keys left (left + lanes)).filter (fun x => decide (P ≤ x))).length
    with hk1def
  have hk1 : k1 ≤ lanes := by
    have := filter_ge_add_filter_lt P (seg keys left (left + lanes))
    rw [hvlKlen] at this
    omega
  obtain ⟨hrsteq, keys3, idx3, hrun3, hklen3, hilen3, hpL0, hpR0, hltfin, hgefin,
    hframe3, hmset3⟩ :=
    KVInv_step_final inv2 hl hvrKlen hvrIlen
  set k2 := ((seg keys (right - lanes) right).filter (fun x => decide (P ≤ x))).length
    with hk2def
  have hk2 : k2 ≤ lanes := by
    have := filter_ge_add_filter_lt P (seg keys (right - lanes) right)
    rw [hvrKlen] at this
    omega
  have hml2 : (List.zipWith min (seg keys left (left + lanes)) mn1).length = lanes := by
    rw [List.length_zipWith, hvlKlen, hml1]
    omega
  have hxl2 : (List.zipWith max (seg keys left (left + lanes)) mx1).length = lanes := by
    rw [List.length_zipWith, hvlKlen, hxl1]
    omega
  obtain ⟨m, hmred, -, -⟩ := reducemin_eq_some
    (l := List.zipWith min (seg keys (right - lanes) right)
      (List.zipWith min (seg keys left (left + lanes)) mn1))
    (by
      intro h
      have := congrArg List.length h
      rw [List.length_zipWith, hvrKlen, hml2] at this
      simp at this
      omega)
  obtain ⟨M, hMred, -, -⟩ := reducemax_eq_some
    (l := List.zipWith max (seg keys (right - lanes) right)
      (List.zipWith max (seg keys left (left + lanes)) mx1))
    (by
      intro h
      have := congrArg List.length h
      rw [List.length_zipWith, hvrKlen, hxl2] at this
      simp at this
      omega)
  refine ⟨lst1 + (lanes - k1) + (lanes - k2), keys3, idx3, m, M, ?_,
    by rw [hklen3], by rw [hilen3, ← hki], ?_, ?_, ?_, ?_, hframe3, hmset3⟩
  · rw [partitionMainKV]
    simp only [Option.bind_eq_bind]
    rw [hvlK]
    simp only [Option.some_bind]
    rw [hvrK]
    simp only [Option.some_bind]
    rw [hvlI]
    simp only [Option.some_bind]
    rw [hvrI]
    simp only [Option.some_bind]
    rw [hrunL]
    simp only [Option.some_bind]
    rw [hrun2]
    simp only [Option.some_bind]
    rw [hrun3]
    simp only [Option.some_bind]
    rw [hmred]
    simp only [Option.some_bind]
    rw [hMred]
    simp only [Option.some_bind]
    rfl
  · have := invL.hL0
    omega
  · have := hpR0
    omega
  · intro j x hj1 hj2
    exact hltfin j x hj1 (by omega)
  · intro j x hj1 hj2
    exact hgefin j x (by omega) hj2

/-- The key-value `partition_avx512` (lines 591-720): on any nonempty subrange
it returns a cursor `p` with keys `≤ P` in `[left, p)` and keys `≥ P` in
`[p, right)`, the zipped key-index pairs of the subrange permuted (each index
moves with its key), and nothing outside the subrange written.  The left side
is only `≤ P` — not `< P` — because the scalar alignment loop (lines 606-617)
tests `keys[left] > pivot` and therefore leaves keys equal to the pivot on the
left, unlike the single-array kernel. -/
lemma partition_avx512_kv_spec {lanes : Nat} (P : α) (keys : List α) (idx : List γ)
    (left right : Nat) (s0 b0 : α) (hl : 1 ≤ lanes) (hlr : left < right)
    (hrlen : right ≤ keys.length) (hki : keys.length = idx.length) :
    ∃ p keys' idx' s' b',
      partition_avx512_kv lanes keys idx left right P s0 b0
        = some (p, keys', idx', s', b') ∧
      keys'.length = keys.length ∧ idx'.length = idx.length ∧
      left ≤ p ∧ p ≤ right ∧
      (∀ j x, left ≤ j → j < p → keys'[j]? = some x → x ≤ P) ∧
      (∀ j x, p ≤ j → j < right → keys'[j]? = some x → P ≤ x) ∧
      (∀ j, j < left ∨ right ≤ j → keys'[j]? = keys[j]? ∧ idx'[j]? = idx[j]?) ∧
      (↑((seg keys' left right).zip (seg idx' left right)) : Multiset (α × γ))
        = ↑((seg keys left right).zip (seg idx left right)) := by
  have hlanes0 : 0 < lanes := hl
  have hmod : (right - left) % lanes < lanes := Nat.mod_lt _ hlanes0
  have hmodle : (right - left) % lanes ≤ right - left := Nat.mod_le _ _
  obtain ⟨keysA, idxA, lA, rA, sA, bA, hrunA, hlenKA, hlenIA, h1A, h2A, h3A, hprogA,
    hframeA, hpermA, hleA, hgtA⟩ :=
    alignLoopKV_spec ((right - left) % lanes) keys idx left right s0 b0 hmodle hrlen
      (le_of_lt hlr) hki
  have hqm := Nat.div_add_mod (right - left) lanes
  have hwA : rA - lA = lanes * ((right - left) / lanes) := by omega
  have hrAlen : rA ≤ keysA.length := by omega
  have hkiA : keysA.length = idxA.length := by omega
  by_cases hpr : lA = rA
  · -- the alignment loop consumed the whole window
    refine ⟨lA, keysA, idxA, sA, bA, ?_, hlenKA, hlenIA, h1A, by omega, hleA, ?_,
      hframeA, hpermA⟩
    · rw [partition_avx512_kv]
      simp only [Option.bind_eq_bind]
      rw [hrunA]
      simp only [Option.some_bind]
      rw [if_pos hpr]
      rfl
    · intro j x hj1 hj2 hjx
      exact le_of_lt (hgtA j x (by omega) hj2 hjx)
  · by_cases hsingle : rA - lA = lanes
    · -- the single-register path
      have hlArA : lA < rA := by omega
      have hrAeq : rA = lA + lanes := by omega
      have hkvlen : (seg keysA lA (lA + lanes)).length = lanes := by
        rw [seg_length (by omega)]
        omega
      have hivlen : (seg idxA lA (lA + lanes)).length = lanes := by
        rw [seg_length (by omega)]
        omega
      have hreadK : readSeg keysA lA lanes = some (seg keysA lA (lA + lanes)) := by
        unfold readSeg
        rw [if_pos (by omega)]
      have hreadI : readSeg idxA lA lanes = some (seg idxA lA (lA + lanes)) := by
        unfold readSeg
        rw [if_pos (by omega)]
      have invS : KVInv lanes P keysA idxA lA rA
          (↑((seg keysA lA (lA + lanes)).zip (seg idxA lA (lA + lanes))))
          keysA idxA lA lA lA lA := by
        refine ⟨rfl, rfl, hkiA, le_refl _, le_refl _, le_refl _, by omega, by omega,
          hrAlen, by simp, ?_, fun j x hj1 hj2 _ => absurd hj2 (by omega),
          fun j x hj1 hj2 _ => absurd hj2 (by omega), fun j _ => rfl,
          fun j _ => rfl, ?_⟩
        · rw [Multiset.coe_card, zip_length_eq (by rw [hkvlen, hivlen]), hkvlen]
          omega
        · rw [seg_nil (le_refl lA), seg_nil (le_refl lA)]
          have hnil1 : (([] : List α).zip ([] : List γ)) = ([] : List (α × γ)) := rfl
          rw [hnil1]
          have hRnil : seg keysA (lA + lanes) rA = [] := seg_nil (by omega)
          have hRnil2 : seg idxA (lA + lanes) rA = [] := seg_nil (by omega)
          rw [hRnil, hRnil2, hnil1]
          have hwhole : seg keysA lA rA = seg keysA lA (lA + lanes) := by
            rw [← hrAeq]
          have hwhole2 : seg idxA lA rA = seg idxA lA (lA + lanes) := by
            rw [← hrAeq]
          rw [hwhole, hwhole2]
          have hnil : (↑([] : List (α × γ)) : Multiset (α × γ)) = 0 := rfl
          rw [hnil]
          abel
      obtain ⟨-, keys2, idx2, hrun2, hklen2, hilen2, hpL0, hpR0, hltfin, hgefin,
        hframe2, hmset2⟩ :=
        KVInv_step_final invS hl hkvlen hivlen
      set k := ((seg keysA lA (lA + lanes)).filter (fun x => decide (P ≤ x))).length
        with hkdef
      have hkle : k ≤ lanes := by
        have := filter_ge_add_filter_lt P (seg keysA lA (lA + lanes))
        rw [hkvlen] at this
        omega
      obtain ⟨m, hmred, -, -⟩ := reducemin_eq_some
        (l := List.zipWith min (seg keysA lA (lA + lanes)) (List.replicate lanes sA))
        (by
          intro h
          have := congrArg List.length h
          rw [List.length_zipWith, hkvlen, List.length_replicate] at this
          simp at this
          omega)
      obtain ⟨M, hMred, -, -⟩ := reducemax_eq_some
        (l := List.zipWith max (seg keysA lA (lA + lanes)) (List.replicate lanes bA))
        (by
          intro h
          have := congrArg List.length h
          rw [List.length_zipWith, hkvlen, List.length_replicate] at this
          simp at this
          omega)
      refine ⟨lA + (lanes - k), keys2, idx2, m, M, ?_, by omega, by omega, by omega,
        by omega, ?_, ?_, ?_, ?_⟩
      · rw [partition_avx512_kv]
        simp only [Option.bind_eq_bind]
        rw [hrunA]
        simp only [Option.some_bind]
        rw [if_neg hpr, if_pos hsingle, hreadK]
        simp only [Option.some_bind]
        rw [hreadI]
        simp only [Option.some_bind]
        rw [hrun2]
        simp only [Option.some_bind]
        rw [hmred]
        simp only [Option.some_bind]
        rw [hMred]
        simp only [Option.some_bind]
        rfl
      · intro j x hj1 hj2 hjx
        rcases lt_or_le j lA with hj | hj
        · exact hleA j x hj1 hj (by rw [← (hframe2 j (Or.inl hj)).1]; exact hjx)
        · exact le_of_lt (hltfin j x hj hj2 hjx)
      · intro j x hj1 hj2 hjx
        rcases lt_or_le j rA with hj | hj
        · exact hgefin j x hj1 hj hjx
        · exact le_of_lt (hgtA j x hj hj2
            (by rw [← (hframe2 j (Or.inr hj)).1]; exact hjx))
      · intro j hj
        have hf2 := hframe2 j (by omega)
        have hfA := hframeA j hj
        exact ⟨by rw [hf2.1, hfA.1], by rw [hf2.2, hfA.2]⟩
      · have hstep := zip_seg_mset_congr_mid h1A h2A h3A (by omega)
          (by omega) (by omega) (by omega) hframe2 hmset2
        rw [hstep, hpermA]
    · -- the general path
      have h2A' : 2 * lanes ≤ rA - lA := by
        generalize hg : (right - left) / lanes = q at hwA
        rcases Nat.lt_or_ge q 2 with hq | hq
        · have hq01 : q = 0 ∨ q = 1 := by omega
          rcases hq01 with h | h
          · rw [h] at hwA
            omega
          · rw [h] at hwA
            omega
        · have hmul := Nat.mul_le_mul (le_refl lanes) hq
          omega
      have hdvdA : lanes ∣ rA - lA := ⟨_, hwA⟩
      obtain ⟨p, keysM, idxM, sM, bM, hrunM, hklenM, hilenM, hpl, hpu, hltM, hgeM,
        hframeM, hmsetM⟩ :=
        partitionMainKV_spec keysA idxA lA rA (List.replicate lanes sA)
          (List.replicate lanes bA) hl hdvdA h2A' hrAlen hkiA
          (List.length_replicate _ _) (List.length_replicate _ _)
      refine ⟨p, keysM, idxM, sM, bM, ?_, by omega, by omega, by omega, by omega,
        ?_, ?_, ?_, ?_⟩
      · rw [partition_avx512_kv]
        simp only [Option.bind_eq_bind]
        rw [hrunA]
        simp only [Option.some_bind]
        rw [if_neg hpr, if_neg hsingle]
        exact hrunM
      · intro j x hj1 hj2 hjx
        rcases lt_or_le j lA with hj | hj
        · exact hleA j x hj1 hj (by rw [← (hframeM j (Or.inl hj)).1]; exact hjx)
        · exact le_of_lt (hltM j x hj hj2 hjx)
      · intro j x hj1 hj2 hjx
        rcases lt_or_le j rA with hj | hj
        · exact hgeM j x hj1 hj hjx
        · exact le_of_lt (hgtA j x hj hj2
            (by rw [← (hframeM j (Or.inr hj)).1]; exact hjx))
      · intro j hj
        have hfM := hframeM j (by omega)
        have hfA := hframeA j hj
        exact ⟨by rw [hfM.1, hfA.1], by rw [hfM.2, hfA.2]⟩
      · have hstep := zip_seg_mset_congr_mid h1A h2A h3A (by omega)
          (by omega) (by omega) (by omega) hframeM hmsetM
        rw [hstep, hpermA]

end SimdSort
